import Mathlib

/-!
# Adaptive-metrics provider: wire model, client protocol and exemption resource

A shallow embedding of `internal/model/rule.go`, of the exemption resource in
`internal/provider/exemption_resource.go` and of the HTTP client exercised by
`internal/client/client_test.go`, together with the properties proved of them.

The strings of the models are represented by `String`, which holds well-formed text;
where the bytes of a Go string matter, in the JSON round trip of a rule, the rule is also
given with its strings as sequences of bytes (`AggregationRuleBytes`).  A Go slice is
represented by `Slice α`: `none` is the nil slice, `some xs` a non-nil slice with elements
`xs`.  The time library and its JSON text form of a timestamp are a parameter
(`TimeCodec`).
-/

namespace AdaptiveMetrics

/-! ## Go slices -/

/-- A Go slice: `none` is nil, `some xs` is a non-nil slice holding `xs`. -/
abbrev Slice (α : Type) := Option (List α)

/-- The elements of a slice; a nil slice has none. -/
def Slice.elems {α : Type} : Slice α → List α
  | none => []
  | some xs => xs

/-- Go `len(s)`. -/
def Slice.len {α : Type} (s : Slice α) : Nat := s.elems.length

/-- Go `make([]T, n)`: a non-nil slice of `n` zero values. -/
def Slice.make {α : Type} (zero : α) (n : Nat) : Slice α := some (List.replicate n zero)

/-- Go `out[i] = v` on a slice (an index in range is assumed by the callers). -/
def Slice.setAt {α : Type} (s : Slice α) (i : Nat) (v : α) : Slice α :=
  s.map fun xs => xs.set i v

/-! ## Terraform framework values (`types.String`, `types.Bool`, `types.Int64`) -/

/-- A framework value is null, unknown, or known with a Go value.  The zero value of the
Go struct is the null value. -/
inductive TFValue (α : Type) where
  | null
  | unknown
  | known (v : α)
  deriving DecidableEq, Repr

abbrev TFString := TFValue String
abbrev TFBool := TFValue Bool
abbrev TFInt64 := TFValue Int

/-- The framework constructor `types.StringValue`. -/
def StringValue (s : String) : TFString := .known s

/-- The framework constructor `types.BoolValue`. -/
def BoolValue (b : Bool) : TFBool := .known b

/-- The framework constructor `types.Int64Value`. -/
def Int64Value (n : Int) : TFInt64 := .known n

/-- The accessor `ValueString`: the known value, else the empty string. -/
def TFValue.ValueString : TFString → String
  | .known s => s
  | _ => ""

/-- The accessor `ValueBool`: the known value, else false. -/
def TFValue.ValueBool : TFBool → Bool
  | .known b => b
  | _ => false

/-- The accessor `ValueInt64`: the known value, else zero. -/
def TFValue.ValueInt64 : TFInt64 → Int
  | .known n => n
  | _ => 0

/-! ## `internal/model/rule.go` -/

/-- The wire model of an aggregation rule (`model.AggregationRule`). -/
structure AggregationRule where
  Metric : String := ""
  MatchType : String := ""
  Drop : Bool := false
  KeepLabels : Slice String := none
  DropLabels : Slice String := none
  Aggregations : Slice String := none
  AggregationInterval : String := ""
  AggregationDelay : String := ""
  Ingest : Bool := false
  deriving DecidableEq, Repr

/-- The Terraform-side model of a rule (`model.RuleTF`). -/
structure RuleTF where
  Metric : TFString := .null
  MatchType : TFString := .null
  Drop : TFBool := .null
  KeepLabels : Slice TFString := none
  DropLabels : Slice TFString := none
  Aggregations : Slice TFString := none
  AggregationInterval : TFString := .null
  AggregationDelay : TFString := .null
  Ingest : TFBool := .null
  LastUpdated : TFString := .null
  deriving DecidableEq, Repr

/-- The loop body of both slice conversions: `out[i] = f s` for each `i, s := range in`,
starting from `out := make([]T, len(in))`. -/
def convertSlice {α β : Type} (zero : β) (f : α → β) (xs : Slice α) : Slice β :=
  (xs.elems.enum).foldl (fun out p => Slice.setAt out p.1 (f p.2)) (Slice.make zero xs.len)

/-- `toTypesStringSlice`. -/
def toTypesStringSlice (xs : Slice String) : Slice TFString :=
  convertSlice TFValue.null StringValue xs

/-- `toStringSlice`. -/
def toStringSlice (xs : Slice TFString) : Slice String :=
  convertSlice "" TFValue.ValueString xs

/-- `AggregationRule.ToTF`; `LastUpdated` is not set and keeps its zero value. -/
def AggregationRule.ToTF (r : AggregationRule) : RuleTF :=
  { Metric := StringValue r.Metric
    MatchType := StringValue r.MatchType
    Drop := BoolValue r.Drop
    KeepLabels := toTypesStringSlice r.KeepLabels
    DropLabels := toTypesStringSlice r.DropLabels
    Aggregations := toTypesStringSlice r.Aggregations
    AggregationInterval := StringValue r.AggregationInterval
    AggregationDelay := StringValue r.AggregationDelay
    Ingest := BoolValue r.Ingest }

/-- `RuleTF.ToAPIReq`. -/
def RuleTF.ToAPIReq (r : RuleTF) : AggregationRule :=
  { Metric := r.Metric.ValueString
    MatchType := r.MatchType.ValueString
    Drop := r.Drop.ValueBool
    KeepLabels := toStringSlice r.KeepLabels
    DropLabels := toStringSlice r.DropLabels
    Aggregations := toStringSlice r.Aggregations
    AggregationInterval := r.AggregationInterval.ValueString
    AggregationDelay := r.AggregationDelay.ValueString
    Ingest := r.Ingest.ValueBool }

/-! ## JSON values, their text form, and the text parser (`encoding/json`) -/

/-- A JSON value; a number keeps its source text.  A string literal written the way the
encoder writes its text is `str`; one written otherwise, with an escape the encoder does not
use or without one it uses, is `lit` and keeps its source text between the quotes next to
the text it stands for. -/
inductive JSON where
  | null
  | bool (b : Bool)
  | num (raw : String)
  | str (s : String)
  | arr (xs : List JSON)
  | obj (kvs : List (String × JSON))
  | lit (raw : String) (s : String)

/-- One lower-case hexadecimal digit. -/
def hexDigit (n : Nat) : Char := Char.ofNat (if n < 10 then 48 + n else 87 + n)

/-- The four hexadecimal digits of a code point below 65536. -/
def hex4 (n : Nat) : List Char :=
  [hexDigit (n / 4096 % 16), hexDigit (n / 256 % 16), hexDigit (n / 16 % 16), hexDigit (n % 16)]

/-- Does the encoder write this character as a `\u` escape?  Control characters without a
short escape, the HTML characters `<`, `>`, `&`, and the line separators U+2028, U+2029. -/
def needsUnicodeEscape (c : Char) : Bool :=
  c.toNat < 32 || c.toNat = 60 || c.toNat = 62 || c.toNat = 38 || c.toNat = 8232 || c.toNat = 8233

/-- The encoding of one character inside a JSON string, with HTML escaping on, as
`json.Marshal` does it.  Backspace and form feed have their short escapes, as in current Go
releases; older releases write them as `\u` escapes, which decode to the same character. -/
def escapeChar (c : Char) : List Char :=
  if c.toNat = 34 then ['\\', '"']
  else if c.toNat = 92 then ['\\', '\\']
  else if c.toNat = 8 then ['\\', 'b']
  else if c.toNat = 12 then ['\\', 'f']
  else if c.toNat = 10 then ['\\', 'n']
  else if c.toNat = 13 then ['\\', 'r']
  else if c.toNat = 9 then ['\\', 't']
  else if needsUnicodeEscape c then '\\' :: 'u' :: hex4 c.toNat
  else [c]

/-- The escaped characters of a string body. -/
def escapeChars : List Char → List Char
  | [] => []
  | c :: cs => escapeChar c ++ escapeChars cs

/-- A JSON string literal: the escaped body between quotes. -/
def renderString (s : String) : List Char := '"' :: (escapeChars s.data ++ ['"'])

/-- The source text of the literal the encoder writes for a text, between its quotes. -/
def literalText (s : String) : String := String.mk (escapeChars s.data)

mutual
/-- The compact text of a JSON value, as `json.Marshal` writes it. -/
def renderChars : JSON → List Char
  | .null => ['n', 'u', 'l', 'l']
  | .bool true => ['t', 'r', 'u', 'e']
  | .bool false => ['f', 'a', 'l', 's', 'e']
  | .num raw => raw.data
  | .str s => renderString s
  | .arr xs => '[' :: (renderElems xs ++ [']'])
  | .obj kvs => Char.ofNat 123 :: (renderMembers kvs ++ [Char.ofNat 125])
  | .lit raw _ => '"' :: (raw.data ++ ['"'])
/-- The elements of an array, separated by commas. -/
def renderElems : List JSON → List Char
  | [] => []
  | x :: rest => renderChars x ++ (if rest.isEmpty then [] else ',' :: renderElems rest)
/-- The members of an object, separated by commas. -/
def renderMembers : List (String × JSON) → List Char
  | [] => []
  | (k, v) :: rest =>
    renderString k ++ (':' :: (renderChars v ++
      (if rest.isEmpty then [] else ',' :: renderMembers rest)))
end

/-- The text of a JSON value. -/
def JSON.render (j : JSON) : String := String.mk (renderChars j)

/-- JSON whitespace: space, tab, line feed, carriage return. -/
def isWs (c : Char) : Bool := c.toNat = 32 || c.toNat = 9 || c.toNat = 10 || c.toNat = 13

/-- Drop leading whitespace. -/
def skipWs : List Char → List Char
  | [] => []
  | c :: cs => if isWs c then skipWs cs else c :: cs

/-- The value of a hexadecimal digit of either case. -/
def hexVal (c : Char) : Option Nat :=
  let n := c.toNat
  if 48 ≤ n ∧ n ≤ 57 then some (n - 48)
  else if 97 ≤ n ∧ n ≤ 102 then some (n - 87)
  else if 65 ≤ n ∧ n ≤ 70 then some (n - 55)
  else none

/-- The value of four hexadecimal digits. -/
def hex4Val (a b c d : Char) : Option Nat :=
  match hexVal a, hexVal b, hexVal c, hexVal d with
  | some w, some x, some y, some z => some (w * 4096 + x * 256 + y * 16 + z)
  | _, _, _, _ => none

/-- The character a one-letter escape stands for. -/
def unescapeSimple (e : Char) : Option Char :=
  if e.toNat = 34 then some '"'
  else if e.toNat = 92 then some '\\'
  else if e.toNat = 47 then some '/'
  else if e.toNat = 98 then some (Char.ofNat 8)
  else if e.toNat = 102 then some (Char.ofNat 12)
  else if e.toNat = 110 then some (Char.ofNat 10)
  else if e.toNat = 114 then some (Char.ofNat 13)
  else if e.toNat = 116 then some (Char.ofNat 9)
  else none

/-- Put a decoded character in front of the rest of a parsed string body. -/
def consChar (c : Char) (r : Option (List Char × List Char)) : Option (List Char × List Char) :=
  r.map fun p => (c :: p.1, p.2)

/-- Is the code unit a high (leading) surrogate? -/
def isHighSurrogate (n : Nat) : Bool := 55296 ≤ n && n < 56320

/-- Is the code unit a low (trailing) surrogate? -/
def isLowSurrogate (n : Nat) : Bool := 56320 ≤ n && n < 57344

/-- The low surrogate escape at the head of the input, if there is one. -/
def lowSurrogateAhead (cs : List Char) : Option (Nat × List Char) :=
  match cs with
  | b :: u :: e :: f :: g :: h :: rest =>
    if b.toNat = 92 ∧ u.toNat = 117 then
      match hex4Val e f g h with
      | some m => if isLowSurrogate m then some (m, rest) else none
      | none => none
    else none
  | _ => none

/-- The body of a string literal after its opening quote: the decoded characters and the
input after the closing quote.  A surrogate pair of escapes gives one character, a lone
surrogate escape gives U+FFFD, a raw control character is an error. -/
def parseStringBody : Nat → List Char → Option (List Char × List Char)
  | 0, _ => none
  | _ + 1, [] => none
  | n + 1, c :: rest =>
    if c.toNat = 34 then some ([], rest)
    else if c.toNat = 92 then
      match rest with
      | [] => none
      | e :: rest2 =>
        if e.toNat = 117 then
          match rest2 with
          | a :: b :: c2 :: d :: rest3 =>
            match hex4Val a b c2 d with
            | none => none
            | some v =>
              if isHighSurrogate v then
                match lowSurrogateAhead rest3 with
                | some (m, rest4) =>
                  consChar (Char.ofNat (65536 + (v - 55296) * 1024 + (m - 56320)))
                    (parseStringBody n rest4)
                | none => consChar (Char.ofNat 65533) (parseStringBody n rest3)
              else if isLowSurrogate v then
                consChar (Char.ofNat 65533) (parseStringBody n rest3)
              else consChar (Char.ofNat v) (parseStringBody n rest3)
          | _ => none
        else
          match unescapeSimple e with
          | none => none
          | some ch => consChar ch (parseStringBody n rest2)
    else if c.toNat < 32 then none
    else consChar c (parseStringBody n rest)

/-- Is the character a decimal digit? -/
def isDigit (c : Char) : Bool := 48 ≤ c.toNat && c.toNat ≤ 57

/-- Split off the leading decimal digits. -/
def spanDigits : List Char → List Char × List Char
  | [] => ([], [])
  | c :: cs => if isDigit c then ((spanDigits cs).1.cons c, (spanDigits cs).2) else ([], c :: cs)

/-- A JSON number: optional minus sign, integer part without a superfluous leading zero,
optional fraction, optional exponent.  Returns the number text and the input after it. -/
def parseNumber (cs : List Char) : Option (List Char × List Char) :=
  let (sign, cs1) := match cs with
    | c :: r => if c.toNat = 45 then ([c], r) else ([], cs)
    | [] => ([], cs)
  let (ds, cs2) := spanDigits cs1
  if ds.isEmpty then none
  else if ds.length > 1 ∧ ds.head? = some '0' then none
  else
    let fracPart : Option (List Char × List Char) := match cs2 with
      | c :: r =>
        if c.toNat = 46 then
          let (fs, r2) := spanDigits r
          if fs.isEmpty then none else some (c :: fs, r2)
        else some ([], cs2)
      | [] => some ([], cs2)
    match fracPart with
    | none => none
    | some (fr, cs3) =>
      let expPart : Option (List Char × List Char) := match cs3 with
        | c :: r =>
          if c.toNat = 101 ∨ c.toNat = 69 then
            let (sg, r1) := match r with
              | s :: r0 => if s.toNat = 43 ∨ s.toNat = 45 then ([s], r0) else ([], r)
              | [] => ([], r)
            let (es, r2) := spanDigits r1
            if es.isEmpty then none else some (c :: (sg ++ es), r2)
          else some ([], cs3)
        | [] => some ([], cs3)
      match expPart with
      | none => none
      | some (ex, cs4) => some (sign ++ ds ++ fr ++ ex, cs4)

/-- Remove the given literal text from the head of the input. -/
def stripLit : List Char → List Char → Option (List Char)
  | [], cs => some cs
  | _ :: _, [] => none
  | l :: ls, c :: cs => if l = c then stripLit ls cs else none

/-- The elements of an array after the first has been found to exist: a value, then a comma
and more elements, or the closing bracket. -/
def parseElemsWith (pv : List Char → Option (JSON × List Char)) :
    Nat → List Char → Option (List JSON × List Char)
  | 0, _ => none
  | n + 1, cs =>
    match pv cs with
    | none => none
    | some (x, rest) =>
      match skipWs rest with
      | [] => none
      | c :: rest2 =>
        if c.toNat = 44 then (parseElemsWith pv n rest2).map fun p => (x :: p.1, p.2)
        else if c.toNat = 93 then some ([x], rest2)
        else none

/-- The members of a non-empty object: a string key, a colon, a value, then a comma and more
members, or the closing brace. -/
def parseMembersWith (pv : List Char → Option (JSON × List Char)) :
    Nat → List Char → Option (List (String × JSON) × List Char)
  | 0, _ => none
  | n + 1, cs =>
    match skipWs cs with
    | [] => none
    | q :: r0 =>
      if q.toNat = 34 then
        match parseStringBody (r0.length + 1) r0 with
        | none => none
        | some (k, r1) =>
          match skipWs r1 with
          | [] => none
          | col :: r2 =>
            if col.toNat = 58 then
              match pv r2 with
              | none => none
              | some (v, r3) =>
                match skipWs r3 with
                | [] => none
                | c :: r4 =>
                  if c.toNat = 44 then
                    (parseMembersWith pv n r4).map fun p => ((String.mk k, v) :: p.1, p.2)
                  else if c.toNat = 125 then some ([(String.mk k, v)], r4)
                  else none
            else none
      else none

/-- The value of a string literal with the given source text between its quotes and the
given decoded text. -/
def stringValue (raw decoded : List Char) : JSON :=
  if raw = escapeChars decoded then .str (String.mk decoded)
  else .lit (String.mk raw) (String.mk decoded)

/-- The nesting depth `json.Unmarshal` allows: an array or object nested deeper is an
error. -/
def maxNestingDepth : Nat := 10000

/-- One JSON value at the head of the input, after optional whitespace.  `levels` is one more
than the number of arrays and objects that may still be opened around a value: an array or
object needs a level for itself and leaves one less to what it holds. -/
def parseValue : Nat → List Char → Option (JSON × List Char)
  | 0, _ => none
  | levels + 1, cs =>
    match skipWs cs with
    | [] => none
    | c :: rest =>
      if c.toNat = 123 then
        if levels = 0 then none
        else
          match skipWs rest with
          | [] => none
          | d :: rest2 =>
            if d.toNat = 125 then some (.obj [], rest2)
            else (parseMembersWith (parseValue levels) (rest.length + 1) rest).map
              fun p => (.obj p.1, p.2)
      else if c.toNat = 91 then
        if levels = 0 then none
        else
          match skipWs rest with
          | [] => none
          | d :: rest2 =>
            if d.toNat = 93 then some (.arr [], rest2)
            else (parseElemsWith (parseValue levels) (rest.length + 1) rest).map
              fun p => (.arr p.1, p.2)
      else if c.toNat = 34 then
        (parseStringBody (rest.length + 1) rest).map fun p =>
          (stringValue (rest.take (rest.length - p.2.length - 1)) p.1, p.2)
      else if c.toNat = 116 then (stripLit ['r', 'u', 'e'] rest).map fun r => (.bool true, r)
      else if c.toNat = 102 then
        (stripLit ['a', 'l', 's', 'e'] rest).map fun r => (.bool false, r)
      else if c.toNat = 110 then (stripLit ['u', 'l', 'l'] rest).map fun r => (.null, r)
      else (parseNumber (c :: rest)).map fun p => (.num (String.mk p.1), p.2)

/-- Parse a whole JSON text: one value nested no deeper than `maxNestingDepth`, then nothing
but whitespace. -/
def JSON.parse (s : String) : Option JSON :=
  match parseValue (maxNestingDepth + 1) s.data with
  | none => none
  | some (j, rest) => if (skipWs rest).isEmpty then some j else none

/-! ## `json.Marshal` and `json.Unmarshal` at the rule model -/

/-- Why `json.Unmarshal` failed: the text is not JSON, or a value has the wrong JSON type
for the Go field it is decoded into. -/
inductive DecodeError where
  | malformed
  | typeMismatch
  deriving DecidableEq, Repr

/-- The result of a decode. -/
inductive Decoded (α : Type) where
  | ok (v : α)
  | error (e : DecodeError)
  deriving DecidableEq, Repr

/-- Sequencing of decodes: the first error is kept. -/
def Decoded.andThen {α β : Type} (d : Decoded α) (f : α → Decoded β) : Decoded β :=
  match d with
  | .ok v => f v
  | .error e => .error e

/-- The case fold the decoder applies to a key character: ASCII letters to upper case, the
Kelvin sign to `K`, the long s to `S`. -/
def foldRune (c : Char) : Char :=
  if 97 ≤ c.toNat ∧ c.toNat ≤ 122 then Char.ofNat (c.toNat - 32)
  else if c.toNat = 8490 then 'K'
  else if c.toNat = 383 then 'S'
  else c

/-- The folded form of a key. -/
def foldName (s : String) : List Char := s.data.map foldRune

/-- The struct field a JSON key selects: the field of exactly that name, else the first
field whose name matches under case folding. -/
def findField {φ : Type} (fields : List (String × φ)) (key : String) : Option φ :=
  match fields.find? (fun p => p.1 = key) with
  | some p => some p.2
  | none => (fields.find? (fun p => foldName p.1 = foldName key)).map (fun p => p.2)

/-- Decode a JSON value into a Go string holding `cur`: null leaves it as it is. -/
def decodeString (cur : String) : JSON → Decoded String
  | .str s => .ok s
  | .lit _ s => .ok s
  | .null => .ok cur
  | _ => .error .typeMismatch

/-- Decode a JSON value into a Go bool holding `cur`: null leaves it as it is. -/
def decodeBool (cur : Bool) : JSON → Decoded Bool
  | .bool b => .ok b
  | .null => .ok cur
  | _ => .error .typeMismatch

/-- A string slice in memory during a decode: the slice, and the elements its backing array
holds past its length, left there by an earlier and longer value of the same field. -/
structure Backed where
  slice : Slice String := none
  spare : List String := []
  deriving DecidableEq, Repr

/-- Decode the elements of a JSON array into the slots of a backing array; element `i` is
decoded into the slot that holds `mem[i]`, or into a zero value past the end of the backing
array, so that a null element keeps what the slot held. -/
def decodeStringElems : List String → List JSON → Decoded (List String)
  | _, [] => .ok []
  | mem, x :: xs =>
    (decodeString (mem.headD "") x).andThen fun s =>
      (decodeStringElems mem.tail xs).andThen fun rest => .ok (s :: rest)

/-- Decode a JSON value into a Go `[]string`: null gives the nil slice, an empty array a
fresh empty slice, another array the slice of its elements decoded over the backing array,
whose later elements stay behind the new length. -/
def decodeStringSlice (cur : Backed) : JSON → Decoded Backed
  | .arr xs =>
    if xs.isEmpty then .ok ⟨some [], []⟩
    else
      (decodeStringElems (cur.slice.elems ++ cur.spare) xs).andThen fun ys =>
        .ok ⟨some ys, (cur.slice.elems ++ cur.spare).drop ys.length⟩
  | .null => .ok ⟨none, []⟩
  | _ => .error .typeMismatch

/-- The JSON-visible fields of `AggregationRule`. -/
inductive RuleField where
  | Metric | MatchType | Drop | KeepLabels | DropLabels | Aggregations
  | AggregationInterval | AggregationDelay | Ingest
  deriving DecidableEq, Repr

/-- The `json` tag names of `AggregationRule`, in declaration order. -/
def ruleFields : List (String × RuleField) :=
  [("metric", .Metric), ("match_type", .MatchType), ("drop", .Drop),
   ("keep_labels", .KeepLabels), ("drop_labels", .DropLabels),
   ("aggregations", .Aggregations), ("aggregation_interval", .AggregationInterval),
   ("aggregation_delay", .AggregationDelay), ("ingest", .Ingest)]

/-- A rule in memory during a decode: the rule, and for each of its lists the elements its
backing array holds past its length. -/
structure RuleMem where
  rule : AggregationRule := {}
  KeepLabels : List String := []
  DropLabels : List String := []
  Aggregations : List String := []
  deriving DecidableEq, Repr

/-- Decode one JSON value into one field of a rule. -/
def setRuleField (m : RuleMem) (f : RuleField) (v : JSON) : Decoded RuleMem :=
  match f with
  | .Metric =>
    (decodeString m.rule.Metric v).andThen fun x => .ok { m with rule.Metric := x }
  | .MatchType =>
    (decodeString m.rule.MatchType v).andThen fun x => .ok { m with rule.MatchType := x }
  | .Drop => (decodeBool m.rule.Drop v).andThen fun x => .ok { m with rule.Drop := x }
  | .KeepLabels =>
    (decodeStringSlice ⟨m.rule.KeepLabels, m.KeepLabels⟩ v).andThen fun x =>
      .ok { m with rule.KeepLabels := x.slice, KeepLabels := x.spare }
  | .DropLabels =>
    (decodeStringSlice ⟨m.rule.DropLabels, m.DropLabels⟩ v).andThen fun x =>
      .ok { m with rule.DropLabels := x.slice, DropLabels := x.spare }
  | .Aggregations =>
    (decodeStringSlice ⟨m.rule.Aggregations, m.Aggregations⟩ v).andThen fun x =>
      .ok { m with rule.Aggregations := x.slice, Aggregations := x.spare }
  | .AggregationInterval =>
    (decodeString m.rule.AggregationInterval v).andThen fun x =>
      .ok { m with rule.AggregationInterval := x }
  | .AggregationDelay =>
    (decodeString m.rule.AggregationDelay v).andThen fun x =>
      .ok { m with rule.AggregationDelay := x }
  | .Ingest => (decodeBool m.rule.Ingest v).andThen fun x => .ok { m with rule.Ingest := x }

/-- Decode the members of a JSON object into a rule, in order; a key that selects no field
is skipped, a later member of the same key decodes over the earlier one. -/
def decodeRuleMembers : RuleMem → List (String × JSON) → Decoded RuleMem
  | m, [] => .ok m
  | m, (k, v) :: rest =>
    match findField ruleFields k with
    | none => decodeRuleMembers m rest
    | some f => (setRuleField m f v).andThen fun m2 => decodeRuleMembers m2 rest

/-- Decode a JSON value into a rule holding `cur`: an object sets fields, null leaves the
rule as it is, anything else is a type mismatch. -/
def decodeRule (cur : AggregationRule) : JSON → Decoded AggregationRule
  | .obj kvs => (decodeRuleMembers { rule := cur } kvs).andThen fun m => .ok m.rule
  | .null => .ok cur
  | _ => .error .typeMismatch

/-- Decode the elements of a JSON array, each into a zero rule. -/
def decodeRuleElems : List JSON → Decoded (List AggregationRule)
  | [] => .ok []
  | x :: xs =>
    (decodeRule {} x).andThen fun r =>
      (decodeRuleElems xs).andThen fun rest => .ok (r :: rest)

/-- Decode a JSON value into a nil `[]AggregationRule`. -/
def decodeRules : JSON → Decoded (Slice AggregationRule)
  | .arr xs => (decodeRuleElems xs).andThen fun rs => .ok (some rs)
  | .null => .ok none
  | _ => .error .typeMismatch

/-- A string member with `omitempty`: left out when the string is empty. -/
def omitEmptyString (key : String) (s : String) : List (String × JSON) :=
  if s = "" then [] else [(key, .str s)]

/-- A bool member with `omitempty`: left out when false. -/
def omitEmptyBool (key : String) (b : Bool) : List (String × JSON) :=
  if b = false then [] else [(key, .bool b)]

/-- A `[]string` member with `omitempty`: left out when the slice has length zero. -/
def omitEmptySlice (key : String) (xs : Slice String) : List (String × JSON) :=
  if xs.len = 0 then [] else [(key, .arr (xs.elems.map JSON.str))]

/-- The JSON object `json.Marshal` builds from a rule, following the struct tags. -/
def AggregationRule.toJSON (r : AggregationRule) : JSON :=
  .obj ([("metric", JSON.str r.Metric)]
    ++ omitEmptyString "match_type" r.MatchType
    ++ omitEmptyBool "drop" r.Drop
    ++ omitEmptySlice "keep_labels" r.KeepLabels
    ++ omitEmptySlice "drop_labels" r.DropLabels
    ++ omitEmptySlice "aggregations" r.Aggregations
    ++ omitEmptyString "aggregation_interval" r.AggregationInterval
    ++ omitEmptyString "aggregation_delay" r.AggregationDelay
    ++ omitEmptyBool "ingest" r.Ingest)

/-- The JSON value of a `[]AggregationRule`: null for the nil slice, else an array. -/
def rulesToJSON : Slice AggregationRule → JSON
  | none => .null
  | some rs => .arr (rs.map AggregationRule.toJSON)

/-- `json.Marshal` of a rule. -/
def marshalRule (r : AggregationRule) : String := r.toJSON.render

/-- `json.Marshal` of a rule list. -/
def marshalRules (rs : Slice AggregationRule) : String := (rulesToJSON rs).render

/-- Parse a text and decode the value with the given decoder. -/
def unmarshalWith {α : Type} (dec : JSON → Decoded α) (data : String) : Decoded α :=
  match JSON.parse data with
  | none => .error .malformed
  | some j => dec j

/-- `json.Unmarshal` of a text into a zero rule. -/
def unmarshalRule (data : String) : Decoded AggregationRule := unmarshalWith (decodeRule {}) data

/-- `json.Unmarshal` of a text into a nil rule list. -/
def unmarshalRules (data : String) : Decoded (Slice AggregationRule) :=
  unmarshalWith decodeRules data

/-- The keys of a JSON object, in order; other values have none. -/
def JSON.keys : JSON → List String
  | .obj kvs => kvs.map fun p => p.1
  | _ => []

/-- A slice with the nil and the empty slice identified: the slice a decode gives back
for the slice that was encoded with `omitempty`. -/
def normSlice {α : Type} (xs : Slice α) : Slice α := if xs.len = 0 then none else xs

/-- A rule with its empty lists turned into nil lists. -/
def AggregationRule.normalize (r : AggregationRule) : AggregationRule :=
  { r with
    KeepLabels := normSlice r.KeepLabels
    DropLabels := normSlice r.DropLabels
    Aggregations := normSlice r.Aggregations }

/-- Equality of rules in every field, a nil list and an empty list counted as the same. -/
def AggregationRule.sameValue (a b : AggregationRule) : Prop :=
  a.Metric = b.Metric ∧ a.MatchType = b.MatchType ∧ a.Drop = b.Drop
    ∧ a.KeepLabels.elems = b.KeepLabels.elems ∧ a.DropLabels.elems = b.DropLabels.elems
    ∧ a.Aggregations.elems = b.Aggregations.elems
    ∧ a.AggregationInterval = b.AggregationInterval
    ∧ a.AggregationDelay = b.AggregationDelay ∧ a.Ingest = b.Ingest

/-- The test fixture `minifiedJson`. -/
def minifiedJson : String :=
  "[\x7b\"metric\":\"kube_persistentvolumeclaim_created\",\"drop_labels\":[\"persistentvolumeclaim\"],\"aggregations\":[\"count\",\"sum\"]\x7d,\x7b\"metric\":\"kube_persistentvolumeclaim_resource_requests_storage_bytes\",\"drop_labels\":[\"persistentvolumeclaim\"],\"aggregations\":[\"count\",\"sum\"]\x7d]"

/-- The test fixture `rulesPayload`. -/
def rulesPayload : Slice AggregationRule :=
  some [
    { Metric := "kube_persistentvolumeclaim_created"
      DropLabels := some ["persistentvolumeclaim"]
      Aggregations := some ["count", "sum"] },
    { Metric := "kube_persistentvolumeclaim_resource_requests_storage_bytes"
      DropLabels := some ["persistentvolumeclaim"]
      Aggregations := some ["count", "sum"] }]

/-! ## Timestamps (`time.Time`) -/

/-- An instant: seconds since the Unix epoch and nanoseconds within the second.  The zone
a Go `time.Time` also carries is not represented. -/
structure Time where
  sec : Int
  nsec : Nat
  deriving DecidableEq, Repr

/-- The zero `time.Time{}`: January 1 of year 1, 00:00:00 UTC. -/
def Time.zero : Time := ⟨-62135596800, 0⟩

instance : Inhabited Time := ⟨Time.zero⟩

/-- The library function `time.Unix(sec, 0)`. -/
def timeUnix (sec : Int) : Time := ⟨sec, 0⟩

/-- The library method `Time.Unix`. -/
def Time.Unix (t : Time) : Int := t.sec

/-- The JSON text form of a timestamp, as the methods `Time.MarshalJSON` and
`Time.UnmarshalJSON` of the Go library give it: the text written for an instant between the
quotes, none when the library refuses to write it, and the instant read from the source
text between the quotes of a literal, none when the library refuses the text.  The library
is not part of this repository and the texts it accepts differ between its releases, so
both directions are taken as given: every definition and property below holds for every
such pair. -/
structure TimeCodec where
  marshal : Time → Option String
  unmarshal : String → Option Time

/-- Hand the source text of a literal to the library. -/
def unmarshalTime (tc : TimeCodec) (raw : String) : Decoded Time :=
  match tc.unmarshal raw with
  | some t => .ok t
  | none => .error .typeMismatch

/-- Decode a JSON value into a `time.Time` holding `cur`: a string literal is handed to the
library as it is written, escapes included, and sets the time if the library reads it; null
leaves the time as it is. -/
def decodeTime (tc : TimeCodec) (cur : Time) : JSON → Decoded Time
  | .str s => unmarshalTime tc (literalText s)
  | .lit raw _ => unmarshalTime tc raw
  | .null => .ok cur
  | _ => .error .typeMismatch

/-! ## The exemption, recommendation and configuration models -/

/-- Modelled from the spec: the wire model `model.Exemption`, whose source file is missing.
The fields are those of the spec's data model and of the bodies in `client_test.go`. -/
structure Exemption where
  ID : String := ""
  Metric : String := ""
  KeepLabels : Slice String := none
  CreatedAt : Time := Time.zero
  UpdatedAt : Time := Time.zero
  deriving DecidableEq, Repr

/-- Modelled from the spec: the Terraform-side model `model.ExemptionTF`, whose source file
is missing.  The attributes are those of the resource schema, and `LastUpdated` is the field
the resource assigns. -/
structure ExemptionTF where
  ID : TFString := .null
  Metric : TFString := .null
  KeepLabels : Slice TFString := none
  CreatedAt : TFInt64 := .null
  UpdatedAt : TFInt64 := .null
  LastUpdated : TFString := .null
  deriving DecidableEq, Repr

/-- Modelled from the spec: `Exemption.ToTF`, whose source is missing, after the pattern of
`AggregationRule.ToTF`.  The spec has no words for the conversion of the two timestamps; the
schema of the resource describes the two attributes as Unix timestamps, and that is what is
taken here. -/
def Exemption.ToTF (e : Exemption) : ExemptionTF :=
  { ID := StringValue e.ID
    Metric := StringValue e.Metric
    KeepLabels := toTypesStringSlice e.KeepLabels
    CreatedAt := Int64Value e.CreatedAt.Unix
    UpdatedAt := Int64Value e.UpdatedAt.Unix }

/-- Modelled from the spec: `ExemptionTF.ToAPIReq`, whose source is missing, after the
pattern of `RuleTF.ToAPIReq`: each field from the attribute of the same name.  The spec has
no words for the conversion of the two timestamps; the inverse of the one in `ToTF` is taken
here. -/
def ExemptionTF.ToAPIReq (e : ExemptionTF) : Exemption :=
  { ID := e.ID.ValueString
    Metric := e.Metric.ValueString
    KeepLabels := toStringSlice e.KeepLabels
    CreatedAt := timeUnix e.CreatedAt.ValueInt64
    UpdatedAt := timeUnix e.UpdatedAt.ValueInt64 }

/-- Modelled from the spec: `model.AggregationRecommendationConfiguration`, whose source is
missing: the singleton holding the `keep_labels` list. -/
structure AggregationRecommendationConfiguration where
  KeepLabels : Slice String := none
  deriving DecidableEq, Repr

/-- Modelled from the spec: `model.AggregationRecommendation`, whose source is missing: it
wraps a rule, whose keys are the keys of the recommendation object. -/
structure AggregationRecommendation where
  AggregationRule : AggregationRule := {}
  deriving DecidableEq, Repr

/-- The JSON value of a `[]string` written without `omitempty`: null for the nil slice. -/
def sliceToJSON : Slice String → JSON
  | none => .null
  | some xs => .arr (xs.map JSON.str)

/-- The JSON object of an exemption: every key is written (the test bodies carry an empty
`id` and zero timestamps); there is none when the library refuses to write a timestamp. -/
def Exemption.toJSON (tc : TimeCodec) (e : Exemption) : Option JSON :=
  match tc.marshal e.CreatedAt, tc.marshal e.UpdatedAt with
  | some c, some u =>
    some (.obj [("id", .str e.ID), ("metric", .str e.Metric),
      ("keep_labels", sliceToJSON e.KeepLabels), ("created_at", .str c), ("updated_at", .str u)])
  | _, _ => none

/-- `json.Marshal` of an exemption. -/
def marshalExemption (tc : TimeCodec) (e : Exemption) : Option String :=
  (e.toJSON tc).map JSON.render

/-- The JSON-visible fields of `Exemption`. -/
inductive ExemptionField where
  | ID | Metric | KeepLabels | CreatedAt | UpdatedAt
  deriving DecidableEq, Repr

/-- The `json` tag names of `Exemption`. -/
def exemptionFields : List (String × ExemptionField) :=
  [("id", .ID), ("metric", .Metric), ("keep_labels", .KeepLabels),
   ("created_at", .CreatedAt), ("updated_at", .UpdatedAt)]

/-- An exemption in memory during a decode: the exemption, and the elements the backing
array of its list holds past its length. -/
structure ExemptionMem where
  exemption : Exemption := {}
  KeepLabels : List String := []
  deriving DecidableEq, Repr

/-- Decode one JSON value into one field of an exemption. -/
def setExemptionField (tc : TimeCodec) (m : ExemptionMem) (f : ExemptionField) (v : JSON) :
    Decoded ExemptionMem :=
  match f with
  | .ID => (decodeString m.exemption.ID v).andThen fun x => .ok { m with exemption.ID := x }
  | .Metric =>
    (decodeString m.exemption.Metric v).andThen fun x => .ok { m with exemption.Metric := x }
  | .KeepLabels =>
    (decodeStringSlice ⟨m.exemption.KeepLabels, m.KeepLabels⟩ v).andThen fun x =>
      .ok { m with exemption.KeepLabels := x.slice, KeepLabels := x.spare }
  | .CreatedAt =>
    (decodeTime tc m.exemption.CreatedAt v).andThen fun x =>
      .ok { m with exemption.CreatedAt := x }
  | .UpdatedAt =>
    (decodeTime tc m.exemption.UpdatedAt v).andThen fun x =>
      .ok { m with exemption.UpdatedAt := x }

/-- Decode the members of a JSON object into an exemption, in order. -/
def decodeExemptionMembers (tc : TimeCodec) :
    ExemptionMem → List (String × JSON) → Decoded ExemptionMem
  | m, [] => .ok m
  | m, (k, v) :: rest =>
    match findField exemptionFields k with
    | none => decodeExemptionMembers tc m rest
    | some f =>
      (setExemptionField tc m f v).andThen fun m2 => decodeExemptionMembers tc m2 rest

/-- Decode a JSON value into an exemption in memory: an object sets fields, null leaves the
exemption as it is, anything else is a type mismatch. -/
def decodeExemptionMem (tc : TimeCodec) (cur : ExemptionMem) : JSON → Decoded ExemptionMem
  | .obj kvs => decodeExemptionMembers tc cur kvs
  | .null => .ok cur
  | _ => .error .typeMismatch

/-- Decode a JSON value into an exemption holding `cur`. -/
def decodeExemption (tc : TimeCodec) (cur : Exemption) (j : JSON) : Decoded Exemption :=
  (decodeExemptionMem tc { exemption := cur } j).andThen fun m => .ok m.exemption

/-- Decode the members of an envelope object into the exemption of its `result` field. -/
def decodeEnvelopeMembers (tc : TimeCodec) :
    ExemptionMem → List (String × JSON) → Decoded ExemptionMem
  | m, [] => .ok m
  | m, (k, v) :: rest =>
    match findField [("result", ())] k with
    | none => decodeEnvelopeMembers tc m rest
    | some _ => (decodeExemptionMem tc m v).andThen fun m2 => decodeEnvelopeMembers tc m2 rest

/-- Decode an exemption response: the object whose single field `result` is the
exemption. -/
def decodeEnvelope (tc : TimeCodec) : JSON → Decoded Exemption
  | .obj kvs => (decodeEnvelopeMembers tc {} kvs).andThen fun m => .ok m.exemption
  | .null => .ok {}
  | _ => .error .typeMismatch

/-- The JSON object of a recommendation configuration. -/
def AggregationRecommendationConfiguration.toJSON
    (c : AggregationRecommendationConfiguration) : JSON :=
  .obj [("keep_labels", sliceToJSON c.KeepLabels)]

/-- Decode the members of a JSON object into the list of a recommendation configuration. -/
def decodeConfigMembers : Backed → List (String × JSON) → Decoded Backed
  | c, [] => .ok c
  | c, (k, v) :: rest =>
    match findField [("keep_labels", ())] k with
    | none => decodeConfigMembers c rest
    | some _ => (decodeStringSlice c v).andThen fun x => decodeConfigMembers x rest

/-- Decode a JSON value into a zero recommendation configuration. -/
def decodeConfig : JSON → Decoded AggregationRecommendationConfiguration
  | .obj kvs => (decodeConfigMembers {} kvs).andThen fun x => .ok ⟨x.slice⟩
  | .null => .ok {}
  | _ => .error .typeMismatch

/-- Decode the elements of a JSON array, each into a zero recommendation. -/
def decodeRecommendationElems : List JSON → Decoded (List AggregationRecommendation)
  | [] => .ok []
  | x :: xs =>
    (decodeRule {} x).andThen fun r =>
      (decodeRecommendationElems xs).andThen fun rest => .ok (⟨r⟩ :: rest)

/-- Decode a JSON value into a nil `[]AggregationRecommendation`. -/
def decodeRecommendations : JSON → Decoded (Slice AggregationRecommendation)
  | .arr xs => (decodeRecommendationElems xs).andThen fun rs => .ok (some rs)
  | .null => .ok none
  | _ => .error .typeMismatch

/-! ## The client: transport, construction and the resource operations -/

/-- A header set: name and value pairs. -/
abbrev Headers := List (String × String)

/-- A header name with its ASCII letters in lower case. -/
def lowerName (s : String) : List Char :=
  s.data.map fun c => if 65 ≤ c.toNat ∧ c.toNat ≤ 90 then Char.ofNat (c.toNat + 32) else c

/-- Header names are compared without regard to ASCII case. -/
def sameName (a b : String) : Bool := decide (lowerName a = lowerName b)

/-- The value of the first header of the given name. -/
def headerGet (h : Headers) (name : String) : Option String :=
  (h.find? fun p => sameName p.1 name).map fun p => p.2

/-- Set a header: any header of the same name is replaced. -/
def headerSet (h : Headers) (name value : String) : Headers :=
  h.filter (fun p => !sameName p.1 name) ++ [(name, value)]

/-- Modelled from the spec: the header merge of the transport, whose source is missing: the
default headers, then the per-call headers, a per-call header taking precedence over a
default header of the same name. -/
def mergeHeaders (defaults perCall : Headers) : Headers :=
  perCall.foldl (fun acc p => headerSet acc p.1 p.2) defaults

/-- Modelled from the spec: the client configuration `Config`, whose source is missing: an
API key, or a map of header names to values. -/
structure Config where
  APIKey : String := ""
  HTTPHeaders : List (String × String) := []

/-- Modelled from the spec: the client, whose source is missing: a base URL and the fixed
default headers. -/
structure Client where
  baseURL : String
  defaultHeaders : Headers

/-- Modelled from the spec: the constructor `New`, whose source is missing.  A
configuration holds an API key when the field is not the empty string, the zero value the
field has in the empty `Config` of most tests; the key gives the bearer `Authorization`
header.  Each pair of the header map is a default header as it stands. -/
def New (baseURL : String) (cfg : Config) : Client :=
  { baseURL := baseURL
    defaultHeaders :=
      (if cfg.APIKey = "" then [] else [("Authorization", "Bearer " ++ cfg.APIKey)])
        ++ cfg.HTTPHeaders }

/-- An HTTP request as the transport sends it. -/
structure Request where
  method : String
  url : String
  headers : Headers
  body : Option String
  deriving DecidableEq, Repr

/-- An HTTP response. -/
structure Response where
  status : Nat
  headers : Headers := []
  body : String := ""
  deriving DecidableEq, Repr

/-- What an exchange with the server gives: a response, or a failure of the network. -/
inductive Exchange where
  | response (r : Response)
  | failure (msg : String)
  deriving DecidableEq, Repr

/-- The server and the network as the client sees them: an exchange that may change the
state `σ` of the world. -/
abbrev Transport (σ : Type) := Request → σ → Exchange × σ

/-- The failures of an operation: of the network, of the HTTP status, of decoding the
response, and of encoding the request body. -/
inductive ClientError where
  | transport (msg : String)
  | http (status : Nat) (body : String)
  | decode (e : DecodeError)
  | encode
  deriving DecidableEq, Repr

/-- The result of an operation: a value or an error. -/
inductive Outcome (α : Type) where
  | ok (v : α)
  | error (e : ClientError)
  deriving DecidableEq, Repr

/-- A decode result as an operation result. -/
def Outcome.ofDecoded {α : Type} : Decoded α → Outcome α
  | .ok v => .ok v
  | .error e => .error (.decode e)

/-- The success range of status codes. -/
def isSuccess (status : Nat) : Bool := 200 ≤ status && status ≤ 299

/-- The request the transport builds: the URL is the base URL followed by the path, the
headers are the merged default and per-call headers. -/
def Client.newRequest (c : Client) (method path : String) (headers : Headers)
    (body : Option String) : Request :=
  { method := method
    url := c.baseURL ++ path
    headers := mergeHeaders c.defaultHeaders headers
    body := body }

/-- Modelled from the spec: the transport contract `send`, whose source is missing: one
exchange, failing with the status and body of a response outside the success range. -/
def Client.send {σ : Type} (c : Client) (method path : String) (headers : Headers)
    (body : Option String) (t : Transport σ) (w : σ) : Outcome (Headers × String) × σ :=
  match t (c.newRequest method path headers body) w with
  | (.failure msg, w2) => (.error (.transport msg), w2)
  | (.response resp, w2) =>
    if isSuccess resp.status then (.ok (resp.headers, resp.body), w2)
    else (.error (.http resp.status resp.body), w2)

/-- One operation: send, then read the result off the response headers and body. -/
def Client.call {σ α : Type} (c : Client) (method path : String) (headers : Headers)
    (body : Option String) (result : Headers → String → Outcome α) (t : Transport σ) (w : σ) :
    Outcome α × σ :=
  match c.send method path headers body t w with
  | (.ok (h, b), w2) => (result h b, w2)
  | (.error e, w2) => (.error e, w2)

/-- The concurrency token of a response: the value of its `ETag` header, empty without. -/
def etagOf (h : Headers) : String := (headerGet h "ETag").getD ""

/-- The UTF-8 bytes of a code point. -/
def utf8Bytes (n : Nat) : List Nat :=
  if n < 128 then [n]
  else if n < 2048 then [192 + n / 64, 128 + n % 64]
  else if n < 65536 then [224 + n / 4096, 128 + n / 64 % 64, 128 + n % 64]
  else [240 + n / 262144, 128 + n / 4096 % 64, 128 + n / 64 % 64, 128 + n % 64]

/-- One upper-case hexadecimal digit. -/
def hexDigitUpper (n : Nat) : Char := Char.ofNat (if n < 10 then 48 + n else 55 + n)

/-- Is the character in the unreserved set: a letter, a digit, `-`, `.`, `_` or `~`? -/
def isUnreserved (c : Char) : Bool :=
  let n := c.toNat
  (65 ≤ n && n ≤ 90) || (97 ≤ n && n ≤ 122) || (48 ≤ n && n ≤ 57)
    || n = 45 || n = 46 || n = 95 || n = 126

/-- A path parameter as a path segment: characters outside the unreserved set are
percent-encoded. -/
def pathSegment (s : String) : String :=
  String.mk (s.data.flatMap fun c =>
    if isUnreserved c then [c]
    else (utf8Bytes c.toNat).flatMap fun b => ['%', hexDigitUpper (b / 16), hexDigitUpper (b % 16)])

/-- `json.Marshal` of a recommendation configuration. -/
def marshalConfig (cfg : AggregationRecommendationConfiguration) : String := cfg.toJSON.render

/-- Modelled from the spec: `GetRecommendationConfig` of the operations table. -/
def Client.AggregationRecommendationsConfig {σ : Type} (c : Client) (t : Transport σ) (w : σ) :
    Outcome AggregationRecommendationConfiguration × σ :=
  c.call "GET" "/aggregations/recommendations/config" [] none
    (fun _ b => .ofDecoded (unmarshalWith decodeConfig b)) t w

/-- Modelled from the spec: `UpdateRecommendationConfig` of the operations table. -/
def Client.UpdateAggregationRecommendationsConfig {σ : Type} (c : Client)
    (cfg : AggregationRecommendationConfiguration) (t : Transport σ) (w : σ) :
    Outcome Unit × σ :=
  c.call "POST" "/aggregations/recommendations/config" [] (some (marshalConfig cfg))
    (fun _ _ => .ok ()) t w

/-- Modelled from the spec: `ListRecommendations` of the operations table. -/
def Client.AggregationRecommendations {σ : Type} (c : Client) (t : Transport σ) (w : σ) :
    Outcome (Slice AggregationRecommendation) × σ :=
  c.call "GET" "/aggregations/recommendations" [] none
    (fun _ b => .ofDecoded (unmarshalWith decodeRecommendations b)) t w

/-- Pair a decoded body with the token of the response. -/
def withEtag {α : Type} (h : Headers) : Decoded α → Outcome (α × String)
  | .ok v => .ok (v, etagOf h)
  | .error e => .error (.decode e)

/-- Modelled from the spec: `ListRules` of the operations table. -/
def Client.AggregationRules {σ : Type} (c : Client) (t : Transport σ) (w : σ) :
    Outcome (Slice AggregationRule × String) × σ :=
  c.call "GET" "/aggregations/rules" [] none (fun h b => withEtag h (unmarshalRules b)) t w

/-- Modelled from the spec: `ReplaceAllRules` of the operations table. -/
def Client.UpdateAggregationRules {σ : Type} (c : Client) (rules : Slice AggregationRule)
    (etag : String) (t : Transport σ) (w : σ) : Outcome String × σ :=
  c.call "POST" "/aggregations/rules" [("If-Match", etag)] (some (marshalRules rules))
    (fun h _ => .ok (etagOf h)) t w

/-- Modelled from the spec: `CreateRule` of the operations table. -/
def Client.CreateAggregationRule {σ : Type} (c : Client) (rule : AggregationRule)
    (etag : String) (t : Transport σ) (w : σ) : Outcome String × σ :=
  c.call "POST" ("/aggregations/rule/" ++ pathSegment rule.Metric) [("If-Match", etag)]
    (some (marshalRule rule)) (fun h _ => .ok (etagOf h)) t w

/-- Modelled from the spec: `ReadRule` of the operations table. -/
def Client.ReadAggregationRule {σ : Type} (c : Client) (metric : String) (t : Transport σ)
    (w : σ) : Outcome (AggregationRule × String) × σ :=
  c.call "GET" ("/aggregations/rule/" ++ pathSegment metric) [] none
    (fun h b => withEtag h (unmarshalRule b)) t w

/-- Modelled from the spec: `UpdateRule` of the operations table. -/
def Client.UpdateAggregationRule {σ : Type} (c : Client) (rule : AggregationRule)
    (etag : String) (t : Transport σ) (w : σ) : Outcome String × σ :=
  c.call "PUT" ("/aggregations/rule/" ++ pathSegment rule.Metric) [("If-Match", etag)]
    (some (marshalRule rule)) (fun h _ => .ok (etagOf h)) t w

/-- Modelled from the spec: `DeleteRule` of the operations table. -/
def Client.DeleteAggregationRule {σ : Type} (c : Client) (metric : String) (etag : String)
    (t : Transport σ) (w : σ) : Outcome String × σ :=
  c.call "DELETE" ("/aggregations/rule/" ++ pathSegment metric) [("If-Match", etag)] none
    (fun h _ => .ok (etagOf h)) t w

/-- Modelled from the spec: `CreateExemption` of the operations table.  The body is the
exemption with no id: the field `ID` is at its zero value whatever the caller put there, and
the key `id` is written with the empty string, as in the body `TestCreateExemption` expects.
The result is unwrapped from the envelope. -/
def Client.CreateExemption {σ : Type} (c : Client) (tc : TimeCodec) (e : Exemption)
    (t : Transport σ) (w : σ) : Outcome Exemption × σ :=
  match marshalExemption tc { e with ID := "" } with
  | none => (.error .encode, w)
  | some body =>
    c.call "POST" "/v1/recommendations/exemptions" [] (some body)
      (fun _ b => .ofDecoded (unmarshalWith (decodeEnvelope tc) b)) t w

/-- Modelled from the spec: `ReadExemption` of the operations table. -/
def Client.ReadExemption {σ : Type} (c : Client) (tc : TimeCodec) (id : String)
    (t : Transport σ) (w : σ) : Outcome Exemption × σ :=
  c.call "GET" ("/v1/recommendations/exemptions/" ++ pathSegment id) [] none
    (fun _ b => .ofDecoded (unmarshalWith (decodeEnvelope tc) b)) t w

/-- Modelled from the spec: `UpdateExemption` of the operations table. -/
def Client.UpdateExemption {σ : Type} (c : Client) (tc : TimeCodec) (e : Exemption)
    (t : Transport σ) (w : σ) : Outcome Unit × σ :=
  match marshalExemption tc e with
  | none => (.error .encode, w)
  | some body =>
    c.call "PUT" ("/v1/recommendations/exemptions/" ++ pathSegment e.ID) [] (some body)
      (fun _ _ => .ok ()) t w

/-- Modelled from the spec: `DeleteExemption` of the operations table. -/
def Client.DeleteExemption {σ : Type} (c : Client) (id : String) (t : Transport σ) (w : σ) :
    Outcome Unit × σ :=
  c.call "DELETE" ("/v1/recommendations/exemptions/" ++ pathSegment id) [] none
    (fun _ _ => .ok ()) t w

/-- The operations of the client with their arguments. -/
inductive Operation where
  | AggregationRecommendationsConfig
  | UpdateAggregationRecommendationsConfig (cfg : AggregationRecommendationConfiguration)
  | AggregationRecommendations
  | AggregationRules
  | UpdateAggregationRules (rules : Slice AggregationRule) (etag : String)
  | CreateAggregationRule (rule : AggregationRule) (etag : String)
  | ReadAggregationRule (metric : String)
  | UpdateAggregationRule (rule : AggregationRule) (etag : String)
  | DeleteAggregationRule (metric : String) (etag : String)
  | CreateExemption (e : Exemption)
  | ReadExemption (id : String)
  | UpdateExemption (e : Exemption)
  | DeleteExemption (id : String)

/-- What an operation returns when it succeeds. -/
inductive Value where
  | config (c : AggregationRecommendationConfiguration)
  | recommendations (rs : Slice AggregationRecommendation)
  | rules (rs : Slice AggregationRule) (etag : String)
  | rule (r : AggregationRule) (etag : String)
  | etag (e : String)
  | exemption (e : Exemption)
  | done
  deriving DecidableEq, Repr

/-- The result of an operation under a constructor of `Value`. -/
def tagged {α σ : Type} (f : α → Value) (r : Outcome α × σ) : Outcome Value × σ :=
  match r with
  | (.ok v, w) => (.ok (f v), w)
  | (.error e, w) => (.error e, w)

/-- Run any operation of the client. -/
def Client.run {σ : Type} (c : Client) (tc : TimeCodec) (op : Operation) (t : Transport σ)
    (w : σ) : Outcome Value × σ :=
  match op with
  | .AggregationRecommendationsConfig => tagged .config (c.AggregationRecommendationsConfig t w)
  | .UpdateAggregationRecommendationsConfig cfg =>
    tagged (fun _ => .done) (c.UpdateAggregationRecommendationsConfig cfg t w)
  | .AggregationRecommendations => tagged .recommendations (c.AggregationRecommendations t w)
  | .AggregationRules => tagged (fun p => .rules p.1 p.2) (c.AggregationRules t w)
  | .UpdateAggregationRules rules etag => tagged .etag (c.UpdateAggregationRules rules etag t w)
  | .CreateAggregationRule rule etag => tagged .etag (c.CreateAggregationRule rule etag t w)
  | .ReadAggregationRule metric =>
    tagged (fun p => .rule p.1 p.2) (c.ReadAggregationRule metric t w)
  | .UpdateAggregationRule rule etag => tagged .etag (c.UpdateAggregationRule rule etag t w)
  | .DeleteAggregationRule metric etag => tagged .etag (c.DeleteAggregationRule metric etag t w)
  | .CreateExemption e => tagged .exemption (c.CreateExemption tc e t w)
  | .ReadExemption id => tagged .exemption (c.ReadExemption tc id t w)
  | .UpdateExemption e => tagged (fun _ => .done) (c.UpdateExemption tc e t w)
  | .DeleteExemption id => tagged (fun _ => .done) (c.DeleteExemption id t w)

/-- A transport that keeps a log of the requests it is sent, in order. -/
def recording {σ : Type} (t : Transport σ) : Transport (σ × List Request) :=
  fun req w => ((t req w.1).1, ((t req w.1).2, w.2 ++ [req]))

/-- A server that answers every request with the same response. -/
def answering (resp : Response) : Transport Unit := fun _ w => (.response resp, w)

/-- The per-call headers of an operation: `If-Match` with the caller's token on the four
mutating rule operations, none on the others. -/
def Operation.perCall : Operation → Headers
  | .UpdateAggregationRules _ etag => [("If-Match", etag)]
  | .CreateAggregationRule _ etag => [("If-Match", etag)]
  | .UpdateAggregationRule _ etag => [("If-Match", etag)]
  | .DeleteAggregationRule _ etag => [("If-Match", etag)]
  | _ => []

/-- The request carries the header with exactly this value, and with no other value under
the same name. -/
def Request.carries (req : Request) (name value : String) : Prop :=
  headerGet req.headers name = some value
    ∧ ∀ p ∈ req.headers, sameName p.1 name = true → p.2 = value

/-! ## `internal/provider/exemption_resource.go` -/

/-- The severity of a diagnostic of the plugin framework. -/
inductive Severity where
  | error
  | warning
  deriving DecidableEq, Repr

/-- A diagnostic of the plugin framework. -/
structure Diagnostic where
  severity : Severity
  summary : String
  detail : String
  deriving DecidableEq, Repr

/-- The framework method `Diagnostics.HasError`. -/
def hasError (ds : List Diagnostic) : Bool := ds.any fun d => d.severity = .error

/-- The framework method `Diagnostics.AddError`. -/
def addError (ds : List Diagnostic) (summary detail : String) : List Diagnostic :=
  ds ++ [⟨.error, summary, detail⟩]

/-- Modelled from the spec: the text of a client error (`err.Error()`), whose source is
missing: a status failure names the status code and the response body. -/
def ClientError.Error : ClientError → String
  | .transport msg => msg
  | .http status body => "status: " ++ toString status ++ ", body: " ++ body
  | .decode _ => "cannot decode the response body"
  | .encode => "cannot encode the request body"

/-- The exemption operations of `client.Client` as the resource calls them, over a world
state `σ` that the calls may change. -/
structure ExemptionAPI (σ : Type) where
  CreateExemption : Exemption → σ → Outcome Exemption × σ
  ReadExemption : String → σ → Outcome Exemption × σ
  UpdateExemption : Exemption → σ → Outcome Unit × σ
  DeleteExemption : String → σ → Outcome Unit × σ

/-- A call of an exemption operation with its argument. -/
inductive APICall where
  | CreateExemption (e : Exemption)
  | ReadExemption (id : String)
  | UpdateExemption (e : Exemption)
  | DeleteExemption (id : String)
  deriving DecidableEq, Repr

/-- The same operations, keeping a log of the calls made, in order. -/
def ExemptionAPI.logged {σ : Type} (api : ExemptionAPI σ) : ExemptionAPI (σ × List APICall) :=
  { CreateExemption := fun e w =>
      ((api.CreateExemption e w.1).1, ((api.CreateExemption e w.1).2, w.2 ++ [.CreateExemption e]))
    ReadExemption := fun id w =>
      ((api.ReadExemption id w.1).1, ((api.ReadExemption id w.1).2, w.2 ++ [.ReadExemption id]))
    UpdateExemption := fun e w =>
      ((api.UpdateExemption e w.1).1, ((api.UpdateExemption e w.1).2, w.2 ++ [.UpdateExemption e]))
    DeleteExemption := fun id w =>
      ((api.DeleteExemption id w.1).1,
        ((api.DeleteExemption id w.1).2, w.2 ++ [.DeleteExemption id])) }

/-- What `Plan.Get` or `State.Get` gives: the Go struct read and the diagnostics of the
read. -/
structure Got where
  value : ExemptionTF
  diags : List Diagnostic := []
  deriving DecidableEq, Repr

/-- The response of a resource method: the diagnostics, and the state when the method set
it. -/
structure ResourceResponse where
  Diagnostics : List Diagnostic := []
  State : Option ExemptionTF := none
  deriving DecidableEq, Repr

/-- The request of `Create`: the plan. -/
structure CreateRequest where
  Plan : Got

/-- The request of `Read` and of `Delete`: the prior state. -/
structure StateRequest where
  State : Got

/-- The request of `Update`: the plan and the prior state. -/
structure UpdateRequest where
  Plan : Got
  State : Got

/-- `exemptionResource.Create`; `now` is the formatted reading of the clock. -/
def exemptionResource.Create {σ : Type} (api : ExemptionAPI σ) (now : String)
    (req : CreateRequest) (w : σ) : ResourceResponse × σ :=
  let diags := req.Plan.diags
  if hasError diags then (⟨diags, none⟩, w)
  else
    let plan := req.Plan.value
    match api.CreateExemption plan.ToAPIReq w with
    | (.error err, w1) => (⟨addError diags "Unable to create exemption" err.Error, none⟩, w1)
    | (.ok ex, w1) =>
      let state := { ex.ToTF with LastUpdated := StringValue now }
      (⟨diags, some state⟩, w1)

/-- `exemptionResource.Read`. -/
def exemptionResource.Read {σ : Type} (api : ExemptionAPI σ) (req : StateRequest) (w : σ) :
    ResourceResponse × σ :=
  let diags := req.State.diags
  if hasError diags then (⟨diags, none⟩, w)
  else
    let state := req.State.value
    match api.ReadExemption state.ID.ValueString w with
    | (.error err, w1) => (⟨addError diags "Unable to read exemption" err.Error, none⟩, w1)
    | (.ok ex, w1) => (⟨diags, some ex.ToTF⟩, w1)

/-- `exemptionResource.Update`; `now` is the formatted reading of the clock. -/
def exemptionResource.Update {σ : Type} (api : ExemptionAPI σ) (now : String)
    (req : UpdateRequest) (w : σ) : ResourceResponse × σ :=
  let diags := req.Plan.diags
  if hasError diags then (⟨diags, none⟩, w)
  else
    let plan := req.Plan.value
    let diags := diags ++ req.State.diags
    if hasError diags then (⟨diags, none⟩, w)
    else
      let state := req.State.value
      let ex := { plan.ToAPIReq with ID := state.ID.ValueString }
      match api.UpdateExemption ex w with
      | (.error err, w1) => (⟨addError diags "Unable to update exemption" err.Error, none⟩, w1)
      | (.ok _, w1) =>
        match api.ReadExemption state.ID.ValueString w1 with
        | (.error err, w2) =>
          (⟨addError diags "Unable to read exemption after updating" err.Error, none⟩, w2)
        | (.ok ex2, w2) =>
          let state2 := { ex2.ToTF with LastUpdated := StringValue now }
          (⟨diags, some state2⟩, w2)

/-- `exemptionResource.Delete`. -/
def exemptionResource.Delete {σ : Type} (api : ExemptionAPI σ) (req : StateRequest) (w : σ) :
    ResourceResponse × σ :=
  let diags := req.State.diags
  if hasError diags then (⟨diags, none⟩, w)
  else
    let state := req.State.value
    match api.DeleteExemption state.ID.ValueString w with
    | (.error err, w1) => (⟨addError diags "Unable to delete exemption" err.Error, none⟩, w1)
    | (.ok _, w1) => (⟨diags, none⟩, w1)

/-! ## Fixtures of the tests and of the examples -/

/-- Days from 1970-01-01 to the given civil date of the proleptic Gregorian calendar. -/
def daysFromCivil (y m d : Int) : Int :=
  let y1 := if m ≤ 2 then y - 1 else y
  let era := y1 / 400
  let yoe := y1 - era * 400
  let mp := (m + 9) % 12
  let doy := (153 * mp + 2) / 5 + d - 1
  let doe := yoe * 365 + yoe / 4 - yoe / 100 + doy
  era * 146097 + doe - 719468

/-- The civil date (year, month, day) of a day count from 1970-01-01. -/
def civilFromDays (z0 : Int) : Int × Int × Int :=
  let z := z0 + 719468
  let era := z / 146097
  let doe := z - era * 146097
  let yoe := (doe - doe / 1460 + doe / 36524 - doe / 146096) / 365
  let doy := doe - (365 * yoe + yoe / 4 - yoe / 100)
  let mp := (5 * doy + 2) / 153
  let d := doy - (153 * mp + 2) / 5 + 1
  let m := if mp < 10 then mp + 3 else mp - 9
  let y := yoe + era * 400
  (if m ≤ 2 then y + 1 else y, m, d)

/-- The decimal digits of a number, padded with zeros on the left to the given width. -/
def padDigits : Nat → Nat → List Char
  | 0, _ => []
  | w + 1, n => padDigits w (n / 10) ++ [Char.ofNat (48 + n % 10)]

/-- The fraction of a second as RFC 3339 writes it with the `.999999999` layout: nothing
for zero, else a dot and the nine digits without their trailing zeros. -/
def fracDigits (nsec : Nat) : List Char :=
  if nsec = 0 then []
  else '.' :: ((padDigits 9 nsec).reverse.dropWhile (fun c => c.toNat = 48)).reverse

/-- The RFC 3339 text of an instant in UTC; there is none for a year outside 0 to 9999. -/
def formatRFC3339 (t : Time) : Option String :=
  let days := t.sec / 86400
  let secs := (t.sec % 86400).toNat
  let (y, m, d) := civilFromDays days
  if y < 0 ∨ 9999 < y then none
  else some (String.mk (
    padDigits 4 y.toNat ++ ['-'] ++ padDigits 2 m.toNat ++ ['-'] ++ padDigits 2 d.toNat
      ++ ['T'] ++ padDigits 2 (secs / 3600) ++ [':'] ++ padDigits 2 (secs / 60 % 60) ++ [':']
      ++ padDigits 2 (secs % 60) ++ fracDigits t.nsec ++ ['Z']))

/-- The number written by a list of decimal digits; none if a character is not a digit. -/
def digitsVal : List Char → Option Nat
  | [] => some 0
  | cs => cs.foldl (fun acc c =>
      match acc with
      | none => none
      | some n => if isDigit c then some (n * 10 + (c.toNat - 48)) else none) (some 0)

/-- The number of days of a month of a year. -/
def daysIn (y m : Nat) : Nat :=
  if m = 2 then (if y % 4 = 0 ∧ (y % 100 ≠ 0 ∨ y % 400 = 0) then 29 else 28)
  else if m = 4 ∨ m = 6 ∨ m = 9 ∨ m = 11 then 30
  else 31

/-- The zone at the end of an RFC 3339 text: `Z`, or a sign, hours, a colon, minutes.
Returns the offset east of UTC in seconds. -/
def parseZone : List Char → Option Int
  | [z] => if z = 'Z' then some 0 else none
  | [sg, h1, h2, col, m1, m2] =>
    if col = ':' ∧ (sg = '+' ∨ sg = '-') then
      match digitsVal [h1, h2], digitsVal [m1, m2] with
      | some h, some m =>
        if h < 24 ∧ m < 60 then
          some (if sg = '-' then -((h * 3600 + m * 60 : Nat) : Int) else ((h * 3600 + m * 60 : Nat) : Int))
        else none
      | _, _ => none
    else none
  | _ => none

/-- The nanoseconds written by the digits of a fraction: the first nine count. -/
def fracVal (ds : List Char) : Option Nat :=
  digitsVal ((ds ++ List.replicate 9 '0').take 9)

/-- The instant an RFC 3339 text names: a four-digit year, two-digit fields in range, an
optional fraction of a second, and a zone. -/
def parseRFC3339 (s : String) : Option Time :=
  match s.data with
  | y1 :: y2 :: y3 :: y4 :: d1 :: m1 :: m2 :: d2 :: a1 :: a2 :: tt :: h1 :: h2 :: c1 ::
      n1 :: n2 :: c2 :: s1 :: s2 :: rest =>
    if d1 = '-' ∧ d2 = '-' ∧ tt = 'T' ∧ c1 = ':' ∧ c2 = ':' then
      match digitsVal [y1, y2, y3, y4], digitsVal [m1, m2], digitsVal [a1, a2],
          digitsVal [h1, h2], digitsVal [n1, n2], digitsVal [s1, s2] with
      | some y, some mo, some d, some h, some mi, some sc =>
        if 1 ≤ mo ∧ mo ≤ 12 ∧ 1 ≤ d ∧ d ≤ daysIn y mo ∧ h < 24 ∧ mi < 60 ∧ sc < 60 then
          let (fr, zone) := match rest with
            | dot :: r =>
              if dot = '.' then ((spanDigits r).1, (spanDigits r).2) else ([], rest)
            | [] => ([], rest)
          let fracOk := match rest with
            | dot :: _ => if dot = '.' then !fr.isEmpty else true
            | [] => true
          if fracOk then
            match fracVal fr, parseZone zone with
            | some ns, some off =>
              some ⟨daysFromCivil y mo d * 86400 + ((h * 3600 + mi * 60 + sc : Nat) : Int) - off,
                ns⟩
            | _, _ => none
          else none
        else none
      | _, _, _, _, _, _ => none
    else none
  | _ => none

/-- The codec of the examples: an instant is written as its RFC 3339 text in UTC, which is
what the library writes for an instant in UTC, and the texts of that form are read.  The
library reads further texts; the examples hold none of them. -/
def rfc3339UTC : TimeCodec := ⟨formatRFC3339, parseRFC3339⟩

/-- The rule of the create, update and read tests. -/
def testRule : AggregationRule := { Metric := "test_metric", Drop := true }

/-- The response of the mutation tests: the new token and no body. -/
def etagResponse : Response :=
  { status := 200, headers := [("ETag", "\"updated-fake-etag\"")], body := "" }

/-- A response that reports a missing exemption. -/
def notFoundResponse : Response := { status := 404, body := "exemption not found" }

/-- The response of `TestClientAuths`: an empty configuration object. -/
def emptyConfigResponse : Response := { status := 200, body := "\x7b\x7d" }

/-- The exemption `TestCreateExemption` passes: built without an ID. -/
def createdExemptionInput : Exemption := { Metric := "test_metric", KeepLabels := some ["foobar"] }

/-- The request body `TestCreateExemption` expects. -/
def createExemptionReqBody : String :=
  "\x7b\"id\":\"\",\"metric\":\"test_metric\",\"keep_labels\":[\"foobar\"],\"created_at\":\"0001-01-01T00:00:00Z\",\"updated_at\":\"0001-01-01T00:00:00Z\"\x7d"

/-- The response body of `TestCreateExemption` and `TestReadExemption`. -/
def exemptionRespBody : String :=
  "\x7b\"result\":\x7b\"id\":\"generated-ulid\",\"metric\":\"test_metric\",\"keep_labels\":[\"foobar\"],\"created_at\":\"0001-01-01T00:00:00Z\",\"updated_at\":\"0001-01-01T00:00:00Z\"\x7d\x7d"

/-- The exemption `TestCreateExemption` and `TestReadExemption` expect. -/
def expectedExemption : Exemption :=
  { ID := "generated-ulid", Metric := "test_metric", KeepLabels := some ["foobar"] }

/-- The response of the exemption tests. -/
def exemptionResponse : Response := { status := 200, body := exemptionRespBody }

/-- An exemption a caller built with an ID of its own. -/
def exemptionWithCallerID : Exemption :=
  { ID := "caller-id", Metric := "test_metric", KeepLabels := some ["foobar"] }

/-- A server that holds one exemption: it accepts every create, update and delete and
answers every read with the exemption it holds. -/
def holding (sx : Exemption) : ExemptionAPI Unit :=
  { CreateExemption := fun _ w => (.ok sx, w)
    ReadExemption := fun _ w => (.ok sx, w)
    UpdateExemption := fun _ w => (.ok (), w)
    DeleteExemption := fun _ w => (.ok (), w) }

/-- A server that rejects every call with a conflict. -/
def rejecting : ExemptionAPI Unit :=
  { CreateExemption := fun _ w => (.error (.http 409 "conflict"), w)
    ReadExemption := fun _ w => (.error (.http 409 "conflict"), w)
    UpdateExemption := fun _ w => (.error (.http 409 "conflict"), w)
    DeleteExemption := fun _ w => (.error (.http 409 "conflict"), w) }

/-- An exemption as the server holds it, with its own timestamps. -/
def serverExemption : Exemption :=
  { ID := "generated-ulid", Metric := "test_metric", KeepLabels := some ["foobar"]
    CreatedAt := timeUnix 1700000000, UpdatedAt := timeUnix 1700000500 }

/-- A response body that holds `serverExemption`. -/
def serverExemptionRespBody : String :=
  "\x7b\"result\":\x7b\"id\":\"generated-ulid\",\"metric\":\"test_metric\",\"keep_labels\":[\"foobar\"],\"created_at\":\"2023-11-14T22:13:20Z\",\"updated_at\":\"2023-11-14T22:21:40Z\"\x7d\x7d"

/-- A response that holds `serverExemption`. -/
def serverExemptionResponse : Response := { status := 200, body := serverExemptionRespBody }

/-- A plan for the exemption: a new label list, the computed attributes unknown. -/
def updatePlan : ExemptionTF :=
  { ID := .unknown, Metric := .known "test_metric"
    KeepLabels := some [.known "foobar", .known "baz"]
    CreatedAt := .unknown, UpdatedAt := .unknown }

/-- The update request of the plan against the state last read from the server. -/
def updateRequest : UpdateRequest :=
  { Plan := { value := updatePlan }, State := { value := serverExemption.ToTF } }

/-- An exemption under the same id as a server holds it with other timestamps. -/
def laterServerExemption : Exemption :=
  { ID := "generated-ulid", Metric := "test_metric", KeepLabels := some ["foobar"]
    CreatedAt := timeUnix 1800000000, UpdatedAt := timeUnix 1800000500 }

/-- The update request of the same plan against the state read from that server. -/
def laterUpdateRequest : UpdateRequest :=
  { Plan := { value := updatePlan }, State := { value := laterServerExemption.ToTF } }

/-- The exemption `Update` passes to UpdateExemption when that is its first call. -/
def sentOnUpdate (api : ExemptionAPI Unit) (req : UpdateRequest) : Option Exemption :=
  match (exemptionResource.Update api.logged "now" req ((), [])).2.2.head? with
  | some (.UpdateExemption sent) => some sent
  | _ => none

/-- The client of the tests: built from an empty configuration. -/
def testClient : Client := New "http://localhost" {}

/-- The response of `TestAggregationRules`: the rule list under the header name `Etag`. -/
def rulesResponse : Response :=
  { status := 200, headers := [("Etag", "\"fake-etag\"")], body := minifiedJson }

/-- The response of `TestReadAggregationRule`. -/
def ruleResponse : Response :=
  { status := 200, headers := [("ETag", "\"fake-etag\"")]
    body := "\x7b\"metric\":\"test_metric\",\"drop\":true\x7d" }

/-- The response of `TestAggregationRecommendationsConfig`. -/
def configResponse : Response :=
  { status := 200, body := "\x7b\"keep_labels\":[\"namespace\"]\x7d" }

/-- A response with neither headers nor body. -/
def emptyResponse : Response := { status := 200 }

/-! ## Proof vocabulary -/

/-- The value is rendered to a text that starts with a character that is neither
whitespace nor a closing bracket, and the value parser reads the text back on any fuel
from `k` on. -/
def Parses (k : Nat) (j : JSON) : Prop :=
  (∃ c cs, renderChars j = c :: cs ∧ isWs c = false ∧ c.toNat ≠ 93) ∧
  ∀ n, k ≤ n → ∀ rest, parseValue n (renderChars j ++ rest) = some (j, rest)

/-! ## Go strings as byte sequences, and the rule with such strings -/

/-- A Go string: a sequence of bytes, which need not be well-formed UTF-8.  A byte is a
number below 256; a larger number is no byte and, like the bytes 0xF5 to 0xFF, starts no
encoding. -/
abbrev GoString := List Nat

/-- Is the byte a continuation byte, 0x80 to 0xBF? -/
def isContinuation (b : Nat) : Bool := 128 ≤ b && b ≤ 191

/-- `utf8.DecodeRuneInString`: the character encoded at the head of the bytes and the bytes
after it; none where Go returns `RuneError` with the width 1 (or 0 for no bytes), the head
starting no well-formed encoding.  The ranges of the second byte after 0xE0, 0xED, 0xF0 and
0xF4 exclude the overlong forms, the surrogates and the code points above U+10FFFF. -/
def decodeRune : GoString → Option (Char × GoString)
  | [] => none
  | b0 :: rest =>
    if b0 < 128 then some (Char.ofNat b0, rest)
    else if 194 ≤ b0 ∧ b0 ≤ 223 then
      match rest with
      | b1 :: rest1 =>
        if isContinuation b1 then some (Char.ofNat ((b0 - 192) * 64 + (b1 - 128)), rest1)
        else none
      | _ => none
    else if 224 ≤ b0 ∧ b0 ≤ 239 then
      match rest with
      | b1 :: b2 :: rest2 =>
        if (if b0 = 224 then 160 else 128) ≤ b1 ∧ b1 ≤ (if b0 = 237 then 159 else 191)
            ∧ isContinuation b2 then
          some (Char.ofNat ((b0 - 224) * 4096 + (b1 - 128) * 64 + (b2 - 128)), rest2)
        else none
      | _ => none
    else if 240 ≤ b0 ∧ b0 ≤ 244 then
      match rest with
      | b1 :: b2 :: b3 :: rest3 =>
        if (if b0 = 240 then 144 else 128) ≤ b1 ∧ b1 ≤ (if b0 = 244 then 143 else 191)
            ∧ isContinuation b2 ∧ isContinuation b3 then
          some (Char.ofNat ((b0 - 240) * 262144 + (b1 - 128) * 4096 + (b2 - 128) * 64
            + (b3 - 128)), rest3)
        else none
      | _ => none
    else none

/-- Are the bytes well-formed UTF-8, found within the given number of characters? -/
def validWithin : Nat → GoString → Bool
  | _, [] => true
  | 0, _ :: _ => false
  | n + 1, b :: rest =>
    match decodeRune (b :: rest) with
    | some (_, rest2) => validWithin n rest2
    | none => false

/-- `utf8.ValidString`: are the bytes well-formed UTF-8? -/
def utf8Valid (s : GoString) : Bool := validWithin s.length s

/-- The Go string of a text: its UTF-8 bytes. -/
def goString (s : String) : GoString := s.data.flatMap fun c => utf8Bytes c.toNat

/-- The body of a string literal as `json.Marshal` writes it from the bytes of a Go string,
in at most the given number of steps: a character as `escapeChar` writes it, and a byte that
starts no well-formed encoding as the six characters of the escape for U+FFFD, after which
the next byte is looked at. -/
def escapeBytes : Nat → GoString → List Char
  | 0, _ => []
  | _ + 1, [] => []
  | n + 1, b :: rest =>
    match decodeRune (b :: rest) with
    | some (c, rest2) => escapeChar c ++ escapeBytes n rest2
    | none => '\\' :: 'u' :: 'f' :: 'f' :: 'f' :: 'd' :: escapeBytes n rest

/-- A JSON string literal from a Go string. -/
def quoteBytes (s : GoString) : List Char := '"' :: (escapeBytes s.length s ++ ['"'])

/-- The literals of a list of Go strings, separated by commas. -/
def quoteBytesElems : List GoString → List Char
  | [] => []
  | x :: rest => quoteBytes x ++ (if rest.isEmpty then [] else ',' :: quoteBytesElems rest)

/-- The members of an object whose values are already text, separated by commas. -/
def renderFields : List (String × List Char) → List Char
  | [] => []
  | (k, v) :: rest =>
    renderString k ++ (':' :: (v ++ (if rest.isEmpty then [] else ',' :: renderFields rest)))

/-- `AggregationRule` of `rule.go` with its strings as Go holds them: sequences of bytes,
well-formed UTF-8 or not. -/
structure AggregationRuleBytes where
  Metric : GoString := []
  MatchType : GoString := []
  Drop : Bool := false
  KeepLabels : Slice GoString := none
  DropLabels : Slice GoString := none
  Aggregations : Slice GoString := none
  AggregationInterval : GoString := []
  AggregationDelay : GoString := []
  Ingest : Bool := false
  deriving DecidableEq, Repr

/-- A rule of texts as the rule of the Go strings of those texts. -/
def AggregationRule.toBytes (r : AggregationRule) : AggregationRuleBytes :=
  { Metric := goString r.Metric
    MatchType := goString r.MatchType
    Drop := r.Drop
    KeepLabels := r.KeepLabels.map (List.map goString)
    DropLabels := r.DropLabels.map (List.map goString)
    Aggregations := r.Aggregations.map (List.map goString)
    AggregationInterval := goString r.AggregationInterval
    AggregationDelay := goString r.AggregationDelay
    Ingest := r.Ingest }

/-- A Go string member with `omitempty`: left out when the string has no bytes. -/
def omitEmptyGoString (key : String) (s : GoString) : List (String × List Char) :=
  if s.length = 0 then [] else [(key, quoteBytes s)]

/-- A bool member with `omitempty`, as text: left out when false. -/
def omitEmptyFlag (key : String) (b : Bool) : List (String × List Char) :=
  if b = false then [] else [(key, renderChars (.bool b))]

/-- A `[]string` member with `omitempty`, as text: left out when the slice has length
zero. -/
def omitEmptyGoSlice (key : String) (xs : Slice GoString) : List (String × List Char) :=
  if xs.len = 0 then [] else [(key, '[' :: (quoteBytesElems xs.elems ++ [']']))]

/-- The members `json.Marshal` writes for a rule, following the struct tags of `rule.go`,
each value as its text. -/
def AggregationRuleBytes.fields (r : AggregationRuleBytes) : List (String × List Char) :=
  [("metric", quoteBytes r.Metric)]
    ++ omitEmptyGoString "match_type" r.MatchType
    ++ omitEmptyFlag "drop" r.Drop
    ++ omitEmptyGoSlice "keep_labels" r.KeepLabels
    ++ omitEmptyGoSlice "drop_labels" r.DropLabels
    ++ omitEmptyGoSlice "aggregations" r.Aggregations
    ++ omitEmptyGoString "aggregation_interval" r.AggregationInterval
    ++ omitEmptyGoString "aggregation_delay" r.AggregationDelay
    ++ omitEmptyFlag "ingest" r.Ingest

/-- `json.Marshal` of a rule whose strings are Go strings.  The text is well-formed
whatever the bytes of the strings are. -/
def marshalRuleBytes (r : AggregationRuleBytes) : String :=
  String.mk (Char.ofNat 123 :: (renderFields r.fields ++ [Char.ofNat 125]))

/-- `json.Unmarshal` of a text into a zero rule whose strings are Go strings: each string
decoded is held as its UTF-8 bytes. -/
def unmarshalRuleBytes (data : String) : Decoded AggregationRuleBytes :=
  (unmarshalRule data).andThen fun r => .ok r.toBytes

/-- Is every string of the rule well-formed UTF-8? -/
def AggregationRuleBytes.wellFormed (r : AggregationRuleBytes) : Bool :=
  utf8Valid r.Metric && utf8Valid r.MatchType
    && r.KeepLabels.elems.all utf8Valid && r.DropLabels.elems.all utf8Valid
    && r.Aggregations.elems.all utf8Valid
    && utf8Valid r.AggregationInterval && utf8Valid r.AggregationDelay

/-- A rule of Go strings with its empty lists turned into nil lists. -/
def AggregationRuleBytes.normalize (r : AggregationRuleBytes) : AggregationRuleBytes :=
  { r with
    KeepLabels := normSlice r.KeepLabels
    DropLabels := normSlice r.DropLabels
    Aggregations := normSlice r.Aggregations }

/-- Equality of rules of Go strings in every field, a nil list and an empty list counted
as the same. -/
def AggregationRuleBytes.sameValue (a b : AggregationRuleBytes) : Prop :=
  a.Metric = b.Metric ∧ a.MatchType = b.MatchType ∧ a.Drop = b.Drop
    ∧ a.KeepLabels.elems = b.KeepLabels.elems ∧ a.DropLabels.elems = b.DropLabels.elems
    ∧ a.Aggregations.elems = b.Aggregations.elems
    ∧ a.AggregationInterval = b.AggregationInterval
    ∧ a.AggregationDelay = b.AggregationDelay ∧ a.Ingest = b.Ingest

/-- A rule whose metric name holds the byte 0xFF, which starts no encoding: the Go string
`"a\xffb"`. -/
def illFormedRule : AggregationRuleBytes := { Metric := [97, 255, 98] }

/-- The first rule of `rulesPayload` with its strings as Go strings. -/
def payloadRuleBytes : AggregationRuleBytes :=
  AggregationRule.toBytes
    { Metric := "kube_persistentvolumeclaim_created"
      DropLabels := some ["persistentvolumeclaim"]
      Aggregations := some ["count", "sum"] }

/-! # Theorems -/

/-! ## Slice conversion lemmas -/

theorem foldl_set_enumFrom {α β : Type} (f : α → β) (xs : List α) (pre post : List β)
    (hpost : post.length = xs.length) :
    (xs.enumFrom pre.length).foldl (fun out p => Slice.setAt out p.1 (f p.2))
      (some (pre ++ post)) = some (pre ++ xs.map f) := by
  induction xs generalizing pre post with
  | nil =>
    cases post with
    | nil => simp
    | cons _ _ => simp at hpost
  | cons x xs ih =>
    cases post with
    | nil => simp at hpost
    | cons y ys =>
      have h1 : (pre ++ y :: ys).set pre.length (f x) = (pre ++ [f x]) ++ ys := by
        simp [List.set_append]
      have h2 : pre.length + 1 = (pre ++ [f x]).length := by simp
      have h3 := ih (pre ++ [f x]) ys (by simpa using hpost)
      simp only [List.enumFrom_cons, List.foldl_cons, List.map_cons]
      have h4 : Slice.setAt (some (pre ++ y :: ys)) pre.length (f x)
          = some ((pre ++ [f x]) ++ ys) := by
        simp only [Slice.setAt, Option.map_some', h1]
      rw [h4, h2, h3]
      simp

theorem convertSlice_eq {α β : Type} (zero : β) (f : α → β) (xs : Slice α) :
    convertSlice zero f xs = some (xs.elems.map f) := by
  have h := foldl_set_enumFrom f xs.elems [] (List.replicate xs.elems.length zero) (by simp)
  simpa [convertSlice, Slice.make, Slice.len, List.enum] using h


/-! ## The JSON text round trip -/

theorem hex4Val_hex4 (n : Nat)
    (h : n < 32 ∨ n = 60 ∨ n = 62 ∨ n = 38 ∨ n = 8232 ∨ n = 8233) :
    hex4Val (hexDigit (n / 4096 % 16)) (hexDigit (n / 256 % 16)) (hexDigit (n / 16 % 16))
      (hexDigit (n % 16)) = some n := by
  rcases h with h | h | h | h | h | h
  · interval_cases n <;> decide
  all_goals subst h; decide

theorem char_eq_of_toNat {c : Char} {n : Nat} (h : c.toNat = n) : c = Char.ofNat n := by
  rw [← h, Char.ofNat_toNat]

theorem parseStringBody_escapeChar (c : Char) (m : Nat) (tail : List Char) :
    parseStringBody (m + 1) (escapeChar c ++ tail) = consChar c (parseStringBody m tail) := by
  unfold escapeChar
  split
  · next h => rw [char_eq_of_toNat h]; rfl
  split
  · next h => rw [char_eq_of_toNat h]; rfl
  split
  · next h => rw [char_eq_of_toNat h]; rfl
  split
  · next h => rw [char_eq_of_toNat h]; rfl
  split
  · next h => rw [char_eq_of_toNat h]; rfl
  split
  · next h => rw [char_eq_of_toNat h]; rfl
  split
  · next h => rw [char_eq_of_toNat h]; rfl
  split
  · next h1 h2 h3 h4 h5 h6 h7 h =>
    have hn : c.toNat < 32 ∨ c.toNat = 60 ∨ c.toNat = 62 ∨ c.toNat = 38 ∨ c.toNat = 8232
        ∨ c.toNat = 8233 := by
      simpa [needsUnicodeEscape, or_assoc] using h
    have hv := hex4Val_hex4 c.toNat hn
    have hs : isHighSurrogate c.toNat = false ∧ isLowSurrogate c.toNat = false := by
      simp only [isHighSurrogate, isLowSurrogate, Bool.and_eq_false_imp, decide_eq_true_eq,
        decide_eq_false_iff_not]
      omega
    simp only [hex4, List.cons_append, List.nil_append, parseStringBody]
    have e1 : ('\\' : Char).toNat = 92 := rfl
    have e2 : ('u' : Char).toNat = 117 := rfl
    simp [e1, e2, hv, hs.1, hs.2, Char.ofNat_toNat]
  · next h1 h2 h3 h4 h5 h6 h7 h =>
    have hn : ¬ c.toNat < 32 := by
      intro hlt
      apply h
      simp [needsUnicodeEscape, hlt]
    simp [parseStringBody, h1, h2, hn]

theorem parseStringBody_escapeChars (cs : List Char) :
    ∀ (n : Nat) (rest : List Char), cs.length < n →
      parseStringBody n (escapeChars cs ++ '"' :: rest) = some (cs, rest) := by
  induction cs with
  | nil =>
    intro n rest hn
    obtain ⟨m, rfl⟩ : ∃ m, n = m + 1 := ⟨n - 1, by simp at hn; omega⟩
    simp [escapeChars, parseStringBody]
  | cons c cs ih =>
    intro n rest hn
    obtain ⟨m, rfl⟩ : ∃ m, n = m + 1 := ⟨n - 1, by simp at hn; omega⟩
    have hm : cs.length < m := by simpa using hn
    rw [escapeChars, List.append_assoc, parseStringBody_escapeChar, ih m rest hm]
    rfl


theorem escapeChar_length_pos (c : Char) : 1 ≤ (escapeChar c).length := by
  unfold escapeChar
  repeat' split
  all_goals simp [hex4]

theorem length_le_escapeChars (cs : List Char) : cs.length ≤ (escapeChars cs).length := by
  induction cs with
  | nil => simp [escapeChars]
  | cons c cs ih =>
    have := escapeChar_length_pos c
    simp only [escapeChars, List.length_cons, List.length_append]
    omega

/-- A string literal body is read back by the string parser run on the fuel its callers
give it. -/
theorem parseStringBody_render (cs rest : List Char) :
    parseStringBody ((escapeChars cs ++ '"' :: rest).length + 1) (escapeChars cs ++ '"' :: rest)
      = some (cs, rest) := by
  apply parseStringBody_escapeChars
  have := length_le_escapeChars cs
  simp only [List.length_append, List.length_cons]
  omega

theorem Parses.mono {k m : Nat} {j : JSON} (h : Parses k j) (hkm : k ≤ m) : Parses m j :=
  ⟨h.1, fun n hn rest => h.2 n (le_trans hkm hn) rest⟩

theorem skipWs_cons_of_not_ws {c : Char} (cs : List Char) (h : isWs c = false) :
    skipWs (c :: cs) = c :: cs := by
  simp [skipWs, h]

theorem take_literal (a rest : List Char) :
    (a ++ '"' :: rest).take ((a ++ '"' :: rest).length - rest.length - 1) = a := by
  have : (a ++ '"' :: rest).length - rest.length - 1 = a.length := by
    simp only [List.length_append, List.length_cons]
    omega
  rw [this, List.take_left']
  rfl

theorem parses_str (s : String) : Parses 1 (.str s) := by
  refine ⟨⟨'"', escapeChars s.data ++ ['"'], rfl, rfl, by decide⟩, ?_⟩
  intro n hn rest
  obtain ⟨m, rfl⟩ : ∃ m, n = m + 1 := ⟨n - 1, by omega⟩
  have e : ('"' : Char).toNat = 34 := rfl
  simp only [renderChars, renderString, List.cons_append, List.append_assoc,
    List.singleton_append, parseValue]
  rw [skipWs_cons_of_not_ws _ (by rfl)]
  simp only [e, if_neg (by decide : ¬ (34 : Nat) = 123), if_neg (by decide : ¬ (34 : Nat) = 91),
    if_true, parseStringBody_render, Option.map_some', List.nil_append, take_literal,
    stringValue]

theorem parses_bool (b : Bool) : Parses 1 (.bool b) := by
  cases b
  · refine ⟨⟨'f', ['a', 'l', 's', 'e'], rfl, rfl, by decide⟩, ?_⟩
    intro n hn rest
    obtain ⟨m, rfl⟩ : ∃ m, n = m + 1 := ⟨n - 1, by omega⟩
    have e : ('f' : Char).toNat = 102 := rfl
    simp [renderChars, parseValue, skipWs, isWs, e, stripLit]
  · refine ⟨⟨'t', ['r', 'u', 'e'], rfl, rfl, by decide⟩, ?_⟩
    intro n hn rest
    obtain ⟨m, rfl⟩ : ∃ m, n = m + 1 := ⟨n - 1, by omega⟩
    have e : ('t' : Char).toNat = 116 := rfl
    simp [renderChars, parseValue, skipWs, isWs, e, stripLit]

theorem parses_null : Parses 1 .null := by
  refine ⟨⟨'n', ['u', 'l', 'l'], rfl, rfl, by decide⟩, ?_⟩
  intro n hn rest
  obtain ⟨m, rfl⟩ : ∃ m, n = m + 1 := ⟨n - 1, by omega⟩
  have e : ('n' : Char).toNat = 110 := rfl
  simp [renderChars, parseValue, skipWs, isWs, e, stripLit]

theorem parseElemsWith_render (pv : List Char → Option (JSON × List Char)) (xs : List JSON)
    (hne : xs ≠ [])
    (hpv : ∀ x ∈ xs, ∀ rest, pv (renderChars x ++ rest) = some (x, rest)) :
    ∀ n, xs.length ≤ n → ∀ rest,
      parseElemsWith pv n (renderElems xs ++ ']' :: rest) = some (xs, rest) := by
  induction xs with
  | nil => exact absurd rfl hne
  | cons x xs ih =>
    intro n hn rest
    obtain ⟨m, rfl⟩ : ∃ m, n = m + 1 := ⟨n - 1, by simp at hn; omega⟩
    have hx := hpv x (List.mem_cons_self _ _)
    cases xs with
    | nil =>
      have e : (']' : Char).toNat = 93 := rfl
      simp [renderElems, parseElemsWith, hx, skipWs, isWs, e]
    | cons y ys =>
      have hrec := ih (by simp) (fun z hz => hpv z (List.mem_cons_of_mem _ hz)) m
        (by simpa using hn) rest
      have e : (',' : Char).toNat = 44 := rfl
      simp only [renderElems, List.isEmpty_cons, Bool.false_eq_true, if_false,
        List.append_assoc, List.cons_append, parseElemsWith, hx]
      simp only [renderElems, List.isEmpty_cons, Bool.false_eq_true, if_false,
        List.append_assoc, List.cons_append] at hrec
      simp [skipWs, isWs, e, hrec]

theorem renderElems_length (xs : List JSON) (h : ∀ x ∈ xs, renderChars x ≠ []) :
    xs.length ≤ (renderElems xs).length := by
  induction xs with
  | nil => simp
  | cons x xs ih =>
    have hx : 1 ≤ (renderChars x).length := by
      have := h x (List.mem_cons_self _ _)
      exact List.length_pos.mpr this
    have hrec := ih (fun z hz => h z (List.mem_cons_of_mem _ hz))
    cases xs with
    | nil => simp [renderElems]; omega
    | cons y ys =>
      simp only [renderElems, List.isEmpty_cons, Bool.false_eq_true, if_false,
        List.length_append, List.length_cons] at hrec ⊢
      omega

theorem parses_arr (k : Nat) (xs : List JSON) (hk : 1 ≤ k) (h : ∀ x ∈ xs, Parses k x) :
    Parses (k + 1) (.arr xs) := by
  refine ⟨⟨'[', renderElems xs ++ [']'], rfl, rfl, by decide⟩, ?_⟩
  intro n hn rest
  obtain ⟨m, rfl⟩ : ∃ m, n = m + 1 := ⟨n - 1, by omega⟩
  have hm : k ≤ m := by omega
  have hm0 : ¬ m = 0 := by omega
  have e : ('[' : Char).toNat = 91 := rfl
  have e2 : (']' : Char).toNat = 93 := rfl
  cases xs with
  | nil => simp [renderChars, renderElems, parseValue, skipWs, isWs, e, e2, hm0]
  | cons x xs =>
    obtain ⟨⟨c, cs, hc, hws, h93⟩, -⟩ := h x (List.mem_cons_self _ _)
    have hlen : (x :: xs).length ≤ (renderElems (x :: xs)).length :=
      renderElems_length _ (fun z hz => by
        obtain ⟨⟨c, cs, hc, -, -⟩, -⟩ := h z hz
        simp [hc])
    have hstart : ∃ t, renderElems (x :: xs) = c :: t := by
      simp only [renderElems, hc, List.cons_append]
      exact ⟨_, rfl⟩
    obtain ⟨t, ht⟩ := hstart
    have hpe := parseElemsWith_render (parseValue m) (x :: xs) (by simp)
      (fun z hz r => (h z hz).2 m hm r)
      ((renderElems (x :: xs) ++ ']' :: rest).length + 1)
      (by simp only [List.length_append, List.length_cons] at hlen ⊢; omega) rest
    simp only [renderChars, List.cons_append, List.append_assoc, List.singleton_append,
      List.nil_append, parseValue]
    rw [skipWs_cons_of_not_ws _ (by rfl)]
    simp only [e, if_neg (by decide : ¬ (91 : Nat) = 123), if_true, if_neg hm0]
    rw [ht] at hpe ⊢
    simp only [List.cons_append] at hpe ⊢
    rw [skipWs_cons_of_not_ws _ hws]
    simp only [if_neg h93, hpe, Option.map_some']


theorem renderMembers_cons_eq (k : String) (v : JSON) (rest : List (String × JSON))
    (tail : List Char) :
    renderMembers ((k, v) :: rest) ++ tail
      = '"' :: (escapeChars k.data ++ '"' :: ':' :: (renderChars v ++
          ((if rest.isEmpty then [] else ',' :: renderMembers rest) ++ tail))) := by
  simp [renderMembers, renderString]

theorem parseMembersWith_render (pv : List Char → Option (JSON × List Char))
    (kvs : List (String × JSON)) (hne : kvs ≠ [])
    (hpv : ∀ kv ∈ kvs, ∀ rest, pv (renderChars kv.2 ++ rest) = some (kv.2, rest)) :
    ∀ n, kvs.length ≤ n → ∀ rest,
      parseMembersWith pv n (renderMembers kvs ++ Char.ofNat 125 :: rest) = some (kvs, rest) := by
  induction kvs with
  | nil => exact absurd rfl hne
  | cons kv kvs ih =>
    intro n hn rest
    obtain ⟨m, rfl⟩ : ∃ m, n = m + 1 := ⟨n - 1, by simp at hn; omega⟩
    obtain ⟨k, v⟩ := kv
    have hx := hpv (k, v) (List.mem_cons_self _ _)
    have e1 : ('"' : Char).toNat = 34 := rfl
    have e2 : (':' : Char).toNat = 58 := rfl
    have e3 : (',' : Char).toNat = 44 := rfl
    have e4 : (Char.ofNat 125).toNat = 125 := rfl
    rw [renderMembers_cons_eq, parseMembersWith, skipWs_cons_of_not_ws _ (by rfl)]
    simp only [e1, if_true, parseStringBody_render]
    rw [skipWs_cons_of_not_ws _ (by rfl)]
    simp only [e2, if_true, hx]
    cases kvs with
    | nil =>
      simp only [List.isEmpty_nil, if_true, List.nil_append]
      rw [skipWs_cons_of_not_ws _ (by rfl)]
      simp [e4]
    | cons y ys =>
      have hrec := ih (by simp) (fun z hz => hpv z (List.mem_cons_of_mem _ hz)) m
        (by simpa using hn) rest
      simp only [List.isEmpty_cons, Bool.false_eq_true, if_false, List.cons_append]
      rw [skipWs_cons_of_not_ws _ (by rfl)]
      simp [e3, hrec]

theorem renderMembers_length (kvs : List (String × JSON)) :
    kvs.length ≤ (renderMembers kvs).length := by
  induction kvs with
  | nil => simp
  | cons kv kvs ih =>
    obtain ⟨k, v⟩ := kv
    cases kvs with
    | nil => simp [renderMembers, renderString]
    | cons y ys =>
      simp only [renderMembers, renderString, List.isEmpty_cons, Bool.false_eq_true, if_false,
        List.length_append, List.length_cons] at ih ⊢
      omega

theorem parses_obj (k : Nat) (kvs : List (String × JSON)) (hk : 1 ≤ k)
    (h : ∀ kv ∈ kvs, Parses k kv.2) : Parses (k + 1) (.obj kvs) := by
  refine ⟨⟨Char.ofNat 123, renderMembers kvs ++ [Char.ofNat 125], rfl, rfl, by decide⟩, ?_⟩
  intro n hn rest
  obtain ⟨m, rfl⟩ : ∃ m, n = m + 1 := ⟨n - 1, by omega⟩
  have hm : k ≤ m := by omega
  have hm0 : ¬ m = 0 := by omega
  have e : (Char.ofNat 123).toNat = 123 := rfl
  have e2 : (Char.ofNat 125).toNat = 125 := rfl
  have e3 : ('"' : Char).toNat = 34 := rfl
  cases kvs with
  | nil =>
    simp only [renderChars, renderMembers, List.cons_append, List.nil_append, parseValue]
    rw [skipWs_cons_of_not_ws _ (by rfl)]
    simp only [e, if_true, if_neg hm0]
    rw [skipWs_cons_of_not_ws _ (by rfl)]
    simp only [e2, if_true]
  | cons kv kvs =>
    have hlen := renderMembers_length (kv :: kvs)
    have hpe := parseMembersWith_render (parseValue m) (kv :: kvs) (by simp)
      (fun z hz r => (h z hz).2 m hm r)
      ((renderMembers (kv :: kvs) ++ Char.ofNat 125 :: rest).length + 1)
      (by simp only [List.length_append, List.length_cons] at hlen ⊢; omega) rest
    obtain ⟨key, v⟩ := kv
    simp only [renderChars, List.cons_append, List.append_assoc, List.singleton_append,
      List.nil_append, parseValue]
    rw [skipWs_cons_of_not_ws _ (by rfl)]
    simp only [e, if_true, if_neg hm0]
    rw [renderMembers_cons_eq] at hpe ⊢
    rw [skipWs_cons_of_not_ws _ (by rfl)]
    simp only [e3, if_neg (by decide : ¬ (34 : Nat) = 125), hpe, Option.map_some']

/-- A value the parser reads back is read back by the whole-text parser, when the levels it
needs are within the nesting depth allowed. -/
theorem parse_render_of_parses {k : Nat} {j : JSON} (h : Parses k j)
    (hk : k ≤ maxNestingDepth + 1) : JSON.parse j.render = some j := by
  have := h.2 (maxNestingDepth + 1) hk []
  simp only [List.append_nil] at this
  simp [JSON.parse, JSON.render, this, skipWs]


/-! ### Decoding what the encoder built -/

theorem decodeStringElems_map_str (cur xs : List String) :
    decodeStringElems cur (xs.map JSON.str) = .ok xs := by
  induction xs generalizing cur with
  | nil => rfl
  | cons x xs ih => simp [decodeStringElems, decodeString, Decoded.andThen, ih]

theorem decodeRuleMembers_append (m : RuleMem) (ms1 ms2 : List (String × JSON)) :
    decodeRuleMembers m (ms1 ++ ms2)
      = (decodeRuleMembers m ms1).andThen fun m2 => decodeRuleMembers m2 ms2 := by
  induction ms1 generalizing m with
  | nil => rfl
  | cons kv ms1 ih =>
    obtain ⟨k, v⟩ := kv
    simp only [List.cons_append, decodeRuleMembers]
    generalize findField ruleFields k = ff
    cases ff with
    | none => exact ih m
    | some f =>
      dsimp only
      generalize setRuleField m f v = sr
      cases sr with
      | ok m2 => simpa [Decoded.andThen] using ih m2
      | error e => simp [Decoded.andThen]

theorem normSlice_eq_of_len_eq_zero {α : Type} {xs : Slice α} (h : xs.len = 0) :
    normSlice xs = none := by
  simp [normSlice, h]

theorem normSlice_eq_some {α : Type} {xs : Slice α} (h : ¬ xs.len = 0) :
    normSlice xs = some xs.elems := by
  cases xs with
  | none => simp [Slice.len, Slice.elems] at h
  | some ys => simp [normSlice, h, Slice.elems]

/-- A nil slice with an empty backing array decodes the array of a non-empty list of
strings to that list, nothing staying behind. -/
theorem decodeStringSlice_fresh (xs : Slice String) (h : ¬ xs.len = 0) :
    decodeStringSlice ⟨none, []⟩ (.arr (xs.elems.map JSON.str)) = .ok ⟨some xs.elems, []⟩ := by
  have hne : xs.elems ≠ [] := by
    intro h0
    apply h
    simp [Slice.len, h0]
  have hemp : (xs.elems.map JSON.str).isEmpty = false := by
    cases hx : xs.elems with
    | nil => exact absurd hx hne
    | cons y ys => rfl
  simp [decodeStringSlice, hemp, decodeStringElems_map_str, Decoded.andThen, Slice.elems]

/-- Decoding the object built from a rule gives the rule back, empty lists as nil lists. -/
theorem decodeRule_toJSON (r : AggregationRule) : decodeRule {} r.toJSON = .ok r.normalize := by
  obtain ⟨m, mt, d, kl, dl, ag, ai, ad, ing⟩ := r
  simp only [AggregationRule.toJSON, decodeRule, decodeRuleMembers_append]
  have f1 : findField ruleFields "metric" = some .Metric := by decide
  have f2 : findField ruleFields "match_type" = some .MatchType := by decide
  have f3 : findField ruleFields "drop" = some .Drop := by decide
  have f4 : findField ruleFields "keep_labels" = some .KeepLabels := by decide
  have f5 : findField ruleFields "drop_labels" = some .DropLabels := by decide
  have f6 : findField ruleFields "aggregations" = some .Aggregations := by decide
  have f7 : findField ruleFields "aggregation_interval" = some .AggregationInterval := by decide
  have f8 : findField ruleFields "aggregation_delay" = some .AggregationDelay := by decide
  have f9 : findField ruleFields "ingest" = some .Ingest := by decide
  by_cases h2 : mt = "" <;> by_cases h3 : d = false <;> by_cases h4 : Slice.len kl = 0 <;>
    by_cases h5 : Slice.len dl = 0 <;> by_cases h6 : Slice.len ag = 0 <;>
    by_cases h7 : ai = "" <;> by_cases h8 : ad = "" <;> by_cases h9 : ing = false <;>
    simp [omitEmptyString, omitEmptyBool, omitEmptySlice, decodeRuleMembers, f1, f2, f3, f4, f5,
      f6, f7, f8, f9, setRuleField, decodeString, decodeBool, decodeStringSlice_fresh,
      Decoded.andThen, AggregationRule.normalize, h2, h3, h4, h5, h6,
      h7, h8, h9, normSlice_eq_of_len_eq_zero, normSlice_eq_some]

theorem parses_omitEmptyString (key s : String) :
    ∀ kv ∈ omitEmptyString key s, Parses 2 kv.2 := by
  intro kv hkv
  unfold omitEmptyString at hkv
  split at hkv
  · simp at hkv
  · simp only [List.mem_singleton] at hkv
    subst hkv
    exact (parses_str s).mono (by omega)

theorem parses_omitEmptyBool (key : String) (b : Bool) :
    ∀ kv ∈ omitEmptyBool key b, Parses 2 kv.2 := by
  intro kv hkv
  unfold omitEmptyBool at hkv
  split at hkv
  · simp at hkv
  · simp only [List.mem_singleton] at hkv
    subst hkv
    exact (parses_bool b).mono (by omega)

theorem parses_strs (xs : List String) : Parses 2 (.arr (xs.map JSON.str)) := by
  apply parses_arr 1 _ (le_refl 1)
  intro x hx
  obtain ⟨s, -, rfl⟩ := List.mem_map.mp hx
  exact parses_str s

theorem parses_omitEmptySlice (key : String) (xs : Slice String) :
    ∀ kv ∈ omitEmptySlice key xs, Parses 2 kv.2 := by
  intro kv hkv
  unfold omitEmptySlice at hkv
  split at hkv
  · simp at hkv
  · simp only [List.mem_singleton] at hkv
    subst hkv
    exact parses_strs _

theorem parses_rule (r : AggregationRule) : Parses 3 r.toJSON := by
  unfold AggregationRule.toJSON
  apply parses_obj 2 _ (by omega)
  intro kv hkv
  simp only [List.mem_append] at hkv
  rcases hkv with ((((((((h | h) | h) | h) | h) | h) | h) | h) | h)
  · simp only [List.mem_singleton] at h
    subst h
    exact (parses_str _).mono (by omega)
  · exact parses_omitEmptyString _ _ kv h
  · exact parses_omitEmptyBool _ _ kv h
  · exact parses_omitEmptySlice _ _ kv h
  · exact parses_omitEmptySlice _ _ kv h
  · exact parses_omitEmptySlice _ _ kv h
  · exact parses_omitEmptyString _ _ kv h
  · exact parses_omitEmptyString _ _ kv h
  · exact parses_omitEmptyBool _ _ kv h

/-- The parser reads the text of a rule back as the object it was rendered from. -/
theorem parse_marshalRule (r : AggregationRule) : JSON.parse (marshalRule r) = some r.toJSON :=
  parse_render_of_parses (parses_rule r) (by decide)

theorem unmarshalRule_marshalRule (r : AggregationRule) :
    unmarshalRule (marshalRule r) = .ok r.normalize := by
  simp [unmarshalRule, unmarshalWith, parse_marshalRule, decodeRule_toJSON]

theorem elems_normSlice {α : Type} (xs : Slice α) : (normSlice xs).elems = xs.elems := by
  cases xs with
  | none => rfl
  | some ys =>
    cases ys with
    | nil => rfl
    | cons y ys => rfl

theorem decodeRuleElems_map_toJSON (rs : List AggregationRule) :
    decodeRuleElems (rs.map AggregationRule.toJSON)
      = .ok (rs.map AggregationRule.normalize) := by
  induction rs with
  | nil => rfl
  | cons r rs ih => simp [decodeRuleElems, decodeRule_toJSON, Decoded.andThen, ih]

theorem parses_rules (rs : Slice AggregationRule) : Parses 4 (rulesToJSON rs) := by
  cases rs with
  | none => exact parses_null.mono (by omega)
  | some rs =>
    apply parses_arr 3 _ (by omega)
    intro x hx
    obtain ⟨r, -, rfl⟩ := List.mem_map.mp hx
    exact parses_rule r

/-- A rule list comes back from its text, each rule with its empty lists as nil lists. -/
theorem unmarshalRules_marshalRules (rs : Slice AggregationRule) :
    unmarshalRules (marshalRules rs) = .ok (rs.map (List.map AggregationRule.normalize)) := by
  have hp : JSON.parse (marshalRules rs) = some (rulesToJSON rs) :=
    parse_render_of_parses (parses_rules rs) (by decide)
  cases rs with
  | none => simp [unmarshalRules, unmarshalWith, hp, rulesToJSON, decodeRules]
  | some rs =>
    simp [unmarshalRules, unmarshalWith, hp, rulesToJSON, decodeRules,
      decodeRuleElems_map_toJSON, Decoded.andThen]

/-! ## Headers -/

theorem sameName_refl (a : String) : sameName a a = true := by
  simp [sameName]

theorem sameName_trans_false {n a k : String} (h1 : sameName a k = true)
    (h2 : sameName n k = false) : sameName a n = false := by
  simp only [sameName, decide_eq_true_eq, decide_eq_false_iff_not] at *
  intro h
  exact h2 (h ▸ h1)

theorem headerGet_append (h1 h2 : Headers) (k : String) :
    headerGet (h1 ++ h2) k = (headerGet h1 k).orElse fun _ => headerGet h2 k := by
  unfold headerGet
  rw [List.find?_append]
  cases List.find? (fun p => sameName p.1 k) h1 <;> simp

theorem headerGet_filter_same (h : Headers) (n k : String) (hs : sameName n k = true) :
    headerGet (h.filter fun p => !sameName p.1 n) k = none := by
  unfold headerGet
  have : List.find? (fun p => sameName p.1 k) (h.filter fun p => !sameName p.1 n) = none := by
    rw [List.find?_eq_none]
    intro p hp hpk
    have hp2 := (List.mem_filter.mp hp).2
    simp only [sameName, decide_eq_true_eq, Bool.not_eq_true', decide_eq_false_iff_not] at *
    exact hp2 (hpk.trans hs.symm)
  rw [this]
  rfl

theorem headerGet_filter_other (h : Headers) (n k : String) (hs : sameName n k = false) :
    headerGet (h.filter fun p => !sameName p.1 n) k = headerGet h k := by
  unfold headerGet
  congr 1
  induction h with
  | nil => rfl
  | cons p ps ih =>
    by_cases hpk : sameName p.1 k = true
    · have hpn : sameName p.1 n = false := sameName_trans_false hpk hs
      simp [List.filter, hpn, hpk]
    · by_cases hpn : sameName p.1 n = true
      · simp [List.filter, hpn, hpk, ih]
      · simp [List.filter, hpn, hpk, ih]

/-- Setting a header makes it the value read under any name equal to it up to case. -/
theorem headerGet_headerSet_same (h : Headers) (n v k : String) (hs : sameName n k = true) :
    headerGet (headerSet h n v) k = some v := by
  rw [headerSet, headerGet_append, headerGet_filter_same h n k hs]
  simp [headerGet, hs]

/-- Setting a header leaves the headers of other names as they are. -/
theorem headerGet_headerSet_other (h : Headers) (n v k : String) (hs : sameName n k = false) :
    headerGet (headerSet h n v) k = headerGet h k := by
  rw [headerSet, headerGet_append, headerGet_filter_other h n k hs]
  cases headerGet h k <;> simp [headerGet, hs]

theorem mem_headerSet_same {h : Headers} {n v : String} {p : String × String}
    (hp : p ∈ headerSet h n v) (hs : sameName p.1 n = true) : p.2 = v := by
  rw [headerSet, List.mem_append] at hp
  rcases hp with hp | hp
  · have := (List.mem_filter.mp hp).2
    simp [hs] at this
  · simp only [List.mem_singleton] at hp
    rw [hp]

/-- A per-call `If-Match` is the one header of that name in the merged headers. -/
theorem mergeHeaders_ifMatch (d : Headers) (e : String) :
    headerGet (mergeHeaders d [("If-Match", e)]) "If-Match" = some e
      ∧ ∀ p ∈ mergeHeaders d [("If-Match", e)], sameName p.1 "If-Match" = true → p.2 = e := by
  constructor
  · exact headerGet_headerSet_same d _ _ _ (sameName_refl _)
  · intro p hp hs
    exact mem_headerSet_same hp hs

theorem headerGet_mergeHeaders_other (d pc : Headers) (k : String)
    (h : ∀ p ∈ pc, sameName p.1 k = false) :
    headerGet (mergeHeaders d pc) k = headerGet d k := by
  induction pc generalizing d with
  | nil => rfl
  | cons p ps ih =>
    simp only [mergeHeaders, List.foldl_cons]
    have := ih (headerSet d p.1 p.2) (fun q hq => h q (List.mem_cons_of_mem _ hq))
    simp only [mergeHeaders] at this
    rw [this, headerGet_headerSet_other _ _ _ _ (h p (List.mem_cons_self _ _))]

/-! ## One exchange per operation -/

/-- What an operation makes of the exchange its request gets. -/
theorem call_recording {σ α : Type} (c : Client) (m p : String) (h : Headers)
    (b : Option String) (result : Headers → String → Outcome α) (t : Transport σ) (w : σ)
    (log : List Request) :
    c.call m p h b result (recording t) (w, log)
      = ((match (t (c.newRequest m p h b) w).1 with
          | .failure msg => .error (.transport msg)
          | .response resp =>
            if isSuccess resp.status then result resp.headers resp.body
            else .error (.http resp.status resp.body)),
         ((t (c.newRequest m p h b) w).2, log ++ [c.newRequest m p h b])) := by
  simp only [Client.call, Client.send, recording]
  cases hx : (t (c.newRequest m p h b) w).1 with
  | failure msg => rfl
  | response resp =>
    dsimp only
    by_cases hs : isSuccess resp.status = true
    · simp only [hs, if_true]
    · simp only [hs, if_false, Bool.false_eq_true]


theorem ofDecoded_ne_http {α : Type} (d : Decoded α) (s : Nat) (b : String) :
    Outcome.ofDecoded d ≠ .error (.http s b) := by
  cases d <;> simp [Outcome.ofDecoded]

theorem withEtag_ne_http {α : Type} (h : Headers) (d : Decoded α) (s : Nat) (b : String) :
    withEtag h d ≠ .error (.http s b) := by
  cases d <;> simp [withEtag]

/-- One tagged call against a logging transport: the one request logged, and the result
in each case of the exchange. -/
theorem tagged_call_recording {σ α : Type} (c : Client) (m p : String) (h : Headers)
    (b : Option String) (res : Headers → String → Outcome α) (f : α → Value)
    (t : Transport σ) (w : σ)
    (hres : ∀ hh bb s b2, res hh bb ≠ .error (.http s b2)) :
    (tagged f (c.call m p h b res (recording t) (w, []))).2
        = ((t (c.newRequest m p h b) w).2, [c.newRequest m p h b])
      ∧ (∀ msg, (t (c.newRequest m p h b) w).1 = .failure msg →
          (tagged f (c.call m p h b res (recording t) (w, []))).1 = .error (.transport msg))
      ∧ (∀ resp, (t (c.newRequest m p h b) w).1 = .response resp →
          isSuccess resp.status = false →
          (tagged f (c.call m p h b res (recording t) (w, []))).1
            = .error (.http resp.status resp.body))
      ∧ (∀ resp, (t (c.newRequest m p h b) w).1 = .response resp →
          isSuccess resp.status = true → ∀ s b2,
          (tagged f (c.call m p h b res (recording t) (w, []))).1 ≠ .error (.http s b2)) := by
  rw [call_recording]
  cases hx : (t (c.newRequest m p h b) w).1 with
  | failure msg =>
    refine ⟨rfl, ?_, ?_, ?_⟩
    · intro msg2 h2
      cases h2
      rfl
    · intro resp h2; cases h2
    · intro resp h2; cases h2
  | response resp =>
    dsimp only
    by_cases hs : isSuccess resp.status = true
    · simp only [hs, if_true]
      have hne := hres resp.headers resp.body
      cases hr : res resp.headers resp.body with
      | ok v =>
        refine ⟨rfl, ?_, ?_, ?_⟩
        · intro msg h2; cases h2
        · intro r2 h2 h3; cases h2; rw [hs] at h3; cases h3
        · intro r2 h2 _ s b2; simp [tagged]
      | error e =>
        refine ⟨rfl, ?_, ?_, ?_⟩
        · intro msg h2; cases h2
        · intro r2 h2 h3; cases h2; rw [hs] at h3; cases h3
        · intro r2 h2 _ s b2
          simp only [tagged]
          intro h4
          have he : e = .http s b2 := by injection h4
          subst he
          exact hne s b2 hr
    · simp only [hs, if_false, Bool.false_eq_true]
      refine ⟨rfl, ?_, ?_, ?_⟩
      · intro msg h2; cases h2
      · intro r2 h2 _; cases h2; rfl
      · intro r2 h2 h3; cases h2; exact absurd h3 hs

/-- Every operation either fails to encode its body and sends nothing, or sends exactly one
request, carrying the merged default and per-call headers, and returns what the exchange
determines. -/
theorem run_recording {σ : Type} (c : Client) (tc : TimeCodec) (op : Operation)
    (t : Transport σ) (w : σ) :
    c.run tc op (recording t) (w, []) = (.error .encode, (w, []))
      ∨ ∃ req : Request, req.headers = mergeHeaders c.defaultHeaders op.perCall
        ∧ (c.run tc op (recording t) (w, [])).2 = ((t req w).2, [req])
        ∧ (∀ msg, (t req w).1 = .failure msg →
            (c.run tc op (recording t) (w, [])).1 = .error (.transport msg))
        ∧ (∀ resp, (t req w).1 = .response resp → isSuccess resp.status = false →
            (c.run tc op (recording t) (w, [])).1 = .error (.http resp.status resp.body))
        ∧ (∀ resp, (t req w).1 = .response resp → isSuccess resp.status = true → ∀ s b2,
            (c.run tc op (recording t) (w, [])).1 ≠ .error (.http s b2)) := by
  cases op with
  | AggregationRecommendationsConfig =>
    refine Or.inr ⟨c.newRequest "GET" "/aggregations/recommendations/config" [] none, rfl, ?_⟩
    have := tagged_call_recording c "GET" "/aggregations/recommendations/config" [] none
      (fun _ b => Outcome.ofDecoded (unmarshalWith decodeConfig b)) Value.config t w
      (fun _ _ s b => ofDecoded_ne_http _ s b)
    simpa only [Client.run, Client.AggregationRecommendationsConfig] using this
  | UpdateAggregationRecommendationsConfig cfg =>
    refine Or.inr ⟨c.newRequest "POST" "/aggregations/recommendations/config" []
      (some (marshalConfig cfg)), rfl, ?_⟩
    have := tagged_call_recording c "POST" "/aggregations/recommendations/config" []
      (some (marshalConfig cfg)) (fun _ _ => Outcome.ok ()) (fun _ => Value.done) t w
      (fun _ _ s b => by simp)
    simpa only [Client.run, Client.UpdateAggregationRecommendationsConfig] using this
  | AggregationRecommendations =>
    refine Or.inr ⟨c.newRequest "GET" "/aggregations/recommendations" [] none, rfl, ?_⟩
    have := tagged_call_recording c "GET" "/aggregations/recommendations" [] none
      (fun _ b => Outcome.ofDecoded (unmarshalWith decodeRecommendations b))
      Value.recommendations t w (fun _ _ s b => ofDecoded_ne_http _ s b)
    simpa only [Client.run, Client.AggregationRecommendations] using this
  | AggregationRules =>
    refine Or.inr ⟨c.newRequest "GET" "/aggregations/rules" [] none, rfl, ?_⟩
    have := tagged_call_recording c "GET" "/aggregations/rules" [] none
      (fun h b => withEtag h (unmarshalRules b)) (fun p => Value.rules p.1 p.2) t w
      (fun _ _ s b => withEtag_ne_http _ _ s b)
    simpa only [Client.run, Client.AggregationRules] using this
  | UpdateAggregationRules rules etag =>
    refine Or.inr ⟨c.newRequest "POST" "/aggregations/rules" [("If-Match", etag)]
      (some (marshalRules rules)), rfl, ?_⟩
    have := tagged_call_recording c "POST" "/aggregations/rules" [("If-Match", etag)]
      (some (marshalRules rules)) (fun h _ => Outcome.ok (etagOf h)) Value.etag t w
      (fun _ _ s b => by simp)
    simpa only [Client.run, Client.UpdateAggregationRules] using this
  | CreateAggregationRule rule etag =>
    refine Or.inr ⟨c.newRequest "POST" ("/aggregations/rule/" ++ pathSegment rule.Metric)
      [("If-Match", etag)] (some (marshalRule rule)), rfl, ?_⟩
    have := tagged_call_recording c "POST" ("/aggregations/rule/" ++ pathSegment rule.Metric)
      [("If-Match", etag)] (some (marshalRule rule)) (fun h _ => Outcome.ok (etagOf h))
      Value.etag t w (fun _ _ s b => by simp)
    simpa only [Client.run, Client.CreateAggregationRule] using this
  | ReadAggregationRule metric =>
    refine Or.inr ⟨c.newRequest "GET" ("/aggregations/rule/" ++ pathSegment metric) [] none,
      rfl, ?_⟩
    have := tagged_call_recording c "GET" ("/aggregations/rule/" ++ pathSegment metric) [] none
      (fun h b => withEtag h (unmarshalRule b)) (fun p => Value.rule p.1 p.2) t w
      (fun _ _ s b => withEtag_ne_http _ _ s b)
    simpa only [Client.run, Client.ReadAggregationRule] using this
  | UpdateAggregationRule rule etag =>
    refine Or.inr ⟨c.newRequest "PUT" ("/aggregations/rule/" ++ pathSegment rule.Metric)
      [("If-Match", etag)] (some (marshalRule rule)), rfl, ?_⟩
    have := tagged_call_recording c "PUT" ("/aggregations/rule/" ++ pathSegment rule.Metric)
      [("If-Match", etag)] (some (marshalRule rule)) (fun h _ => Outcome.ok (etagOf h))
      Value.etag t w (fun _ _ s b => by simp)
    simpa only [Client.run, Client.UpdateAggregationRule] using this
  | DeleteAggregationRule metric etag =>
    refine Or.inr ⟨c.newRequest "DELETE" ("/aggregations/rule/" ++ pathSegment metric)
      [("If-Match", etag)] none, rfl, ?_⟩
    have := tagged_call_recording c "DELETE" ("/aggregations/rule/" ++ pathSegment metric)
      [("If-Match", etag)] none (fun h _ => Outcome.ok (etagOf h)) Value.etag t w
      (fun _ _ s b => by simp)
    simpa only [Client.run, Client.DeleteAggregationRule] using this
  | CreateExemption e =>
    have hrun : ∀ (x : Transport (σ × List Request)) (y : σ × List Request),
        c.run tc (.CreateExemption e) x y = tagged .exemption (c.CreateExemption tc e x y) :=
      fun _ _ => rfl
    simp only [hrun]
    unfold Client.CreateExemption
    generalize marshalExemption tc { e with ID := "" } = mb
    cases mb with
    | none =>
      left
      simp only [tagged]
    | some body =>
      exact Or.inr ⟨c.newRequest "POST" "/v1/recommendations/exemptions" [] (some body), rfl,
        tagged_call_recording c "POST" "/v1/recommendations/exemptions" [] (some body)
          (fun _ b => Outcome.ofDecoded (unmarshalWith (decodeEnvelope tc) b)) Value.exemption t w
          (fun _ _ s b => ofDecoded_ne_http _ s b)⟩
  | ReadExemption id =>
    refine Or.inr ⟨c.newRequest "GET" ("/v1/recommendations/exemptions/" ++ pathSegment id)
      [] none, rfl, ?_⟩
    have := tagged_call_recording c "GET" ("/v1/recommendations/exemptions/" ++ pathSegment id)
      [] none (fun _ b => Outcome.ofDecoded (unmarshalWith (decodeEnvelope tc) b)) Value.exemption
      t w (fun _ _ s b => ofDecoded_ne_http _ s b)
    simpa only [Client.run, Client.ReadExemption] using this
  | UpdateExemption e =>
    have hrun : ∀ (x : Transport (σ × List Request)) (y : σ × List Request),
        c.run tc (.UpdateExemption e) x y
          = tagged (fun _ => .done) (c.UpdateExemption tc e x y) :=
      fun _ _ => rfl
    simp only [hrun]
    unfold Client.UpdateExemption
    generalize marshalExemption tc e = mb
    cases mb with
    | none =>
      left
      simp only [tagged]
    | some body =>
      exact Or.inr ⟨c.newRequest "PUT" ("/v1/recommendations/exemptions/" ++ pathSegment e.ID)
        [] (some body), rfl,
        tagged_call_recording c "PUT"
          ("/v1/recommendations/exemptions/" ++ pathSegment e.ID) [] (some body)
          (fun _ _ => Outcome.ok ()) (fun _ => Value.done) t w (fun _ _ s b => by simp)⟩
  | DeleteExemption id =>
    refine Or.inr ⟨c.newRequest "DELETE" ("/v1/recommendations/exemptions/" ++ pathSegment id)
      [] none, rfl, ?_⟩
    have := tagged_call_recording c "DELETE"
      ("/v1/recommendations/exemptions/" ++ pathSegment id) [] none
      (fun _ _ => Outcome.ok ()) (fun _ => Value.done) t w (fun _ _ s b => by simp)
    simpa only [Client.run, Client.DeleteExemption] using this


theorem mem_mergeHeaders {d pc : Headers} {p : String × String}
    (hp : p ∈ mergeHeaders d pc) : p ∈ d ∨ p ∈ pc := by
  induction pc generalizing d with
  | nil => exact Or.inl hp
  | cons q qs ih =>
    simp only [mergeHeaders, List.foldl_cons] at hp
    rcases ih hp with h | h
    · rw [headerSet, List.mem_append] at h
      rcases h with h | h
      · exact Or.inl (List.mem_filter.mp h).1
      · simp only [List.mem_singleton] at h
        exact Or.inr (h ▸ List.mem_cons_self _ _)
    · exact Or.inr (List.mem_cons_of_mem _ h)

theorem perCall_not_authorization (op : Operation) :
    ∀ q ∈ op.perCall, sameName q.1 "Authorization" = false := by
  intro q hq
  have hf : sameName "If-Match" "Authorization" = false := by decide
  cases op <;> simp only [Operation.perCall, List.mem_singleton, List.not_mem_nil] at hq
  all_goals subst hq; exact hf

theorem isSuccess_iff (s : Nat) : isSuccess s = true ↔ 200 ≤ s ∧ s ≤ 299 := by
  simp [isSuccess]

theorem log_of_run {σ : Type} (c : Client) (tc : TimeCodec) (op : Operation)
    (t : Transport σ) (w : σ) (req : Request) (hreq : req ∈ (c.run tc op (recording t) (w, [])).2.2) :
    req.headers = mergeHeaders c.defaultHeaders op.perCall
      ∧ (∀ resp, (t req w).1 = .response resp → isSuccess resp.status = false →
          (c.run tc op (recording t) (w, [])).1 = .error (.http resp.status resp.body))
      ∧ (∀ resp, (t req w).1 = .response resp → isSuccess resp.status = true → ∀ s b2,
          (c.run tc op (recording t) (w, [])).1 ≠ .error (.http s b2)) := by
  rcases run_recording c tc op t w with h | ⟨r, hh, hlog, -, h2, h3⟩
  · rw [h] at hreq
    simp at hreq
  · rw [hlog] at hreq
    simp only [List.mem_singleton] at hreq
    subst hreq
    exact ⟨hh, h2, h3⟩

/-! ## The tests of `client_test.go` on the model of the client -/

set_option maxRecDepth 100000 in
/-- The exchanges of `client_test.go`, replayed on the model of the client: each operation
sends the request the test server expects and returns the value the test requires. -/
theorem client_tests_replayed :
    testClient.AggregationRecommendations (recording (answering { status := 200, body := minifiedJson })) ((), [])
        = (.ok (some [⟨{ Metric := "kube_persistentvolumeclaim_created", DropLabels := some ["persistentvolumeclaim"], Aggregations := some ["count", "sum"] }⟩, ⟨{ Metric := "kube_persistentvolumeclaim_resource_requests_storage_bytes", DropLabels := some ["persistentvolumeclaim"], Aggregations := some ["count", "sum"] }⟩]),
            ((), [⟨"GET", "http://localhost/aggregations/recommendations", [], none⟩]))
      ∧ testClient.UpdateAggregationRecommendationsConfig ⟨some ["namespace"]⟩
          (recording (answering emptyResponse)) ((), [])
        = (.ok (), ((), [⟨"POST", "http://localhost/aggregations/recommendations/config", [],
            some "\x7b\"keep_labels\":[\"namespace\"]\x7d"⟩]))
      ∧ testClient.AggregationRecommendationsConfig (recording (answering configResponse))
          ((), [])
        = (.ok ⟨some ["namespace"]⟩,
            ((), [⟨"GET", "http://localhost/aggregations/recommendations/config", [], none⟩]))
      ∧ testClient.AggregationRules (recording (answering rulesResponse)) ((), [])
        = (.ok (rulesPayload, "\"fake-etag\""),
            ((), [⟨"GET", "http://localhost/aggregations/rules", [], none⟩]))
      ∧ testClient.UpdateAggregationRules rulesPayload "\"fake-etag\""
          (recording (answering etagResponse)) ((), [])
        = (.ok "\"updated-fake-etag\"",
            ((), [⟨"POST", "http://localhost/aggregations/rules",
              [("If-Match", "\"fake-etag\"")], some minifiedJson⟩]))
      ∧ testClient.CreateAggregationRule testRule "\"fake-etag\""
          (recording (answering etagResponse)) ((), [])
        = (.ok "\"updated-fake-etag\"",
            ((), [⟨"POST", "http://localhost/aggregations/rule/test_metric",
              [("If-Match", "\"fake-etag\"")],
              some "\x7b\"metric\":\"test_metric\",\"drop\":true\x7d"⟩]))
      ∧ testClient.ReadAggregationRule "test_metric" (recording (answering ruleResponse))
          ((), [])
        = (.ok (testRule, "\"fake-etag\""),
            ((), [⟨"GET", "http://localhost/aggregations/rule/test_metric", [], none⟩]))
      ∧ testClient.UpdateAggregationRule testRule "\"fake-etag\""
          (recording (answering etagResponse)) ((), [])
        = (.ok "\"updated-fake-etag\"",
            ((), [⟨"PUT", "http://localhost/aggregations/rule/test_metric",
              [("If-Match", "\"fake-etag\"")],
              some "\x7b\"metric\":\"test_metric\",\"drop\":true\x7d"⟩]))
      ∧ testClient.DeleteAggregationRule "test_metric" "\"fake-etag\""
          (recording (answering etagResponse)) ((), [])
        = (.ok "\"updated-fake-etag\"",
            ((), [⟨"DELETE", "http://localhost/aggregations/rule/test_metric",
              [("If-Match", "\"fake-etag\"")], none⟩]))
      ∧ testClient.CreateExemption rfc3339UTC createdExemptionInput
          (recording (answering exemptionResponse)) ((), [])
        = (.ok expectedExemption,
            ((), [⟨"POST", "http://localhost/v1/recommendations/exemptions", [],
              some createExemptionReqBody⟩]))
      ∧ testClient.ReadExemption rfc3339UTC "generated-ulid" (recording (answering exemptionResponse))
          ((), [])
        = (.ok expectedExemption,
            ((), [⟨"GET", "http://localhost/v1/recommendations/exemptions/generated-ulid", [],
              none⟩]))
      ∧ testClient.UpdateExemption rfc3339UTC expectedExemption (recording (answering emptyResponse))
          ((), [])
        = (.ok (), ((), [⟨"PUT",
            "http://localhost/v1/recommendations/exemptions/generated-ulid", [],
            some "\x7b\"id\":\"generated-ulid\",\"metric\":\"test_metric\",\"keep_labels\":[\"foobar\"],\"created_at\":\"0001-01-01T00:00:00Z\",\"updated_at\":\"0001-01-01T00:00:00Z\"\x7d"⟩]))
      ∧ testClient.DeleteExemption "generated-ulid" (recording (answering emptyResponse))
          ((), [])
        = (.ok (), ((), [⟨"DELETE",
            "http://localhost/v1/recommendations/exemptions/generated-ulid", [], none⟩])) :=
  ⟨by decide, by decide, by decide, by decide, by decide, by decide, by decide, by decide,
    by decide, by decide, by decide, by decide, by decide⟩

/-! ## The calls of the resource -/

/-- The one call `Create` makes when the plan is read without error: CreateExemption with
the plan converted with ToAPIReq. -/
theorem create_passes_plan {σ : Type} (api : ExemptionAPI σ) (now : String)
    (req : CreateRequest) (w : σ) (hp : hasError req.Plan.diags = false) :
    (exemptionResource.Create api.logged now req (w, [])).2.2
        = [.CreateExemption req.Plan.value.ToAPIReq] := by
  simp only [exemptionResource.Create, hp, Bool.false_eq_true, if_false, ExemptionAPI.logged]
  cases (api.CreateExemption req.Plan.value.ToAPIReq w).1 <;> simp

/-! ## Go strings: decoding, encoding, and the rule of Go strings -/

theorem char_valid (c : Char) : c.toNat < 55296 ∨ (57343 < c.toNat ∧ c.toNat < 1114112) := by
  have h := c.valid
  simp only [UInt32.isValidChar, Nat.isValidChar] at h
  exact h

/-- Decoding reads back the character whose UTF-8 bytes stand at the head. -/
theorem decodeRune_utf8Bytes (c : Char) (rest : GoString) :
    decodeRune (utf8Bytes c.toNat ++ rest) = some (c, rest) := by
  have hv := char_valid c
  have hc : Char.ofNat c.toNat = c := Char.ofNat_toNat c
  generalize c.toNat = n at hv hc
  unfold utf8Bytes
  by_cases h1 : n < 128
  · simp [h1, decodeRune, hc]
  · by_cases h2 : n < 2048
    · have e : (192 + n / 64 - 192) * 64 + (128 + n % 64 - 128) = n := by omega
      have a1 : ¬ 192 + n / 64 < 128 := by omega
      have a2 : 194 ≤ 192 + n / 64 ∧ 192 + n / 64 ≤ 223 := by omega
      have a3 : isContinuation (128 + n % 64) = true := by
        simp [isContinuation]; omega
      simp only [h1, h2, if_false, if_true, List.cons_append, List.nil_append, decodeRune,
        a1, a2, a3, and_self, e, hc]
    · by_cases h3 : n < 65536
      · have e : (224 + n / 4096 - 224) * 4096 + (128 + n / 64 % 64 - 128) * 64
            + (128 + n % 64 - 128) = n := by omega
        have a1 : ¬ 224 + n / 4096 < 128 := by omega
        have a2 : ¬ (194 ≤ 224 + n / 4096 ∧ 224 + n / 4096 ≤ 223) := by omega
        have a3 : 224 ≤ 224 + n / 4096 ∧ 224 + n / 4096 ≤ 239 := by omega
        have a4 : (if 224 + n / 4096 = 224 then 160 else 128) ≤ 128 + n / 64 % 64
            ∧ 128 + n / 64 % 64 ≤ (if 224 + n / 4096 = 237 then 159 else 191)
            ∧ isContinuation (128 + n % 64) = true := by
          refine ⟨?_, ?_, ?_⟩
          · split <;> omega
          · split <;> omega
          · simp [isContinuation]; omega
        simp only [h1, h2, h3, if_false, if_true, List.cons_append, List.nil_append, decodeRune,
          a1, a2, a3, a4, and_self, e, hc]
      · have e : (240 + n / 262144 - 240) * 262144 + (128 + n / 4096 % 64 - 128) * 4096
            + (128 + n / 64 % 64 - 128) * 64 + (128 + n % 64 - 128) = n := by omega
        have a1 : ¬ 240 + n / 262144 < 128 := by omega
        have a2 : ¬ (194 ≤ 240 + n / 262144 ∧ 240 + n / 262144 ≤ 223) := by omega
        have a3 : ¬ (224 ≤ 240 + n / 262144 ∧ 240 + n / 262144 ≤ 239) := by omega
        have a5 : 240 ≤ 240 + n / 262144 ∧ 240 + n / 262144 ≤ 244 := by omega
        have a4 : (if 240 + n / 262144 = 240 then 144 else 128) ≤ 128 + n / 4096 % 64
            ∧ 128 + n / 4096 % 64 ≤ (if 240 + n / 262144 = 244 then 143 else 191)
            ∧ isContinuation (128 + n / 64 % 64) = true
            ∧ isContinuation (128 + n % 64) = true := by
          refine ⟨?_, ?_, ?_, ?_⟩
          · split <;> omega
          · split <;> omega
          · simp [isContinuation]; omega
          · simp [isContinuation]; omega
        simp only [h1, h2, h3, if_false, if_true, List.cons_append, List.nil_append, decodeRune,
          a1, a2, a3, a4, a5, and_self, e, hc]

theorem toNat_ofNat_valid (n : Nat) (h : n < 55296 ∨ (57343 < n ∧ n < 1114112)) :
    (Char.ofNat n).toNat = n := by
  have hv : n.isValidChar := h
  simp only [Char.ofNat, hv, dite_true]
  unfold Char.ofNatAux Char.toNat
  show (UInt32.toNat ⟨BitVec.ofNatLt n _⟩) = n
  rfl

/-- What decoding reads stood at the head as the UTF-8 bytes of the character. -/
theorem utf8Bytes_of_decodeRune (bs : GoString) (c : Char) (rest : GoString)
    (h : decodeRune bs = some (c, rest)) : bs = utf8Bytes c.toNat ++ rest := by
  cases bs with
  | nil => simp [decodeRune] at h
  | cons b0 r0 =>
    simp only [decodeRune] at h
    by_cases h1 : b0 < 128
    · simp only [h1, if_true, Option.some.injEq, Prod.mk.injEq] at h
      obtain ⟨hc, hr⟩ := h
      subst hc hr
      rw [toNat_ofNat_valid _ (by omega)]
      simp [utf8Bytes, h1]
    · simp only [h1, if_false] at h
      by_cases h2 : 194 ≤ b0 ∧ b0 ≤ 223
      · simp only [h2, and_self, if_true] at h
        cases r0 with
        | nil => simp at h
        | cons b1 r1 =>
          simp only [isContinuation, Bool.and_eq_true, decide_eq_true_eq] at h
          by_cases hb : 128 ≤ b1 ∧ b1 ≤ 191
          · simp only [hb, and_self, if_true, Option.some.injEq, Prod.mk.injEq] at h
            obtain ⟨hc, hr⟩ := h
            subst hc hr
            rw [toNat_ofNat_valid _ (by omega)]
            have e1 : ¬ ((b0 - 192) * 64 + (b1 - 128) < 128) := by omega
            have e2 : (b0 - 192) * 64 + (b1 - 128) < 2048 := by omega
            have e3 : 192 + ((b0 - 192) * 64 + (b1 - 128)) / 64 = b0 := by omega
            have e4 : 128 + ((b0 - 192) * 64 + (b1 - 128)) % 64 = b1 := by omega
            simp only [utf8Bytes, e1, e2, e3, e4, if_false, if_true, List.cons_append,
              List.nil_append]
          · simp only [hb, if_false] at h
            cases h
      · simp only [h2, if_false] at h
        by_cases h3 : 224 ≤ b0 ∧ b0 ≤ 239
        · simp only [h3, and_self, if_true] at h
          cases r0 with
          | nil => simp at h
          | cons b1 r1 =>
            cases r1 with
            | nil => simp at h
            | cons b2 r2 =>
              simp only [isContinuation, Bool.and_eq_true, decide_eq_true_eq] at h
              by_cases hb : (if b0 = 224 then 160 else 128) ≤ b1
                  ∧ b1 ≤ (if b0 = 237 then 159 else 191) ∧ 128 ≤ b2 ∧ b2 ≤ 191
              · simp only [hb, and_self, if_true, Option.some.injEq, Prod.mk.injEq] at h
                obtain ⟨hc, hr⟩ := h
                subst hc hr
                obtain ⟨hb1, hb2, hb3, hb4⟩ := hb
                have hlo : 128 ≤ b1 := by split at hb1 <;> omega
                have hhi : b1 ≤ 191 := by split at hb2 <;> omega
                have hlo2 : b0 = 224 → 160 ≤ b1 := by intro h0; simpa [h0] using hb1
                have hhi2 : b0 = 237 → b1 ≤ 159 := by intro h0; simpa [h0] using hb2
                generalize hn : (b0 - 224) * 4096 + (b1 - 128) * 64 + (b2 - 128) = n
                have hval : n < 55296 ∨ (57343 < n ∧ n < 1114112) := by omega
                rw [toNat_ofNat_valid _ hval]
                have e0 : ¬ (n < 128) := by omega
                have e1 : ¬ (n < 2048) := by omega
                have e2 : n < 65536 := by omega
                have e3 : 224 + n / 4096 = b0 := by omega
                have e4 : 128 + n / 64 % 64 = b1 := by omega
                have e5 : 128 + n % 64 = b2 := by omega
                simp only [utf8Bytes, e0, e1, e2, e3, e4, e5, if_false, if_true, List.cons_append,
                  List.nil_append]
              · simp only [hb, if_false] at h
                cases h
        · simp only [h3, if_false] at h
          by_cases h4 : 240 ≤ b0 ∧ b0 ≤ 244
          · simp only [h4, and_self, if_true] at h
            cases r0 with
            | nil => simp at h
            | cons b1 r1 =>
              cases r1 with
              | nil => simp at h
              | cons b2 r2 =>
                cases r2 with
                | nil => simp at h
                | cons b3 r3 =>
                  simp only [isContinuation, Bool.and_eq_true, decide_eq_true_eq] at h
                  by_cases hb : (if b0 = 240 then 144 else 128) ≤ b1
                      ∧ b1 ≤ (if b0 = 244 then 143 else 191) ∧ (128 ≤ b2 ∧ b2 ≤ 191)
                      ∧ 128 ≤ b3 ∧ b3 ≤ 191
                  · simp only [hb, and_self, if_true, Option.some.injEq, Prod.mk.injEq] at h
                    obtain ⟨hc, hr⟩ := h
                    subst hc hr
                    obtain ⟨hb1, hb2, ⟨hb3, hb4⟩, hb5, hb6⟩ := hb
                    have hlo : 128 ≤ b1 := by split at hb1 <;> omega
                    have hhi : b1 ≤ 191 := by split at hb2 <;> omega
                    have hlo2 : b0 = 240 → 144 ≤ b1 := by intro h0; simpa [h0] using hb1
                    have hhi2 : b0 = 244 → b1 ≤ 143 := by intro h0; simpa [h0] using hb2
                    generalize hn : (b0 - 240) * 262144 + (b1 - 128) * 4096 + (b2 - 128) * 64
                      + (b3 - 128) = n
                    have hval : n < 55296 ∨ (57343 < n ∧ n < 1114112) := by omega
                    rw [toNat_ofNat_valid _ hval]
                    have e0 : ¬ (n < 128) := by omega
                    have e1 : ¬ (n < 2048) := by omega
                    have e2 : ¬ (n < 65536) := by omega
                    have e3 : 240 + n / 262144 = b0 := by omega
                    have e4 : 128 + n / 4096 % 64 = b1 := by omega
                    have e5 : 128 + n / 64 % 64 = b2 := by omega
                    have e6 : 128 + n % 64 = b3 := by omega
                    simp only [utf8Bytes, e0, e1, e2, e3, e4, e5, e6, if_false, if_true,
                      List.cons_append, List.nil_append]
                  · simp only [hb, if_false] at h
                    cases h
          · simp only [h4, if_false] at h
            cases h

theorem goString_mk (cs : List Char) :
    goString (String.mk cs) = cs.flatMap fun c => utf8Bytes c.toNat := rfl

theorem utf8Bytes_cons (n : Nat) : ∃ b r, utf8Bytes n = b :: r := by
  unfold utf8Bytes
  split
  · exact ⟨_, _, rfl⟩
  · split
    · exact ⟨_, _, rfl⟩
    · split <;> exact ⟨_, _, rfl⟩

/-- The encoder writes the Go string of a text as it writes the text. -/
theorem escapeBytes_flatMap (cs : List Char) :
    ∀ fuel, (cs.flatMap fun c => utf8Bytes c.toNat).length ≤ fuel →
      escapeBytes fuel (cs.flatMap fun c => utf8Bytes c.toNat) = escapeChars cs := by
  induction cs with
  | nil =>
    intro fuel _
    cases fuel <;> rfl
  | cons c cs ih =>
    intro fuel hf
    simp only [List.flatMap_cons] at hf ⊢
    have hd := decodeRune_utf8Bytes c (cs.flatMap fun c => utf8Bytes c.toNat)
    obtain ⟨b, r, hb⟩ := utf8Bytes_cons c.toNat
    rw [hb] at hd hf ⊢
    simp only [List.cons_append, List.length_cons, List.length_append] at hd hf ⊢
    cases fuel with
    | zero => omega
    | succ n =>
      simp only [escapeBytes, hd, escapeChars]
      rw [ih n (by omega)]

theorem quoteBytes_goString (s : String) : quoteBytes (goString s) = renderString s := by
  unfold quoteBytes renderString goString
  rw [escapeBytes_flatMap s.data _ (Nat.le_refl _)]

theorem quoteBytesElems_map (ys : List String) :
    quoteBytesElems (ys.map goString) = renderElems (ys.map JSON.str) := by
  induction ys with
  | nil => rfl
  | cons y ys ih =>
    cases ys with
    | nil => simp [quoteBytesElems, renderElems, renderChars, quoteBytes_goString]
    | cons z zs =>
      simp only [List.map_cons] at ih ⊢
      rw [quoteBytesElems, renderElems, ih, quoteBytes_goString, renderChars]
      rfl

theorem renderFields_map (kvs : List (String × JSON)) :
    renderFields (kvs.map fun p => (p.1, renderChars p.2)) = renderMembers kvs := by
  induction kvs with
  | nil => rfl
  | cons kv kvs ih =>
    obtain ⟨k, v⟩ := kv
    cases kvs with
    | nil => simp [renderFields, renderMembers]
    | cons z zs =>
      simp only [List.map_cons] at ih ⊢
      rw [renderFields, renderMembers, ih]
      rfl

theorem goString_length_eq_zero (s : String) : (goString s).length = 0 ↔ s = "" := by
  constructor
  · intro h
    have h2 : goString s = [] := List.length_eq_zero.mp h
    cases s with
    | mk cs =>
      cases cs with
      | nil => rfl
      | cons c cs =>
        exfalso
        rw [goString_mk, List.flatMap_cons] at h2
        obtain ⟨b, r, hb⟩ := utf8Bytes_cons c.toNat
        rw [hb] at h2
        simp at h2
  · intro h
    subst h
    rfl

theorem omitEmptyGoString_goString (key s : String) :
    omitEmptyGoString key (goString s)
      = (omitEmptyString key s).map fun p => (p.1, renderChars p.2) := by
  unfold omitEmptyGoString omitEmptyString
  by_cases h : s = ""
  · simp [h, goString]
  · have h2 : ¬ (goString s).length = 0 := fun h3 => h ((goString_length_eq_zero s).mp h3)
    simp [h, h2, quoteBytes_goString, renderChars]

theorem omitEmptyFlag_eq (key : String) (b : Bool) :
    omitEmptyFlag key b = (omitEmptyBool key b).map fun p => (p.1, renderChars p.2) := by
  unfold omitEmptyFlag omitEmptyBool
  cases b <;> simp

theorem omitEmptyGoSlice_map (key : String) (xs : Slice String) :
    omitEmptyGoSlice key (xs.map (List.map goString))
      = (omitEmptySlice key xs).map fun p => (p.1, renderChars p.2) := by
  unfold omitEmptyGoSlice omitEmptySlice
  cases xs with
  | none => simp [Slice.len, Slice.elems]
  | some ys =>
    by_cases h : ys = []
    · simp [Slice.len, Slice.elems, h]
    · simp [Slice.len, Slice.elems, h, quoteBytesElems_map, renderChars]

/-- The text written for the rule of the Go strings of a rule of texts is the text written
for the rule of texts. -/
theorem marshalRuleBytes_toBytes (t : AggregationRule) :
    marshalRuleBytes t.toBytes = marshalRule t := by
  unfold marshalRuleBytes marshalRule JSON.render AggregationRule.toJSON
  rw [renderChars, ← renderFields_map]
  simp only [AggregationRuleBytes.fields, AggregationRule.toBytes, List.map_append,
    omitEmptyGoString_goString, omitEmptyFlag_eq, omitEmptyGoSlice_map, List.map_cons,
    List.map_nil, quoteBytes_goString, renderChars]

theorem normSlice_map {α β : Type} (f : α → β) (xs : Slice α) :
    normSlice (xs.map (List.map f)) = (normSlice xs).map (List.map f) := by
  cases xs with
  | none => rfl
  | some ys =>
    cases ys with
    | nil => rfl
    | cons y ys => rfl

theorem toBytes_normalize (t : AggregationRule) :
    t.normalize.toBytes = t.toBytes.normalize := by
  simp [AggregationRule.normalize, AggregationRule.toBytes, AggregationRuleBytes.normalize,
    normSlice_map]

/-- Well-formed bytes are the Go string of a text. -/
theorem exists_text_of_validWithin (fuel : Nat) :
    ∀ bs : GoString, validWithin fuel bs = true → ∃ s : String, bs = goString s := by
  induction fuel with
  | zero =>
    intro bs h
    cases bs with
    | nil => exact ⟨"", rfl⟩
    | cons b r => simp [validWithin] at h
  | succ n ih =>
    intro bs h
    cases bs with
    | nil => exact ⟨"", rfl⟩
    | cons b r =>
      simp only [validWithin] at h
      cases hd : decodeRune (b :: r) with
      | none => simp [hd] at h
      | some p =>
        obtain ⟨c, rest⟩ := p
        simp only [hd] at h
        obtain ⟨s, hs⟩ := ih rest h
        refine ⟨String.mk (c :: s.data), ?_⟩
        rw [utf8Bytes_of_decodeRune _ c rest hd, hs]
        rfl

theorem exists_text_of_utf8Valid (bs : GoString) (h : utf8Valid bs = true) :
    ∃ s : String, bs = goString s :=
  exists_text_of_validWithin _ bs h

theorem exists_texts_of_all_valid (l : List GoString) (h : l.all utf8Valid = true) :
    ∃ ys : List String, l = ys.map goString := by
  induction l with
  | nil => exact ⟨[], rfl⟩
  | cons x xs ih =>
    simp only [List.all_cons, Bool.and_eq_true] at h
    obtain ⟨s, hs⟩ := exists_text_of_utf8Valid x h.1
    obtain ⟨ys, hys⟩ := ih h.2
    exact ⟨s :: ys, by rw [hs, hys]; rfl⟩

theorem exists_slice_of_all_valid (xs : Slice GoString) (h : xs.elems.all utf8Valid = true) :
    ∃ ys : Slice String, xs = ys.map (List.map goString) := by
  cases xs with
  | none => exact ⟨none, rfl⟩
  | some l =>
    obtain ⟨ys, hys⟩ := exists_texts_of_all_valid l h
    exact ⟨some ys, by rw [hys]; rfl⟩

/-- A rule whose strings are well-formed is the rule of the Go strings of a rule of
texts. -/
theorem exists_rule_of_wellFormed (r : AggregationRuleBytes) (h : r.wellFormed = true) :
    ∃ t : AggregationRule, r = t.toBytes := by
  obtain ⟨m, mt, d, kl, dl, ag, ai, ad, ing⟩ := r
  simp only [AggregationRuleBytes.wellFormed, Bool.and_eq_true] at h
  obtain ⟨⟨⟨⟨⟨⟨h1, h2⟩, h3⟩, h4⟩, h5⟩, h6⟩, h7⟩ := h
  obtain ⟨m2, rfl⟩ := exists_text_of_utf8Valid m h1
  obtain ⟨mt2, rfl⟩ := exists_text_of_utf8Valid mt h2
  obtain ⟨kl2, rfl⟩ := exists_slice_of_all_valid kl h3
  obtain ⟨dl2, rfl⟩ := exists_slice_of_all_valid dl h4
  obtain ⟨ag2, rfl⟩ := exists_slice_of_all_valid ag h5
  obtain ⟨ai2, rfl⟩ := exists_text_of_utf8Valid ai h6
  obtain ⟨ad2, rfl⟩ := exists_text_of_utf8Valid ad h7
  exact ⟨⟨m2, mt2, d, kl2, dl2, ag2, ai2, ad2, ing⟩, rfl⟩

theorem normalizeBytes_sameValue (r : AggregationRuleBytes) : r.normalize.sameValue r := by
  simp [AggregationRuleBytes.sameValue, AggregationRuleBytes.normalize, elems_normSlice]

/-! ## Properties of the specification -/

theorem call_etag_answer {σ : Type} (c : Client) (m p : String) (b : Option String)
    (e e2 : String) (t : Transport σ) (w w2 : σ) (resp : Response)
    (hs : 200 ≤ resp.status ∧ resp.status ≤ 299)
    (he : headerGet resp.headers "ETag" = some e2)
    (ht : ∀ req, t req w = (.response resp, w2)) :
    c.call m p [("If-Match", e)] b (fun h _ => Outcome.ok (etagOf h)) (recording t) (w, [])
        = (.ok e2, (w2, [c.newRequest m p [("If-Match", e)] b]))
      ∧ (c.newRequest m p [("If-Match", e)] b).carries "If-Match" e := by
  constructor
  · rw [call_recording, ht]
    have : isSuccess resp.status = true := (isSuccess_iff _).mpr hs
    simp [this, etagOf, he]
  · exact mergeHeaders_ifMatch c.defaultHeaders e

/-- C1: each of the four mutating rule operations (UpdateAggregationRules,
CreateAggregationRule, UpdateAggregationRule, DeleteAggregationRule), given the token `e`
and answered by any response with a status in 200..299 and the `ETag` header `e2`, whatever
its body, sends exactly one request, which carries `If-Match` with exactly `e` and with no
other value, and returns exactly `e2` without an error. -/
theorem mutating_rule_operations_send_if_match_return_etag {σ : Type} (c : Client)
    (rules : Slice AggregationRule) (rule : AggregationRule) (metric e e2 : String)
    (t : Transport σ) (w w2 : σ) (resp : Response)
    (hs : 200 ≤ resp.status ∧ resp.status ≤ 299)
    (he : headerGet resp.headers "ETag" = some e2)
    (ht : ∀ req, t req w = (.response resp, w2)) :
    (∃ req, c.UpdateAggregationRules rules e (recording t) (w, []) = (.ok e2, (w2, [req]))
        ∧ req.carries "If-Match" e ∧ req.body = some (marshalRules rules))
      ∧ (∃ req, c.CreateAggregationRule rule e (recording t) (w, []) = (.ok e2, (w2, [req]))
        ∧ req.carries "If-Match" e ∧ req.body = some (marshalRule rule))
      ∧ (∃ req, c.UpdateAggregationRule rule e (recording t) (w, []) = (.ok e2, (w2, [req]))
        ∧ req.carries "If-Match" e ∧ req.body = some (marshalRule rule))
      ∧ (∃ req, c.DeleteAggregationRule metric e (recording t) (w, []) = (.ok e2, (w2, [req]))
        ∧ req.carries "If-Match" e ∧ req.body = none) := by
  refine ⟨⟨_, (call_etag_answer c _ _ _ e e2 t w w2 resp hs he ht).1,
      (call_etag_answer c _ _ _ e e2 t w w2 resp hs he ht).2, rfl⟩,
    ⟨_, (call_etag_answer c _ _ _ e e2 t w w2 resp hs he ht).1,
      (call_etag_answer c _ _ _ e e2 t w w2 resp hs he ht).2, rfl⟩,
    ⟨_, (call_etag_answer c _ _ _ e e2 t w w2 resp hs he ht).1,
      (call_etag_answer c _ _ _ e e2 t w w2 resp hs he ht).2, rfl⟩,
    ⟨_, (call_etag_answer c _ _ _ e e2 t w w2 resp hs he ht).1,
      (call_etag_answer c _ _ _ e e2 t w w2 resp hs he ht).2, rfl⟩⟩

/-- Witness of C1, the exchange of `TestCreateAggregationRule`: the request carries
`If-Match` with the quoted token and the rule as body, and the new token is returned from
a response without body. -/
theorem mutating_rule_operations_witness :
    (200 ≤ etagResponse.status ∧ etagResponse.status ≤ 299)
      ∧ headerGet etagResponse.headers "ETag" = some "\"updated-fake-etag\""
      ∧ (∀ req, answering etagResponse req () = (.response etagResponse, ()))
      ∧ marshalRule testRule = "\x7b\"metric\":\"test_metric\",\"drop\":true\x7d"
      ∧ ∃ req, (New "http://localhost" {}).CreateAggregationRule testRule "\"fake-etag\""
            (recording (answering etagResponse)) ((), [])
          = (.ok "\"updated-fake-etag\"", ((), [req]))
        ∧ req.carries "If-Match" "\"fake-etag\"" ∧ req.body = some (marshalRule testRule) :=
  ⟨by decide, by decide, fun _ => rfl, by decide,
    (mutating_rule_operations_send_if_match_return_etag (New "http://localhost" {}) none
      testRule "test_metric" "\"fake-etag\"" "\"updated-fake-etag\"" (answering etagResponse)
      () () etagResponse (by decide) (by decide) (fun _ => rfl)).2.1⟩

/-- C6: for every operation of the client and every response to its request, a status
outside 200..299 makes the operation return the HTTP status error that carries that status
code and the response body text (an error, so no decoded value), and a status inside
200..299 makes it return no HTTP status error. -/
theorem status_outside_success_range_is_http_error {σ : Type} (c : Client) (tc : TimeCodec)
    (op : Operation) (t : Transport σ) (w : σ) (req : Request) (resp : Response)
    (hreq : req ∈ (c.run tc op (recording t) (w, [])).2.2)
    (hresp : (t req w).1 = .response resp) :
    (¬ (200 ≤ resp.status ∧ resp.status ≤ 299) →
        (c.run tc op (recording t) (w, [])).1 = .error (.http resp.status resp.body))
      ∧ ((200 ≤ resp.status ∧ resp.status ≤ 299) →
        ∀ s b, (c.run tc op (recording t) (w, [])).1 ≠ .error (.http s b)) := by
  obtain ⟨-, h2, h3⟩ := log_of_run c tc op t w req hreq
  constructor
  · intro hn
    apply h2 resp hresp
    rw [← Bool.not_eq_true, isSuccess_iff]
    exact hn
  · intro hy
    exact h3 resp hresp ((isSuccess_iff _).mpr hy)

/-- Witness of C6: a read of an exemption answered with status 404. -/
theorem status_outside_success_range_witness :
    (New "http://localhost" {}).newRequest "GET" "/v1/recommendations/exemptions/generated-ulid"
        [] none
        ∈ ((New "http://localhost" {}).run rfc3339UTC (.ReadExemption "generated-ulid")
            (recording (answering notFoundResponse)) ((), [])).2.2
      ∧ (New "http://localhost" {}).run rfc3339UTC (.ReadExemption "generated-ulid")
            (recording (answering notFoundResponse)) ((), [])
          = (.error (.http 404 "exemption not found"), ((),
              [(New "http://localhost" {}).newRequest "GET"
                "/v1/recommendations/exemptions/generated-ulid" [] none]))
      ∧ ((¬ (200 ≤ notFoundResponse.status ∧ notFoundResponse.status ≤ 299) →
          ((New "http://localhost" {}).run rfc3339UTC (.ReadExemption "generated-ulid")
            (recording (answering notFoundResponse)) ((), [])).1
            = .error (.http notFoundResponse.status notFoundResponse.body))
        ∧ ((200 ≤ notFoundResponse.status ∧ notFoundResponse.status ≤ 299) →
          ∀ s b, ((New "http://localhost" {}).run rfc3339UTC (.ReadExemption "generated-ulid")
            (recording (answering notFoundResponse)) ((), [])).1 ≠ .error (.http s b))) :=
  ⟨by decide, by decide,
    status_outside_success_range_is_http_error (New "http://localhost" {}) rfc3339UTC
      (.ReadExemption "generated-ulid") (answering notFoundResponse) ()
      ((New "http://localhost" {}).newRequest "GET"
        "/v1/recommendations/exemptions/generated-ulid" [] none)
      notFoundResponse (by decide) rfl⟩

theorem defaultHeaders_apiKey (baseURL k : String) (hk : k ≠ "") :
    (New baseURL { APIKey := k }).defaultHeaders = [("Authorization", "Bearer " ++ k)] := by
  simp [New, hk]

theorem defaultHeaders_map (baseURL : String) (m : List (String × String)) :
    (New baseURL { HTTPHeaders := m }).defaultHeaders = m := by
  simp [New]

theorem sameName_symm_false {a b : String} (h : sameName a b = false) :
    sameName b a = false := by
  simp only [sameName, decide_eq_false_iff_not] at *
  exact fun h2 => h h2.symm

/-- A default header whose name no per-call header has is among the merged headers. -/
theorem mem_mergeHeaders_of_mem {d pc : Headers} {p : String × String} (hp : p ∈ d)
    (h : ∀ q ∈ pc, sameName q.1 p.1 = false) : p ∈ mergeHeaders d pc := by
  induction pc generalizing d with
  | nil => exact hp
  | cons q qs ih =>
    simp only [mergeHeaders, List.foldl_cons]
    have hq : sameName p.1 q.1 = false := sameName_symm_false (h q (List.mem_cons_self _ _))
    have hp2 : p ∈ headerSet d q.1 q.2 := by
      rw [headerSet, List.mem_append]
      left
      rw [List.mem_filter]
      exact ⟨hp, by simp [hq]⟩
    have := ih hp2 (fun r hr => h r (List.mem_cons_of_mem _ hr))
    simpa only [mergeHeaders] using this

/-- C5, as amended: a client built from a Config holding only an API key `k`, a string that
is not empty, sends on every request `Authorization: Bearer k` and no other `Authorization`
value; a client built from a Config holding only a header map `m` sends on every request
each pair of `m` whose name no per-call header of the operation has (on the four mutating
rule operations the per-call `If-Match` takes precedence over a pair of that name), and
sends no `Authorization` header but the pairs of that name in `m`, so none derived from an
API key. -/
theorem default_headers_on_every_request {σ : Type} (baseURL : String) (tc : TimeCodec)
    (op : Operation) (t : Transport σ) (w : σ) :
    (∀ k : String, k ≠ "" →
        ∀ req ∈ ((New baseURL { APIKey := k }).run tc op (recording t) (w, [])).2.2,
          req.carries "Authorization" ("Bearer " ++ k))
      ∧ (∀ m : List (String × String),
        ∀ req ∈ ((New baseURL { HTTPHeaders := m }).run tc op (recording t) (w, [])).2.2,
          (∀ p ∈ m, (∀ q ∈ op.perCall, sameName q.1 p.1 = false) → p ∈ req.headers)
            ∧ (∀ p ∈ req.headers, sameName p.1 "Authorization" = true → p ∈ m)) := by
  constructor
  · intro k hk req hreq
    obtain ⟨hh, -, -⟩ := log_of_run _ tc op t w req hreq
    rw [defaultHeaders_apiKey baseURL k hk] at hh
    constructor
    · rw [hh, headerGet_mergeHeaders_other _ _ _ (perCall_not_authorization op)]
      have : sameName "Authorization" "Authorization" = true := sameName_refl _
      simp [headerGet, this]
    · intro p hp hs
      rw [hh] at hp
      rcases mem_mergeHeaders hp with h | h
      · simp only [List.mem_singleton] at h
        rw [h]
      · rw [perCall_not_authorization op p h] at hs
        cases hs
  · intro m req hreq
    obtain ⟨hh, -, -⟩ := log_of_run _ tc op t w req hreq
    rw [defaultHeaders_map] at hh
    constructor
    · intro p hp hpc
      rw [hh]
      exact mem_mergeHeaders_of_mem hp hpc
    · intro p hp hs
      rw [hh] at hp
      rcases mem_mergeHeaders hp with h | h
      · exact h
      · rw [perCall_not_authorization op p h] at hs
        cases hs

/-- Witness of C5, the two clients of `TestClientAuths`: the request of the client built
with the API key `apikey` carries `Authorization: Bearer apikey`, the request of the client
built with the header map carries `x-scope-orgid: 9960` and no `Authorization`. -/
theorem default_headers_witness :
    (∀ req ∈ ((New "http://localhost" { APIKey := "apikey" }).run rfc3339UTC
          .AggregationRecommendationsConfig (recording (answering emptyConfigResponse))
          ((), [])).2.2, req.carries "Authorization" ("Bearer " ++ "apikey"))
      ∧ ((New "http://localhost" { APIKey := "apikey" }).run rfc3339UTC
          .AggregationRecommendationsConfig (recording (answering emptyConfigResponse))
          ((), [])).2.2.map (fun r => r.headers) = [[("Authorization", "Bearer apikey")]]
      ∧ ((New "http://localhost" { HTTPHeaders := [("x-scope-orgid", "9960")] }).run
          rfc3339UTC .AggregationRecommendationsConfig
          (recording (answering emptyConfigResponse))
          ((), [])).2.2.map (fun r => r.headers) = [[("x-scope-orgid", "9960")]]
      ∧ (∀ req ∈ ((New "http://localhost" { HTTPHeaders := [("x-scope-orgid", "9960")] }).run
          rfc3339UTC .AggregationRecommendationsConfig
          (recording (answering emptyConfigResponse)) ((), [])).2.2,
        ("x-scope-orgid", "9960") ∈ req.headers
          ∧ ∀ p ∈ req.headers, sameName p.1 "Authorization" = true →
            p ∈ [("x-scope-orgid", "9960")]) :=
  ⟨fun req hreq =>
      (default_headers_on_every_request "http://localhost" rfc3339UTC
        .AggregationRecommendationsConfig (answering emptyConfigResponse) ()).1 "apikey"
        (by decide) req hreq,
    by decide, by decide,
    fun req hreq =>
      ⟨((default_headers_on_every_request "http://localhost" rfc3339UTC
          .AggregationRecommendationsConfig (answering emptyConfigResponse) ()).2
          [("x-scope-orgid", "9960")] req hreq).1 ("x-scope-orgid", "9960")
          (List.mem_singleton.mpr rfl) (fun q hq => absurd hq (List.not_mem_nil q)),
        ((default_headers_on_every_request "http://localhost" rfc3339UTC
          .AggregationRecommendationsConfig (answering emptyConfigResponse) ()).2
          [("x-scope-orgid", "9960")] req hreq).2⟩⟩

/-- C5 fails as stated, in two places.  A client built from a Config holding only the
header map `If-Match: "configured"` deletes a rule with the token `"fake-etag"`: by the
merge of the transport the per-call header takes precedence, the one request sent carries
`If-Match: "fake-etag"` only, and the pair of the map is not carried.  And a Config whose
API key is the empty string is the empty `Config`, which holds no key: the one request of
its client carries no `Authorization` header. -/
theorem header_map_pair_overridden_by_if_match :
    ((New "http://localhost" { HTTPHeaders := [("If-Match", "\"configured\"")] }).run
          rfc3339UTC (.DeleteAggregationRule "test_metric" "\"fake-etag\"")
          (recording (answering etagResponse)) ((), [])).2.2.map (fun r => r.headers)
        = [[("If-Match", "\"fake-etag\"")]]
      ∧ ("If-Match", "\"configured\"") ∉ [("If-Match", "\"fake-etag\"")]
      ∧ ((New "http://localhost" { APIKey := "" }).run rfc3339UTC
          .AggregationRecommendationsConfig (recording (answering emptyConfigResponse))
          ((), [])).2.2.map (fun r => r.headers) = [[]]
      ∧ ("Authorization", "Bearer " ++ "") ∉ ([] : Headers) :=
  ⟨by decide, by decide, by decide, by decide⟩

theorem parses_sliceToJSON (xs : Slice String) : Parses 2 (sliceToJSON xs) := by
  cases xs with
  | none => exact parses_null.mono (by omega)
  | some ys => exact parses_strs ys

/-- The text of an exemption is parsed back as the object it was rendered from. -/
theorem parse_marshalExemption (tc : TimeCodec) (e : Exemption) (body : String)
    (hm : marshalExemption tc e = some body) :
    ∃ c u, tc.marshal e.CreatedAt = some c ∧ tc.marshal e.UpdatedAt = some u
      ∧ JSON.parse body = some (.obj [("id", .str e.ID), ("metric", .str e.Metric),
          ("keep_labels", sliceToJSON e.KeepLabels), ("created_at", .str c),
          ("updated_at", .str u)]) := by
  unfold marshalExemption Exemption.toJSON at hm
  generalize tc.marshal e.CreatedAt = fc at hm
  generalize tc.marshal e.UpdatedAt = fu at hm
  cases fc with
  | none => simp at hm
  | some c =>
    cases fu with
    | none => simp at hm
    | some u =>
      simp only [Option.map_some', Option.some.injEq] at hm
      refine ⟨c, u, rfl, rfl, ?_⟩
      rw [← hm]
      apply parse_render_of_parses (k := 3)
      · apply parses_obj 2 _ (by omega)
        intro kv hkv
        simp only [List.mem_cons, List.mem_singleton, List.not_mem_nil, or_false] at hkv
        rcases hkv with h | h | h | h | h <;> subst h
        · exact (parses_str _).mono (by omega)
        · exact (parses_str _).mono (by omega)
        · exact parses_sliceToJSON _
        · exact (parses_str _).mono (by omega)
        · exact (parses_str _).mono (by omega)
      · decide

/-- Whether an exemption can be written does not depend on its id. -/
theorem marshalExemption_clear_id (tc : TimeCodec) (e : Exemption)
    (h : marshalExemption tc e ≠ none) :
    ∃ body, marshalExemption tc { e with ID := "" } = some body := by
  unfold marshalExemption Exemption.toJSON at h ⊢
  dsimp only at h ⊢
  generalize tc.marshal e.CreatedAt = fc at h ⊢
  generalize tc.marshal e.UpdatedAt = fu at h ⊢
  cases fc with
  | none => simp at h
  | some c =>
    cases fu with
    | none => simp at h
    | some u => exact ⟨_, rfl⟩

/-- The envelope with the one key `result` decodes as the value under the key. -/
theorem decodeEnvelope_result (tc : TimeCodec) (x : JSON) :
    decodeEnvelope tc (.obj [("result", x)]) = decodeExemption tc {} x := by
  have hf : findField [("result", ())] "result" = some () := by decide
  simp only [decodeEnvelope, decodeEnvelopeMembers, hf, decodeExemption]
  cases decodeExemptionMem tc {} x <;> rfl

/-- A nil list with an empty backing array decodes the array of a list of strings to that
list. -/
theorem decodeStringSlice_strs (xs : List String) :
    decodeStringSlice ⟨none, []⟩ (.arr (xs.map JSON.str)) = .ok ⟨some xs, []⟩ := by
  cases xs with
  | nil => rfl
  | cons y ys =>
    have h := decodeStringElems_map_str [] (y :: ys)
    simp only [List.map_cons] at h
    simp [decodeStringSlice, Slice.elems, h, Decoded.andThen]

/-- The exemption object with its five keys decodes to the exemption of the five values,
the timestamps as the library reads them. -/
theorem decodeExemption_object (tc : TimeCodec) (i m : String) (labels : List String)
    (ct ut : String) (t1 t2 : Time) (h1 : tc.unmarshal (literalText ct) = some t1)
    (h2 : tc.unmarshal (literalText ut) = some t2) :
    decodeExemption tc {} (.obj [("id", .str i), ("metric", .str m),
        ("keep_labels", .arr (labels.map JSON.str)), ("created_at", .str ct),
        ("updated_at", .str ut)])
      = .ok ⟨i, m, some labels, t1, t2⟩ := by
  have f1 : findField exemptionFields "id" = some .ID := by decide
  have f2 : findField exemptionFields "metric" = some .Metric := by decide
  have f3 : findField exemptionFields "keep_labels" = some .KeepLabels := by decide
  have f4 : findField exemptionFields "created_at" = some .CreatedAt := by decide
  have f5 : findField exemptionFields "updated_at" = some .UpdatedAt := by decide
  simp [decodeExemption, decodeExemptionMem, decodeExemptionMembers, f1, f2, f3, f4, f5,
    setExemptionField, decodeString, decodeTime, unmarshalTime, h1, h2, decodeStringSlice_strs,
    Decoded.andThen]

theorem decodeRule_result (x : JSON) : decodeRule {} (.obj [("result", x)]) = .ok {} := by
  have hf : findField ruleFields "result" = none := by decide
  simp only [decodeRule, decodeRuleMembers, hf, Decoded.andThen]

theorem decodeConfig_result (x : JSON) : decodeConfig (.obj [("result", x)]) = .ok {} := by
  have hf : findField [("keep_labels", ())] "result" = none := by decide
  simp only [decodeConfig, decodeConfigMembers, hf, Decoded.andThen]

/-- The configuration object with its one key decodes to the configuration of the list. -/
theorem decodeConfig_object (xs : List String) :
    decodeConfig (.obj [("keep_labels", .arr (xs.map JSON.str))]) = .ok ⟨some xs⟩ := by
  have hf : findField [("keep_labels", ())] "keep_labels" = some () := by decide
  simp [decodeConfig, decodeConfigMembers, hf, decodeStringSlice_strs, Decoded.andThen]

/-- What an operation makes of a response in the success range. -/
theorem call_answer {σ α : Type} (c : Client) (m p : String) (h : Headers)
    (b : Option String) (result : Headers → String → Outcome α) (t : Transport σ) (w w2 : σ)
    (resp : Response) (hs : 200 ≤ resp.status ∧ resp.status ≤ 299)
    (ht : ∀ req, t req w = (.response resp, w2)) :
    c.call m p h b result t w = (result resp.headers resp.body, w2) := by
  have : isSuccess resp.status = true := (isSuccess_iff _).mpr hs
  simp only [Client.call, Client.send, ht, this, if_true]

/-- What the two exemption operations that read a response return for a response in the
success range. -/
theorem exemption_answer {σ : Type} (c : Client) (tc : TimeCodec) (e : Exemption)
    (id : String) (t : Transport σ) (w w2 : σ) (resp : Response)
    (hm : marshalExemption tc e ≠ none)
    (hs : 200 ≤ resp.status ∧ resp.status ≤ 299)
    (ht : ∀ req, t req w = (.response resp, w2)) :
    c.CreateExemption tc e t w
        = (.ofDecoded (unmarshalWith (decodeEnvelope tc) resp.body), w2)
      ∧ c.ReadExemption tc id t w
        = (.ofDecoded (unmarshalWith (decodeEnvelope tc) resp.body), w2) := by
  obtain ⟨body, hb⟩ := marshalExemption_clear_id tc e hm
  constructor
  · unfold Client.CreateExemption
    rw [hb]
    dsimp only
    rw [call_answer c _ _ _ _ _ t w w2 resp hs ht]
  · unfold Client.ReadExemption
    rw [call_answer c _ _ _ _ _ t w w2 resp hs ht]

/-- C4: for a response in the success range whose body is the envelope object with the one
key `result`, CreateExemption and ReadExemption return exactly the exemption under the
key, whatever exemption or id the caller passed: from the exemption object with the keys
id, metric, keep_labels, created_at and updated_at the exemption of those five values, the
timestamps as the library reads them, and from any value `x` what decoding `x` alone
gives.  The rule and recommendation-config operations decode the bare body and consume no
envelope key: in the envelope body the single-value operations find no field of theirs and
return the zero value, the list operations find an object where they expect an array and
fail, and from the text of a rule, of a rule list and of a configuration object the
operations return that rule, that list and that configuration. -/
theorem exemption_enveloped_rule_and_config_bare {σ : Type} (c : Client) (tc : TimeCodec)
    (e : Exemption) (id metric : String) (t : Transport σ) (w w2 : σ) (resp : Response)
    (hm : marshalExemption tc e ≠ none)
    (hs : 200 ≤ resp.status ∧ resp.status ≤ 299)
    (ht : ∀ req, t req w = (.response resp, w2)) :
    (∀ (i m : String) (labels : List String) (ct ut : String) (t1 t2 : Time),
        JSON.parse resp.body = some (.obj [("result", .obj [("id", .str i), ("metric", .str m),
          ("keep_labels", .arr (labels.map JSON.str)), ("created_at", .str ct),
          ("updated_at", .str ut)])]) →
        tc.unmarshal (literalText ct) = some t1 → tc.unmarshal (literalText ut) = some t2 →
        c.CreateExemption tc e t w = (.ok ⟨i, m, some labels, t1, t2⟩, w2)
          ∧ c.ReadExemption tc id t w = (.ok ⟨i, m, some labels, t1, t2⟩, w2))
      ∧ (∀ x sx, JSON.parse resp.body = some (.obj [("result", x)]) →
          decodeExemption tc {} x = .ok sx →
          c.CreateExemption tc e t w = (.ok sx, w2) ∧ c.ReadExemption tc id t w = (.ok sx, w2))
      ∧ (∀ x, JSON.parse resp.body = some (.obj [("result", x)]) →
          c.ReadAggregationRule metric t w = (.ok ({}, etagOf resp.headers), w2)
            ∧ c.AggregationRecommendationsConfig t w = (.ok {}, w2)
            ∧ c.AggregationRules t w = (.error (.decode .typeMismatch), w2)
            ∧ c.AggregationRecommendations t w = (.error (.decode .typeMismatch), w2))
      ∧ (∀ r, resp.body = marshalRule r →
          c.ReadAggregationRule metric t w = (.ok (r.normalize, etagOf resp.headers), w2))
      ∧ (∀ rs, resp.body = marshalRules rs →
          c.AggregationRules t w
            = (.ok (rs.map (List.map AggregationRule.normalize), etagOf resp.headers), w2))
      ∧ (∀ xs : List String,
          JSON.parse resp.body = some (.obj [("keep_labels", .arr (xs.map JSON.str))]) →
          c.AggregationRecommendationsConfig t w = (.ok ⟨some xs⟩, w2))
      ∧ (∀ r, unmarshalRule resp.body = .ok r →
          c.ReadAggregationRule metric t w = (.ok (r, etagOf resp.headers), w2))
      ∧ (∀ rs, unmarshalRules resp.body = .ok rs →
          c.AggregationRules t w = (.ok (rs, etagOf resp.headers), w2))
      ∧ (∀ cfg, unmarshalWith decodeConfig resp.body = .ok cfg →
          c.AggregationRecommendationsConfig t w = (.ok cfg, w2)) := by
  obtain ⟨hcreate, hread⟩ := exemption_answer c tc e id t w w2 resp hm hs ht
  have hrule : c.ReadAggregationRule metric t w
      = (withEtag resp.headers (unmarshalRule resp.body), w2) := by
    unfold Client.ReadAggregationRule
    rw [call_answer c _ _ _ _ _ t w w2 resp hs ht]
  have hrules : c.AggregationRules t w
      = (withEtag resp.headers (unmarshalRules resp.body), w2) := by
    unfold Client.AggregationRules
    rw [call_answer c _ _ _ _ _ t w w2 resp hs ht]
  have hcfg : c.AggregationRecommendationsConfig t w
      = (.ofDecoded (unmarshalWith decodeConfig resp.body), w2) := by
    unfold Client.AggregationRecommendationsConfig
    rw [call_answer c _ _ _ _ _ t w w2 resp hs ht]
  have hrecs : c.AggregationRecommendations t w
      = (.ofDecoded (unmarshalWith decodeRecommendations resp.body), w2) := by
    unfold Client.AggregationRecommendations
    rw [call_answer c _ _ _ _ _ t w w2 resp hs ht]
  rw [hcreate, hread, hrule, hrules, hcfg, hrecs]
  refine ⟨?_, ?_, ?_, ?_, ?_, ?_, ?_, ?_, ?_⟩
  · intro i m labels ct ut t1 t2 hb h1 h2
    simp only [unmarshalWith, hb, decodeEnvelope_result,
      decodeExemption_object tc i m labels ct ut t1 t2 h1 h2, Outcome.ofDecoded, and_self]
  · intro x sx hb hx
    simp only [unmarshalWith, hb, decodeEnvelope_result, hx, Outcome.ofDecoded, and_self]
  · intro x hb
    simp only [unmarshalRule, unmarshalRules, unmarshalWith, hb, decodeRule_result,
      decodeConfig_result, decodeRules, decodeRecommendations, withEtag, Outcome.ofDecoded,
      and_self]
  · intro r hr
    simp only [hr, unmarshalRule_marshalRule, withEtag]
  · intro rs hr
    simp only [hr, unmarshalRules_marshalRules, withEtag]
  · intro xs hb
    simp only [unmarshalWith, hb, decodeConfig_object, Outcome.ofDecoded]
  · intro r hr
    simp only [hr, withEtag]
  · intro rs hr
    simp only [hr, withEtag]
  · intro cfg hr
    simp only [hr, Outcome.ofDecoded]

set_option maxRecDepth 100000 in
/-- Witness of C4: a response that holds an exemption with the timestamps of 2023-11-14,
answered to the create of `TestCreateExemption` and to a read: the exemption inside the
envelope is returned, with the id and the timestamps of the server. -/
theorem exemption_enveloped_witness :
    marshalExemption rfc3339UTC createdExemptionInput ≠ none
      ∧ (200 ≤ serverExemptionResponse.status ∧ serverExemptionResponse.status ≤ 299)
      ∧ JSON.parse serverExemptionResponse.body
          = some (.obj [("result", .obj [("id", .str "generated-ulid"),
              ("metric", .str "test_metric"), ("keep_labels", .arr (["foobar"].map JSON.str)),
              ("created_at", .str "2023-11-14T22:13:20Z"),
              ("updated_at", .str "2023-11-14T22:21:40Z")])])
      ∧ rfc3339UTC.unmarshal (literalText "2023-11-14T22:13:20Z") = some (timeUnix 1700000000)
      ∧ rfc3339UTC.unmarshal (literalText "2023-11-14T22:21:40Z") = some (timeUnix 1700000500)
      ∧ (New "http://localhost" {}).CreateExemption rfc3339UTC createdExemptionInput
            (answering serverExemptionResponse) ()
          = (.ok ⟨"generated-ulid", "test_metric", some ["foobar"], timeUnix 1700000000,
              timeUnix 1700000500⟩, ())
      ∧ (New "http://localhost" {}).ReadExemption rfc3339UTC "generated-ulid"
            (answering serverExemptionResponse) ()
          = (.ok ⟨"generated-ulid", "test_metric", some ["foobar"], timeUnix 1700000000,
              timeUnix 1700000500⟩, ()) :=
  ⟨by decide, by decide, by rfl, by decide, by decide,
    (exemption_enveloped_rule_and_config_bare (New "http://localhost" {}) rfc3339UTC
      createdExemptionInput "generated-ulid" "test_metric" (answering serverExemptionResponse)
      () () serverExemptionResponse (by decide) (by decide) (fun _ => rfl)).1
      "generated-ulid" "test_metric" ["foobar"] "2023-11-14T22:13:20Z" "2023-11-14T22:21:40Z"
      (timeUnix 1700000000) (timeUnix 1700000500) (by rfl) (by decide) (by decide)⟩

set_option maxRecDepth 100000 in
/-- C7 fails as stated: for the exemption `TestCreateExemption` builds without an ID, the one
request CreateExemption sends has the body the test expects, and that body is an object
whose first key is `id`, holding the empty string: the id is not absent from the body. -/
theorem create_exemption_body_carries_id_key :
    (New "http://localhost" {}).CreateExemption rfc3339UTC createdExemptionInput
        (recording (answering exemptionResponse)) ((), [])
      = (.ok expectedExemption, ((),
          [⟨"POST", "http://localhost/v1/recommendations/exemptions", [],
            some createExemptionReqBody⟩]))
      ∧ JSON.parse createExemptionReqBody
        = some (.obj [("id", .str ""), ("metric", .str "test_metric"),
            ("keep_labels", .arr [.str "foobar"]), ("created_at", .str "0001-01-01T00:00:00Z"),
            ("updated_at", .str "0001-01-01T00:00:00Z")])
      ∧ "id" ∈ ((JSON.parse createExemptionReqBody).map JSON.keys).getD [] :=
  ⟨by decide, by rfl, by decide⟩

/-- The request of CreateExemption and its body: the exemption with the empty id. -/
theorem createExemption_recording {σ : Type} (c : Client) (tc : TimeCodec) (e : Exemption)
    (body : String) (t : Transport σ) (w : σ)
    (hb : marshalExemption tc { e with ID := "" } = some body) :
    c.CreateExemption tc e (recording t) (w, [])
      = ((match (t (c.newRequest "POST" "/v1/recommendations/exemptions" [] (some body)) w).1
          with
          | .failure msg => .error (.transport msg)
          | .response resp =>
            if isSuccess resp.status then
              .ofDecoded (unmarshalWith (decodeEnvelope tc) resp.body)
            else .error (.http resp.status resp.body)),
         ((t (c.newRequest "POST" "/v1/recommendations/exemptions" [] (some body)) w).2,
           [c.newRequest "POST" "/v1/recommendations/exemptions" [] (some body)])) := by
  unfold Client.CreateExemption
  rw [hb]
  dsimp only
  rw [call_recording]
  rfl

/-- C7, as amended: for every exemption passed to CreateExemption that can be written,
whatever its ID field holds, exactly one request is sent, and its body is a JSON object
whose key `id` is present and holds the empty string, no other member having that key;
the request is the same whatever ID the caller put into the exemption, so no id of the
caller is in it; when the response has a status in 200..299 and holds the envelope over an
exemption object, the id of the exemption returned is the id in the response; and the
resource's `Create` makes one call, CreateExemption with the plan converted with
ToAPIReq. -/
theorem create_exemption_sends_empty_id_returns_server_id {σ : Type} (c : Client)
    (tc : TimeCodec) (e : Exemption) (t : Transport σ) (w w2 : σ) (resp : Response)
    (hm : marshalExemption tc e ≠ none)
    (hs : 200 ≤ resp.status ∧ resp.status ≤ 299)
    (ht : ∀ req, t req w = (.response resp, w2)) :
    (∃ req body rest, (c.CreateExemption tc e (recording t) (w, [])).2 = (w2, [req])
        ∧ req.body = some body
        ∧ JSON.parse body = some (.obj (("id", .str "") :: rest))
        ∧ "id" ∉ rest.map fun p => p.1)
      ∧ (∀ callerID : String,
          c.CreateExemption tc { e with ID := callerID } (recording t) (w, [])
            = c.CreateExemption tc e (recording t) (w, []))
      ∧ (∀ (i m : String) (labels : List String) (ct ut : String) (t1 t2 : Time),
          JSON.parse resp.body = some (.obj [("result", .obj [("id", .str i),
            ("metric", .str m), ("keep_labels", .arr (labels.map JSON.str)),
            ("created_at", .str ct), ("updated_at", .str ut)])]) →
          tc.unmarshal (literalText ct) = some t1 → tc.unmarshal (literalText ut) = some t2 →
          (c.CreateExemption tc e (recording t) (w, [])).1
            = .ok ⟨i, m, some labels, t1, t2⟩)
      ∧ (∀ (api : ExemptionAPI σ) (now : String) (creq : CreateRequest),
          hasError creq.Plan.diags = false →
          (exemptionResource.Create api.logged now creq (w, [])).2.2
            = [.CreateExemption creq.Plan.value.ToAPIReq]) := by
  obtain ⟨body, hb⟩ := marshalExemption_clear_id tc e hm
  have hcall := createExemption_recording c tc e body t w hb
  have hok : isSuccess resp.status = true := (isSuccess_iff _).mpr hs
  refine ⟨?_, fun _ => rfl, ?_, fun api now creq hp => create_passes_plan api now creq w hp⟩
  · obtain ⟨cr, up, -, -, hp⟩ := parse_marshalExemption tc _ body hb
    refine ⟨c.newRequest "POST" "/v1/recommendations/exemptions" [] (some body), body, _, ?_,
      rfl, hp, ?_⟩
    · rw [hcall, ht]
    · simp only [List.map_cons, List.map_nil]
      decide
  · intro i m labels ct ut t1 t2 hbody h1 h2
    rw [hcall, ht]
    simp only [hok, if_true, unmarshalWith, hbody, decodeEnvelope_result,
      decodeExemption_object tc i m labels ct ut t1 t2 h1 h2, Outcome.ofDecoded]

set_option maxRecDepth 100000 in
/-- Witness of C7 as amended: the exchange of `TestCreateExemption`, and the same request
for an exemption the caller built with an ID of its own. -/
theorem create_exemption_id_witness :
    marshalExemption rfc3339UTC createdExemptionInput ≠ none
      ∧ (200 ≤ exemptionResponse.status ∧ exemptionResponse.status ≤ 299)
      ∧ (New "http://localhost" {}).CreateExemption rfc3339UTC createdExemptionInput
            (recording (answering exemptionResponse)) ((), [])
          = (.ok expectedExemption, ((),
              [⟨"POST", "http://localhost/v1/recommendations/exemptions", [],
                some createExemptionReqBody⟩]))
      ∧ (New "http://localhost" {}).CreateExemption rfc3339UTC exemptionWithCallerID
            (recording (answering exemptionResponse)) ((), [])
          = (.ok expectedExemption, ((),
              [⟨"POST", "http://localhost/v1/recommendations/exemptions", [],
                some createExemptionReqBody⟩]))
      ∧ expectedExemption.ID = "generated-ulid"
      ∧ ∃ req body rest,
          ((New "http://localhost" {}).CreateExemption rfc3339UTC createdExemptionInput
            (recording (answering exemptionResponse)) ((), [])).2 = ((), [req])
          ∧ req.body = some body
          ∧ JSON.parse body = some (.obj (("id", .str "") :: rest))
          ∧ "id" ∉ rest.map fun p => p.1 :=
  ⟨by decide, by decide, by decide, by decide, rfl,
    (create_exemption_sends_empty_id_returns_server_id (New "http://localhost" {}) rfc3339UTC
      createdExemptionInput (answering exemptionResponse) () () exemptionResponse (by decide)
      (by decide) (fun _ => rfl)).1⟩

/-- C10: for every AggregationRule `r`, `r.ToTF().ToAPIReq()` has every string and boolean
field of `r` unchanged and each of the lists keep_labels, drop_labels and aggregations as a
non-nil list with the elements of `r` in the same order and number (a nil list comes back as
an empty list); and each of the nine fields ToTF sets is a known value: the scalars are
known, and the lists are non-nil lists of known strings. -/
theorem rule_toTF_toAPIReq_round_trip (r : AggregationRule) :
    (r.ToTF.ToAPIReq.Metric = r.Metric ∧ r.ToTF.ToAPIReq.MatchType = r.MatchType
        ∧ r.ToTF.ToAPIReq.Drop = r.Drop
        ∧ r.ToTF.ToAPIReq.KeepLabels = some r.KeepLabels.elems
        ∧ r.ToTF.ToAPIReq.DropLabels = some r.DropLabels.elems
        ∧ r.ToTF.ToAPIReq.Aggregations = some r.Aggregations.elems
        ∧ r.ToTF.ToAPIReq.AggregationInterval = r.AggregationInterval
        ∧ r.ToTF.ToAPIReq.AggregationDelay = r.AggregationDelay
        ∧ r.ToTF.ToAPIReq.Ingest = r.Ingest)
      ∧ r.ToTF.ToAPIReq.sameValue r
      ∧ (r.ToTF.ToAPIReq.KeepLabels.len = r.KeepLabels.len
        ∧ r.ToTF.ToAPIReq.DropLabels.len = r.DropLabels.len
        ∧ r.ToTF.ToAPIReq.Aggregations.len = r.Aggregations.len)
      ∧ (r.ToTF.Metric = .known r.Metric ∧ r.ToTF.MatchType = .known r.MatchType
        ∧ r.ToTF.Drop = .known r.Drop
        ∧ r.ToTF.KeepLabels = some (r.KeepLabels.elems.map TFValue.known)
        ∧ r.ToTF.DropLabels = some (r.DropLabels.elems.map TFValue.known)
        ∧ r.ToTF.Aggregations = some (r.Aggregations.elems.map TFValue.known)
        ∧ r.ToTF.AggregationInterval = .known r.AggregationInterval
        ∧ r.ToTF.AggregationDelay = .known r.AggregationDelay
        ∧ r.ToTF.Ingest = .known r.Ingest) := by
  have hmap : ∀ xs : Slice String,
      toStringSlice (toTypesStringSlice xs) = some xs.elems := by
    intro xs
    have hid : ∀ ys : List String, (ys.map StringValue).map TFValue.ValueString = ys := by
      intro ys
      induction ys with
      | nil => rfl
      | cons y ys ih => simp [StringValue, TFValue.ValueString] at ih ⊢; exact ih
    rw [toTypesStringSlice, toStringSlice, convertSlice_eq, convertSlice_eq]
    show some (List.map TFValue.ValueString (List.map StringValue xs.elems)) = _
    rw [hid]
  have hk : ∀ xs : Slice String,
      toTypesStringSlice xs = some (xs.elems.map TFValue.known) := by
    intro xs
    simp only [toTypesStringSlice, convertSlice_eq]
    rfl
  refine ⟨⟨rfl, rfl, rfl, hmap _, hmap _, hmap _, rfl, rfl, rfl⟩, ?_, ?_, ?_⟩
  · refine ⟨rfl, rfl, rfl, ?_, ?_, ?_, rfl, rfl, rfl⟩
    · show (toStringSlice (toTypesStringSlice r.KeepLabels)).elems = _
      rw [hmap]; rfl
    · show (toStringSlice (toTypesStringSlice r.DropLabels)).elems = _
      rw [hmap]; rfl
    · show (toStringSlice (toTypesStringSlice r.Aggregations)).elems = _
      rw [hmap]; rfl
  · refine ⟨?_, ?_, ?_⟩
    · show (toStringSlice (toTypesStringSlice r.KeepLabels)).len = _
      rw [hmap]; rfl
    · show (toStringSlice (toTypesStringSlice r.DropLabels)).len = _
      rw [hmap]; rfl
    · show (toStringSlice (toTypesStringSlice r.Aggregations)).len = _
      rw [hmap]; rfl
  · exact ⟨rfl, rfl, rfl, hk _, hk _, hk _, rfl, rfl, rfl⟩

/-- C2 fails as stated: the rule whose metric name is the Go string of the three bytes
0x61, 0xFF, 0x62 is serialized with the escape for U+FFFD in the place of the byte 0xFF,
which starts no well-formed encoding, and the text is deserialized to the rule whose metric
name holds the three bytes of U+FFFD there: a value that differs from the rule in the field
Metric. -/
theorem rule_json_round_trip_fails_on_ill_formed_string :
    illFormedRule.Metric = [97, 255, 98]
      ∧ marshalRuleBytes illFormedRule = "\x7b\"metric\":\"a\\ufffdb\"\x7d"
      ∧ unmarshalRuleBytes (marshalRuleBytes illFormedRule)
        = .ok { Metric := [97, 239, 191, 189, 98] }
      ∧ ([97, 239, 191, 189, 98] : GoString) ≠ illFormedRule.Metric
      ∧ ¬ AggregationRuleBytes.sameValue { Metric := [97, 239, 191, 189, 98] } illFormedRule :=
  ⟨rfl, by decide, by decide, by decide, fun h => absurd h.1 (by decide)⟩

set_option maxRecDepth 100000 in
/-- C2, as amended: for every AggregationRule value `r` whose strings are well-formed
UTF-8, deserializing the JSON serialization of `r` succeeds and yields `r` with its empty
lists as nil lists, a value equal to `r` in every field when a nil list and an empty list
count as the same; and `rulesPayload` serializes to `minifiedJson`, which deserializes to
`rulesPayload`. -/
theorem rule_json_round_trip_well_formed (r : AggregationRuleBytes)
    (h : r.wellFormed = true) :
    unmarshalRuleBytes (marshalRuleBytes r) = .ok r.normalize
      ∧ r.normalize.sameValue r
      ∧ marshalRules rulesPayload = minifiedJson
      ∧ unmarshalRules minifiedJson = .ok rulesPayload := by
  obtain ⟨t, rfl⟩ := exists_rule_of_wellFormed r h
  refine ⟨?_, normalizeBytes_sameValue _, by decide, by decide⟩
  rw [marshalRuleBytes_toBytes, unmarshalRuleBytes, unmarshalRule_marshalRule]
  simp only [Decoded.andThen, toBytes_normalize]

set_option maxRecDepth 100000 in
/-- Witness of C2 as amended: the first rule of `rulesPayload`, whose strings are
well-formed, and a rule with an empty list, which comes back as the nil list. -/
theorem rule_json_round_trip_witness :
    payloadRuleBytes.wellFormed = true
      ∧ marshalRuleBytes payloadRuleBytes
        = "\x7b\"metric\":\"kube_persistentvolumeclaim_created\",\"drop_labels\":[\"persistentvolumeclaim\"],\"aggregations\":[\"count\",\"sum\"]\x7d"
      ∧ unmarshalRuleBytes (marshalRuleBytes payloadRuleBytes) = .ok payloadRuleBytes
      ∧ unmarshalRuleBytes (marshalRuleBytes { Metric := [109], KeepLabels := some [] })
        = .ok { Metric := [109], KeepLabels := none }
      ∧ (unmarshalRuleBytes (marshalRuleBytes payloadRuleBytes) = .ok payloadRuleBytes.normalize
        ∧ payloadRuleBytes.normalize.sameValue payloadRuleBytes
        ∧ marshalRules rulesPayload = minifiedJson
        ∧ unmarshalRules minifiedJson = .ok rulesPayload) :=
  ⟨by decide, by decide, by decide, by decide,
    rule_json_round_trip_well_formed payloadRuleBytes (by decide)⟩

theorem mem_omitEmptyString_keys (key s q : String) :
    q ∈ (omitEmptyString key s).map (fun p => p.1) ↔ (q = key ∧ s ≠ "") := by
  unfold omitEmptyString
  split <;> simp_all

theorem mem_omitEmptyBool_keys (key : String) (b : Bool) (q : String) :
    q ∈ (omitEmptyBool key b).map (fun p => p.1) ↔ (q = key ∧ b = true) := by
  unfold omitEmptyBool
  split <;> simp_all

theorem mem_omitEmptySlice_keys (key : String) (xs : Slice String) (q : String) :
    q ∈ (omitEmptySlice key xs).map (fun p => p.1) ↔ (q = key ∧ xs.len ≠ 0) := by
  unfold omitEmptySlice
  split <;> simp_all

/-- The keys of the object built from a rule. -/
theorem mem_keys_toJSON (r : AggregationRule) (q : String) :
    q ∈ r.toJSON.keys ↔
      (q = "metric" ∨ (q = "match_type" ∧ r.MatchType ≠ "") ∨ (q = "drop" ∧ r.Drop = true)
        ∨ (q = "keep_labels" ∧ r.KeepLabels.len ≠ 0)
        ∨ (q = "drop_labels" ∧ r.DropLabels.len ≠ 0)
        ∨ (q = "aggregations" ∧ r.Aggregations.len ≠ 0)
        ∨ (q = "aggregation_interval" ∧ r.AggregationInterval ≠ "")
        ∨ (q = "aggregation_delay" ∧ r.AggregationDelay ≠ "")
        ∨ (q = "ingest" ∧ r.Ingest = true)) := by
  simp only [AggregationRule.toJSON, JSON.keys, List.map_append, List.mem_append,
    mem_omitEmptyString_keys, mem_omitEmptyBool_keys, mem_omitEmptySlice_keys, List.map_cons,
    List.map_nil, List.mem_singleton, or_assoc]

set_option maxRecDepth 100000 in
/-- C3: for every AggregationRule `r`, the serialized text is a JSON object that always has
the key `metric`, also for the empty metric, and has each of the optional keys match_type,
drop, keep_labels, drop_labels, aggregations, aggregation_interval, aggregation_delay and
ingest if and only if the field is not at its zero value (empty string, nil or empty list,
false); the rule with metric `test_metric` and drop set serializes to exactly
`{"metric":"test_metric","drop":true}`. -/
theorem rule_json_omits_exactly_zero_fields (r : AggregationRule) :
    JSON.parse (marshalRule r) = some r.toJSON
      ∧ "metric" ∈ r.toJSON.keys
      ∧ ("match_type" ∈ r.toJSON.keys ↔ r.MatchType ≠ "")
      ∧ ("drop" ∈ r.toJSON.keys ↔ r.Drop ≠ false)
      ∧ ("keep_labels" ∈ r.toJSON.keys ↔ r.KeepLabels.len ≠ 0)
      ∧ ("drop_labels" ∈ r.toJSON.keys ↔ r.DropLabels.len ≠ 0)
      ∧ ("aggregations" ∈ r.toJSON.keys ↔ r.Aggregations.len ≠ 0)
      ∧ ("aggregation_interval" ∈ r.toJSON.keys ↔ r.AggregationInterval ≠ "")
      ∧ ("aggregation_delay" ∈ r.toJSON.keys ↔ r.AggregationDelay ≠ "")
      ∧ ("ingest" ∈ r.toJSON.keys ↔ r.Ingest ≠ false)
      ∧ marshalRule { Metric := "test_metric", Drop := true }
        = "\x7b\"metric\":\"test_metric\",\"drop\":true\x7d"
      ∧ marshalRule { Metric := "" } = "\x7b\"metric\":\"\"\x7d" := by
  refine ⟨parse_marshalRule r, ?_, ?_, ?_, ?_, ?_, ?_, ?_, ?_, ?_, by decide, by decide⟩
  all_goals rw [mem_keys_toJSON]
  all_goals simp

theorem hasError_append (a b : List Diagnostic) :
    hasError (a ++ b) = (hasError a || hasError b) := by
  simp [hasError, List.any_append]

/-- The calls `Update` makes when the plan and the state are read without error. -/
theorem update_log {σ : Type} (api : ExemptionAPI σ) (now : String) (req : UpdateRequest)
    (w : σ) (hp : hasError req.Plan.diags = false) (hst : hasError req.State.diags = false) :
    (exemptionResource.Update api.logged now req (w, [])).2.2
      = match (api.UpdateExemption
            { req.Plan.value.ToAPIReq with ID := req.State.value.ID.ValueString } w).1 with
        | .ok _ =>
          [.UpdateExemption
              { req.Plan.value.ToAPIReq with ID := req.State.value.ID.ValueString },
            .ReadExemption req.State.value.ID.ValueString]
        | .error _ =>
          [.UpdateExemption
              { req.Plan.value.ToAPIReq with ID := req.State.value.ID.ValueString }] := by
  have h2 : hasError (req.Plan.diags ++ req.State.diags) = false := by
    rw [hasError_append, hp, hst]; rfl
  simp only [exemptionResource.Update, hp, h2, Bool.false_eq_true, if_false,
    ExemptionAPI.logged]
  cases hu : (api.UpdateExemption
      { req.Plan.value.ToAPIReq with ID := req.State.value.ID.ValueString } w).1 with
  | error err => simp
  | ok u =>
    dsimp only
    cases hr : (api.ReadExemption req.State.value.ID.ValueString
      (api.UpdateExemption
        { req.Plan.value.ToAPIReq with ID := req.State.value.ID.ValueString } w).2).1 with
    | error err => simp
    | ok ex2 => simp

/-- C9: for every plan and every prior state read without error, `Update` first calls
UpdateExemption with an exemption whose ID is the id held in the prior state, whatever id
the plan holds, and whose other fields are those of the plan converted with ToAPIReq; it
then calls ReadExemption with that same state id exactly when UpdateExemption returned no
error, and makes no other call. -/
theorem update_sends_plan_under_state_id {σ : Type} (api : ExemptionAPI σ) (now : String)
    (req : UpdateRequest) (w : σ)
    (hp : hasError req.Plan.diags = false) (hst : hasError req.State.diags = false) :
    ∃ sent : Exemption,
      sent.ID = req.State.value.ID.ValueString
        ∧ sent.Metric = req.Plan.value.ToAPIReq.Metric
        ∧ sent.KeepLabels = req.Plan.value.ToAPIReq.KeepLabels
        ∧ sent.CreatedAt = req.Plan.value.ToAPIReq.CreatedAt
        ∧ sent.UpdatedAt = req.Plan.value.ToAPIReq.UpdatedAt
        ∧ ((∃ u, (api.UpdateExemption sent w).1 = .ok u) →
            (exemptionResource.Update api.logged now req (w, [])).2.2
              = [.UpdateExemption sent, .ReadExemption req.State.value.ID.ValueString])
        ∧ ((∃ err, (api.UpdateExemption sent w).1 = .error err) →
            (exemptionResource.Update api.logged now req (w, [])).2.2
              = [.UpdateExemption sent]) := by
  refine ⟨{ req.Plan.value.ToAPIReq with ID := req.State.value.ID.ValueString },
    rfl, rfl, rfl, rfl, rfl, ?_, ?_⟩
  · rintro ⟨u, hu⟩
    rw [update_log api now req w hp hst, hu]
  · rintro ⟨err, hu⟩
    rw [update_log api now req w hp hst, hu]

/-- Witness of C9: the plan with an unknown id against the state read from the server;
the accepted update is followed by the read, the rejected one is not. -/
theorem update_sends_plan_under_state_id_witness :
    hasError updateRequest.Plan.diags = false ∧ hasError updateRequest.State.diags = false
      ∧ (exemptionResource.Update (holding serverExemption).logged "now" updateRequest
          ((), [])).2.2
        = [.UpdateExemption
            { ID := "generated-ulid", Metric := "test_metric"
              KeepLabels := some ["foobar", "baz"]
              CreatedAt := timeUnix 0, UpdatedAt := timeUnix 0 },
          .ReadExemption "generated-ulid"]
      ∧ (exemptionResource.Update rejecting.logged "now" updateRequest ((), [])).2.2
        = [.UpdateExemption
            { ID := "generated-ulid", Metric := "test_metric"
              KeepLabels := some ["foobar", "baz"]
              CreatedAt := timeUnix 0, UpdatedAt := timeUnix 0 }]
      ∧ ∃ sent : Exemption,
        sent.ID = updateRequest.State.value.ID.ValueString
          ∧ sent.Metric = updateRequest.Plan.value.ToAPIReq.Metric
          ∧ sent.KeepLabels = updateRequest.Plan.value.ToAPIReq.KeepLabels
          ∧ sent.CreatedAt = updateRequest.Plan.value.ToAPIReq.CreatedAt
          ∧ sent.UpdatedAt = updateRequest.Plan.value.ToAPIReq.UpdatedAt
          ∧ ((∃ u, ((holding serverExemption).UpdateExemption sent ()).1 = .ok u) →
              (exemptionResource.Update (holding serverExemption).logged "now" updateRequest
                ((), [])).2.2
                = [.UpdateExemption sent,
                    .ReadExemption updateRequest.State.value.ID.ValueString])
          ∧ ((∃ err, ((holding serverExemption).UpdateExemption sent ()).1 = .error err) →
              (exemptionResource.Update (holding serverExemption).logged "now" updateRequest
                ((), [])).2.2 = [.UpdateExemption sent]) :=
  ⟨by decide, by decide, by decide, by decide,
    update_sends_plan_under_state_id (holding serverExemption) "now" updateRequest ()
      (by decide) (by decide)⟩

/-- C8 fails as stated: the same plan is applied against two prior states of the same id,
one last read from a server that holds created_at 1700000000 and updated_at 1700000500,
one last read from a server that holds 1800000000 and 1800000500.  `Update` sends an
exemption through UpdateExemption in both cases, and it is the same exemption: its
timestamps are not in both cases those last read from the server. -/
theorem update_sends_same_timestamps_whatever_the_server_holds :
    updateRequest.State.value = serverExemption.ToTF
      ∧ laterUpdateRequest.State.value = laterServerExemption.ToTF
      ∧ updateRequest.Plan = laterUpdateRequest.Plan
      ∧ serverExemption.CreatedAt ≠ laterServerExemption.CreatedAt
      ∧ serverExemption.UpdatedAt ≠ laterServerExemption.UpdatedAt
      ∧ (sentOnUpdate (holding serverExemption) updateRequest).isSome = true
      ∧ sentOnUpdate (holding serverExemption) updateRequest
        = sentOnUpdate (holding laterServerExemption) laterUpdateRequest
      ∧ ¬ ((sentOnUpdate (holding serverExemption) updateRequest).map (fun s => s.CreatedAt)
            = some serverExemption.CreatedAt
          ∧ (sentOnUpdate (holding laterServerExemption) laterUpdateRequest).map
              (fun s => s.CreatedAt) = some laterServerExemption.CreatedAt)
      ∧ ¬ ((sentOnUpdate (holding serverExemption) updateRequest).map (fun s => s.UpdatedAt)
            = some serverExemption.UpdatedAt
          ∧ (sentOnUpdate (holding laterServerExemption) laterUpdateRequest).map
              (fun s => s.UpdatedAt) = some laterServerExemption.UpdatedAt) :=
  ⟨by decide, by decide, by decide, by decide, by decide, by decide, by decide, by decide,
    by decide⟩

/-- C8, as amended: for every plan and every prior state read without error, the exemption
`Update` sends through UpdateExemption carries as created_at and updated_at the timestamps
of the plan converted with ToAPIReq and as id the id of the prior state; the timestamps the
prior state holds from the last read of the server are not sent: every other prior state
read without error that holds the same id makes `Update` send the same exemption. -/
theorem update_sends_timestamps_of_plan {σ : Type} (api : ExemptionAPI σ) (now : String)
    (req : UpdateRequest) (w : σ)
    (hp : hasError req.Plan.diags = false) (hst : hasError req.State.diags = false) :
    ∃ sent : Exemption,
      (exemptionResource.Update api.logged now req (w, [])).2.2.head?
          = some (.UpdateExemption sent)
        ∧ sent.CreatedAt = req.Plan.value.ToAPIReq.CreatedAt
        ∧ sent.UpdatedAt = req.Plan.value.ToAPIReq.UpdatedAt
        ∧ sent.ID = req.State.value.ID.ValueString
        ∧ ∀ state2 : Got, hasError state2.diags = false →
            state2.value.ID.ValueString = req.State.value.ID.ValueString →
            (exemptionResource.Update api.logged now { req with State := state2 }
              (w, [])).2.2.head? = some (.UpdateExemption sent) := by
  have hlog : ∀ r : UpdateRequest, hasError r.Plan.diags = false →
      hasError r.State.diags = false →
      (exemptionResource.Update api.logged now r (w, [])).2.2.head?
        = some (.UpdateExemption
            { r.Plan.value.ToAPIReq with ID := r.State.value.ID.ValueString }) := by
    intro r h1 h2
    rw [update_log api now r w h1 h2]
    cases (api.UpdateExemption
      { r.Plan.value.ToAPIReq with ID := r.State.value.ID.ValueString } w).1 <;> rfl
  refine ⟨{ req.Plan.value.ToAPIReq with ID := req.State.value.ID.ValueString },
    hlog req hp hst, rfl, rfl, rfl, ?_⟩
  intro state2 h2 hid
  rw [hlog { req with State := state2 } hp h2]
  simp only [hid]

/-- Witness of C8 as amended: the plan against the state read from the server; the state
read from the server that holds the other timestamps differs from it in the state only. -/
theorem update_sends_timestamps_of_plan_witness :
    hasError updateRequest.Plan.diags = false ∧ hasError updateRequest.State.diags = false
      ∧ hasError laterUpdateRequest.State.diags = false
      ∧ laterUpdateRequest = { updateRequest with State := laterUpdateRequest.State }
      ∧ ∃ sent : Exemption,
        (exemptionResource.Update (holding serverExemption).logged "now" updateRequest
            ((), [])).2.2.head? = some (.UpdateExemption sent)
          ∧ sent.CreatedAt = updateRequest.Plan.value.ToAPIReq.CreatedAt
          ∧ sent.UpdatedAt = updateRequest.Plan.value.ToAPIReq.UpdatedAt
          ∧ sent.ID = updateRequest.State.value.ID.ValueString
          ∧ ∀ state2 : Got, hasError state2.diags = false →
              state2.value.ID.ValueString = updateRequest.State.value.ID.ValueString →
              (exemptionResource.Update (holding serverExemption).logged "now"
                { updateRequest with State := state2 } ((), [])).2.2.head?
                = some (.UpdateExemption sent) :=
  ⟨by decide, by decide, by decide, rfl,
    update_sends_timestamps_of_plan (holding serverExemption) "now" updateRequest ()
      (by decide) (by decide)⟩

end AdaptiveMetrics
